import Mathlib

/-!
# ggeodesy: ellipsoid geometry and the Cartesian/geodetic transformations

A shallow embedding of `include/core/ellipsoid_core.hpp`, `include/ellipsoid.hpp`
and `include/transformations.hpp`.  A C++ `double` is read as a real number.
Division and square root are those of Mathlib (total functions); where the
source divides by a quantity that can vanish on a well-formed input (the
general branch of `cartesian2geodetic`) the output is an `Option`, `none` when
the divisor is zero, because the quotient has no real value there.
`geocentric_latitude` with a height and `top2dae` (`src/top2dae.cpp`) keep the
total division; the theorems about them carry the nonzero divisor as a
hypothesis.
-/

noncomputable section

namespace dso

/-- The enumeration `dso::ellipsoid` of `ellipsoid.hpp`. -/
inductive ellipsoid where
  | grs80
  | wgs84
  | pz90
  deriving DecidableEq, Repr

namespace core

/-- Squared first eccentricity, `core::eccentricity_squared`. -/
def eccentricity_squared (f : ℝ) : ℝ :=
  (2e0 - f) * f

/-- Third flattening, `core::third_flattening`. -/
def third_flattening (f : ℝ) : ℝ :=
  f / (2e0 - f)

/-- Semi-minor axis, `core::semi_minor`. -/
def semi_minor (a f : ℝ) : ℝ :=
  a * (1e0 - f)

/-- Linear eccentricity, `core::linear_eccentricity`. -/
def linear_eccentricity (a f : ℝ) : ℝ :=
  let b := semi_minor a f
  Real.sqrt (a * a - b * b)

/-- Polar radius of curvature, `core::polar_radius_of_curvature`. -/
def polar_radius_of_curvature (a f : ℝ) : ℝ :=
  let b := semi_minor a f
  a * a / b

/-- Normal radius of curvature, `core::N`. -/
def N (a f lat : ℝ) : ℝ :=
  let sf := Real.sin lat
  a / Real.sqrt (1e0 - eccentricity_squared f * sf * sf)

namespace detail

/-- The overload `core::detail::N`, which also hands back `sin(lat)`: the
result is the pair (radius, sinlat). -/
def N (a f lat : ℝ) : ℝ × ℝ :=
  let sinlat := Real.sin lat
  (a / Real.sqrt (1e0 - eccentricity_squared f * sinlat * sinlat), sinlat)

end detail

/-- Meridional radius of curvature, `core::M`. -/
def M (a f lat : ℝ) : ℝ :=
  let r := detail.N a f lat
  let Rn := r.1
  let slat := r.2
  Rn * ((1e0 - eccentricity_squared f) / (1e0 - eccentricity_squared f * slat * slat))

/-- Geocentric latitude of a point on the ellipsoid, `core::geocentric_latitude`. -/
def geocentric_latitude (f lat : ℝ) : ℝ :=
  Real.arctan ((1e0 - f) * (1e0 - f) * Real.tan lat)

/-- Reduced latitude, `core::reduced_latitude`. -/
def reduced_latitude (f lat : ℝ) : ℝ :=
  Real.arctan ((1e0 - f) * Real.tan lat)

end core

namespace ellipsoid_traits

/-- Semi-major axis `ellipsoid_traits<E>::a` in metres. -/
def a : ellipsoid → ℝ
  | .grs80 => 6378137e0
  | .wgs84 => 6378137e0
  | .pz90 => 6378136e0

/-- Flattening `ellipsoid_traits<E>::f`. -/
def f : ellipsoid → ℝ
  | .grs80 => 1e0 / 298.257222101e0
  | .wgs84 => 1e0 / 298.257223563e0
  | .pz90 => 1e0 / 298.257839303e0

end ellipsoid_traits

/-- The template `dso::eccentricity_squared<E>()`. -/
def eccentricity_squared (E : ellipsoid) : ℝ :=
  core.eccentricity_squared (ellipsoid_traits.f E)

/-- The template `dso::linear_eccentricity<E>()`. -/
def linear_eccentricity (E : ellipsoid) : ℝ :=
  core.linear_eccentricity (ellipsoid_traits.a E) (ellipsoid_traits.f E)

/-- The template `dso::semi_minor<E>()`. -/
def semi_minor (E : ellipsoid) : ℝ :=
  core.semi_minor (ellipsoid_traits.a E) (ellipsoid_traits.f E)

/-- The template `dso::polar_radius_of_curvature<E>()`. -/
def polar_radius_of_curvature (E : ellipsoid) : ℝ :=
  core.polar_radius_of_curvature (ellipsoid_traits.a E) (ellipsoid_traits.f E)

/-- The template `dso::third_flattening<E>()`. -/
def third_flattening (E : ellipsoid) : ℝ :=
  core.third_flattening (ellipsoid_traits.f E)

/-- The template `dso::N<E>(lat)`. -/
def N (E : ellipsoid) (lat : ℝ) : ℝ :=
  core.N (ellipsoid_traits.a E) (ellipsoid_traits.f E) lat

/-- The template `dso::M<E>(lat)`. -/
def M (E : ellipsoid) (lat : ℝ) : ℝ :=
  core.M (ellipsoid_traits.a E) (ellipsoid_traits.f E) lat

/-- The class `dso::Ellipsoid`: the two private members. -/
structure Ellipsoid where
  a_ : ℝ
  f_ : ℝ

namespace Ellipsoid

/-- The constructor `Ellipsoid(ellipsoid e)`: members start at zero and the
switch assigns them from the traits. -/
def ofEnum (e : ellipsoid) : Ellipsoid :=
  match e with
  | .grs80 => ⟨ellipsoid_traits.a .grs80, ellipsoid_traits.f .grs80⟩
  | .wgs84 => ⟨ellipsoid_traits.a .wgs84, ellipsoid_traits.f .wgs84⟩
  | .pz90 => ⟨ellipsoid_traits.a .pz90, ellipsoid_traits.f .pz90⟩

/-- The member `Ellipsoid::semi_major`. -/
def semi_major (e : Ellipsoid) : ℝ := e.a_

/-- The member `Ellipsoid::flattening`. -/
def flattening (e : Ellipsoid) : ℝ := e.f_

/-- The member `Ellipsoid::eccentricity_squared`. -/
def eccentricity_squared (e : Ellipsoid) : ℝ :=
  core.eccentricity_squared e.f_

/-- The member `Ellipsoid::semi_minor`. -/
def semi_minor (e : Ellipsoid) : ℝ :=
  core.semi_minor e.a_ e.f_

end Ellipsoid

/-- The constant `DPI` of `geoconst.hpp`, `std::atan(1e0) * 4e0`. -/
def DPI : ℝ := Real.arctan 1e0 * 4e0

/-- The library function `std::atan2(y, x)` on real arguments: the angle in
`(-π, π]` of the point `(x, y)`, and `0` at the origin. -/
def atan2 (y x : ℝ) : ℝ := Complex.arg ⟨x, y⟩

/-- A Cartesian triple, the three output references of `geodetic2cartesian`. -/
structure CartesianCrd where
  x : ℝ
  y : ℝ
  z : ℝ

/-- The three output references `lat`, `lon`, `hgt` of `cartesian2geodetic`.
`lat` and `hgt` are each assigned one quotient in the general branch; the
field is `none` when the divisor of that quotient is zero. -/
structure GeodeticOut where
  lat : Option ℝ
  lon : ℝ
  hgt : Option ℝ

/-- The quotient `n / d` of two reals, undefined for a zero divisor. -/
def quot (n d : ℝ) : Option ℝ :=
  if d = 0 then none else some (n / d)

/-- The template `dso::geodetic2cartesian<E>(lat, lon, h, x, y, z)`. -/
def geodetic2cartesian (E : ellipsoid) (lat lon h : ℝ) : CartesianCrd :=
  let e2 := eccentricity_squared E
  let Rn := N E lat
  let sf := Real.sin lat
  let cf := Real.cos lat
  let sl := Real.sin lon
  let cl := Real.cos lon
  { x := (Rn + h) * cf * cl
    y := (Rn + h) * cf * sl
    z := ((1e0 - e2) * Rn + h) * sf }

/-- Lines 93 to 112 of `cartesian2geodetic`: from the squared distance `p2` to
the polar axis and `absz = |z|`, the Halley-corrected pair `(s1, cp)`. -/
def halley (E : ellipsoid) (p2 absz : ℝ) : ℝ × ℝ :=
  let a := ellipsoid_traits.a E
  let e2 := eccentricity_squared E
  let e4t := e2 * e2 * 1.5e0
  let ep2 := 1.0e0 - e2
  let ep := Real.sqrt ep2
  let p := Real.sqrt p2
  let s0 := absz / a
  let pn := p / a
  let zp := ep * s0
  let c0 := ep * pn
  let c02 := c0 * c0
  let c03 := c02 * c0
  let s02 := s0 * s0
  let s03 := s02 * s0
  let a02 := c02 + s02
  let a0 := Real.sqrt a02
  let a03 := a02 * a0
  let d0 := zp * a03 + e2 * s03
  let f0 := pn * a03 - e2 * c03
  let b0 := e4t * s02 * c02 * pn * (a0 - ep)
  let s1 := d0 * f0 - b0 * s0
  let cp := ep * (f0 * f0 - b0 * c0)
  (s1, cp)

/-- The template `dso::cartesian2geodetic<E>(x, y, z, lat, lon, hgt)`. -/
def cartesian2geodetic (E : ellipsoid) (x y z : ℝ) : GeodeticOut :=
  let a := ellipsoid_traits.a E
  let aeps2 := a * a * 1e-32
  let e2 := eccentricity_squared E
  let ep2 := 1.0e0 - e2
  let ep := Real.sqrt ep2
  let aep := a * ep
  let p2 := x * x + y * y
  let lon := if p2 ≠ 0 then atan2 y x else 0e0
  let absz := |z|
  let latHgt : Option ℝ × Option ℝ :=
    if p2 > aeps2 then
      let p := Real.sqrt p2
      let s1 := (halley E p2 absz).1
      let cp := (halley E p2 absz).2
      let s12 := s1 * s1
      let cp2 := cp * cp
      ((quot s1 cp).map Real.arctan,
        quot (p * cp + absz * s1 - a * Real.sqrt (ep2 * s12 + cp2)) (Real.sqrt (s12 + cp2)))
    else (some (DPI / 2e0), some (absz - aep))
  { lat := if z < 0e0 then latHgt.1.map (fun v => -v) else latHgt.1
    lon := lon
    hgt := latHgt.2 }

namespace Ellipsoid

/-- The constructor `Ellipsoid(double a, double f)`. -/
def ofPair (a f : ℝ) : Ellipsoid := ⟨a, f⟩

end Ellipsoid

/-- The template `dso::geocentric_latitude<E>(lat)`, for a point on the ellipsoid. -/
def geocentric_latitude (E : ellipsoid) (lat : ℝ) : ℝ :=
  core.geocentric_latitude (ellipsoid_traits.f E) lat

/-- The overload `dso::geocentric_latitude<E>(lat, h)`, for a point at height `h`. -/
def geocentric_latitude_h (E : ellipsoid) (lat h : ℝ) : ℝ :=
  let ecc2 := eccentricity_squared E
  let slat := Real.sin lat
  let clat := Real.cos lat
  let Rn := N E lat
  let rho := (Rn + h) * clat
  let z := (Rn * (1e0 - ecc2) + h) * slat
  Real.arctan (z / rho)

/-- A three-vector, `Eigen::Matrix<double, 3, 1>`, with its components `(0)`, `(1)`, `(2)`. -/
structure Vector3 where
  c0 : ℝ
  c1 : ℝ
  c2 : ℝ

/-- Modelled from the spec: `norm_angle<AngleUnit::Radians>` of `units.hpp`, which is not
among the sources; the spec says the azimuth is "normalized to [0, 2π)". -/
def norm_angle (x : ℝ) : ℝ :=
  x - 2 * Real.pi * ⌊x / (2 * Real.pi)⌋

/-- The Euclidean norm `enu.norm()` of a three-vector. -/
def Vector3.norm (v : Vector3) : ℝ :=
  Real.sqrt (v.c0 * v.c0 + v.c1 * v.c1 + v.c2 * v.c2)

/-- The return value and the two output references of the first overload of `top2dae`. -/
structure Top2dae where
  distance : ℝ
  azimouth : ℝ
  elevation : ℝ

/-- The return value and the four output references of the second overload of `top2dae`. -/
structure Top2daePartials where
  distance : ℝ
  azimouth : ℝ
  elevation : ℝ
  dAdr : Vector3
  dEdr : Vector3

/-- The first overload `dso::top2dae(enu, azimouth, elevation)`. -/
def top2dae (enu : Vector3) : Top2dae :=
  let e := enu.c0
  let n := enu.c1
  let u := enu.c2
  let rho2 := e * e + n * n
  let rho := Real.sqrt rho2
  { azimouth := norm_angle (atan2 e n)
    elevation := Real.arctan (u / rho)
    distance := enu.norm }

/-- The second overload `dso::top2dae(enu, azimouth, elevation, dAdr, dEdr)`. -/
def top2dae_partials (enu : Vector3) : Top2daePartials :=
  let e := enu.c0
  let n := enu.c1
  let u := enu.c2
  let rho2 := e * e + n * n
  let rho := Real.sqrt rho2
  let R2 := rho2 + u * u
  { azimouth := norm_angle (atan2 e n)
    elevation := Real.arctan (u / rho)
    dAdr := ⟨n / rho2, -e / rho2, 0e0⟩
    dEdr := ⟨-e * u / rho / R2, -n * u / rho / R2, rho / R2⟩
    distance := enu.norm }


/-! ## Shared facts about the constants -/

/-- The constant `DPI` is the real number pi. -/
theorem DPI_eq_pi : DPI = Real.pi := by
  unfold DPI
  norm_num [Real.arctan_one]

/-- The catalogued flattenings are positive. -/
theorem traits_f_pos (E : ellipsoid) : 0 < ellipsoid_traits.f E := by
  cases E <;> norm_num [ellipsoid_traits.f]

/-- The catalogued flattenings are below one hundredth. -/
theorem traits_f_lt (E : ellipsoid) : ellipsoid_traits.f E < 1 / 100 := by
  cases E <;> norm_num [ellipsoid_traits.f]

/-- The catalogued semi-major axes are positive. -/
theorem traits_a_pos (E : ellipsoid) : 0 < ellipsoid_traits.a E := by
  cases E <;> norm_num [ellipsoid_traits.a]

/-- One minus the squared eccentricity is the square of `1 - f`. -/
theorem core_ep2_eq (f : ℝ) : 1 - core.eccentricity_squared f = (1 - f) ^ 2 := by
  unfold core.eccentricity_squared
  norm_num
  ring

/-- The radicand of `core::N` is positive for a flattening in `[0, 1)`. -/
theorem core_radicand_pos (f lat : ℝ) (h0 : 0 ≤ f) (h1 : f < 1) :
    0 < 1 - core.eccentricity_squared f * Real.sin lat * Real.sin lat := by
  have hs : Real.sin lat * Real.sin lat ≤ 1 := by
    have := Real.sin_sq_le_one lat
    nlinarith
  have hs0 : 0 ≤ Real.sin lat * Real.sin lat := mul_self_nonneg _
  have he : core.eccentricity_squared f < 1 := by
    have := core_ep2_eq f
    have : 0 < (1 - f) ^ 2 := by
      have : 0 < 1 - f := by linarith
      positivity
    linarith
  have he0 : 0 ≤ core.eccentricity_squared f := by
    unfold core.eccentricity_squared
    norm_num
    exact mul_nonneg (by linarith) h0
  nlinarith

/-- For a catalogued ellipsoid `sqrt(1 - e2)` is `1 - f`. -/
theorem sqrt_ep2 (E : ellipsoid) :
    Real.sqrt (1 - eccentricity_squared E) = 1 - ellipsoid_traits.f E := by
  unfold eccentricity_squared
  rw [core_ep2_eq]
  exact Real.sqrt_sq (by have := traits_f_lt E; linarith)

/-- The squared eccentricity of a catalogued ellipsoid is positive. -/
theorem e2_pos (E : ellipsoid) : 0 < eccentricity_squared E := by
  have h1 := traits_f_pos E
  have h2 := traits_f_lt E
  unfold eccentricity_squared core.eccentricity_squared
  norm_num
  exact mul_pos (by linarith) h1

/-- The value of `atan2` lies in `(-pi, pi]`. -/
theorem atan2_range (y x : ℝ) : -Real.pi < atan2 y x ∧ atan2 y x ≤ Real.pi :=
  ⟨Complex.neg_pi_lt_arg _, Complex.arg_le_pi _⟩

/-- On the equatorial plane at distance `a * e2` from the axis both `s1` and `cp` vanish. -/
theorem halley_equator_sing (E : ellipsoid) (p2 : ℝ)
    (hp : Real.sqrt p2 = ellipsoid_traits.a E * eccentricity_squared E) :
    halley E p2 0 = (0, 0) := by
  have ha := traits_a_pos E
  have he := e2_pos E
  have hpn : ellipsoid_traits.a E * eccentricity_squared E / ellipsoid_traits.a E
      = eccentricity_squared E := by
    field_simp
  have hc : 0 ≤ Real.sqrt (1.0e0 - eccentricity_squared E) * eccentricity_squared E :=
    mul_nonneg (Real.sqrt_nonneg _) he.le
  simp only [halley, hp, hpn, zero_div, mul_zero, add_zero, zero_mul, sub_zero,
    Real.sqrt_mul_self hc]
  ext <;> simp


/-! ## The one-step Halley inverse on forward images -/

/-- One Horner step of an absolute-value bound. -/
theorem abs_add_mul_le {x y k X Y K : ℝ} (hx : |x| ≤ X) (hy : |y| ≤ Y) (hk : |k| ≤ K) :
    |x + k * y| ≤ X + K * Y := by
  have hK : 0 ≤ K := le_trans (abs_nonneg _) hk
  calc |x + k * y| ≤ |x| + |k * y| := abs_add _ _
    _ = |x| + |k| * |y| := by rw [abs_mul]
    _ ≤ X + K * Y := by
        have := mul_le_mul hk hy (abs_nonneg _) hK
        linarith

/-- Bound of the cofactor of `E^2 * k^2 * t * (1 - t)` in the squared Newton residual. -/
theorem newton_cofactor_bound (k t E : ℝ) (hk : |k| ≤ 2 / 125) (ht0 : 0 ≤ t) (ht1 : t ≤ 1)
    (hE0 : 0 ≤ E) (hE1 : E ≤ 7 / 1000) :
    |3 * (1 - E) ^ 3 * (1 - E * t)
          + k * (2 * (1 - E) ^ 2 * ((6 - 5 * E) - t * E * (2 - E))
          + k * (6 * (1 - E) ^ 2 * (3 - 2 * E + t * E)
          + k * (6 * (1 - E) * (2 - E) * (1 - E + t * E)
          + k * ((1 - E) ^ 2 * (3 - E) + t * E * (5 - 5 * E + E ^ 2)))))| ≤ 4 := by
  have hu0 : 0 ≤ 1 - E := by linarith
  have hu1 : 1 - E ≤ 1 := by linarith
  have htE0 : 0 ≤ t * E := mul_nonneg ht0 hE0
  have htE1 : t * E ≤ 7 / 1000 := by nlinarith
  have hu2 : (1 - E) ^ 2 ≤ 1 := pow_le_one₀ hu0 hu1
  have hu2' : 0 ≤ (1 - E) ^ 2 := by positivity
  have hu3 : (1 - E) ^ 3 ≤ 1 := pow_le_one₀ hu0 hu1
  have hu3' : 0 ≤ (1 - E) ^ 3 := by positivity
  have h0 : |3 * (1 - E) ^ 3 * (1 - E * t)| ≤ 3 := by
    rw [abs_le]
    have hw0 : 0 ≤ 1 - E * t := by nlinarith
    have hw1 : 1 - E * t ≤ 1 := by nlinarith
    constructor
    · have : 0 ≤ 3 * (1 - E) ^ 3 * (1 - E * t) := by positivity
      linarith
    · have := mul_le_mul hu3 hw1 hw0 (by norm_num : (0:ℝ) ≤ 1)
      linarith
  have h1 : |2 * (1 - E) ^ 2 * ((6 - 5 * E) - t * E * (2 - E))| ≤ 12 := by
    rw [abs_le]
    have hb0 : 0 ≤ (6 - 5 * E) - t * E * (2 - E) := by nlinarith
    have hb1 : (6 - 5 * E) - t * E * (2 - E) ≤ 6 := by nlinarith
    constructor
    · have : 0 ≤ 2 * (1 - E) ^ 2 * ((6 - 5 * E) - t * E * (2 - E)) := by positivity
      linarith
    · have := mul_le_mul hu2 hb1 hb0 (by norm_num : (0:ℝ) ≤ 1)
      linarith
  have h2 : |6 * (1 - E) ^ 2 * (3 - 2 * E + t * E)| ≤ 19 := by
    rw [abs_le]
    have hb0 : 0 ≤ 3 - 2 * E + t * E := by nlinarith
    have hb1 : 3 - 2 * E + t * E ≤ 19 / 6 := by nlinarith
    constructor
    · have : 0 ≤ 6 * (1 - E) ^ 2 * (3 - 2 * E + t * E) := by positivity
      linarith
    · have := mul_le_mul hu2 hb1 hb0 (by norm_num : (0:ℝ) ≤ 1)
      linarith
  have h3 : |6 * (1 - E) * (2 - E) * (1 - E + t * E)| ≤ 13 := by
    rw [abs_le]
    have hb0 : 0 ≤ 2 - E := by linarith
    have hc0 : 0 ≤ 1 - E + t * E := by linarith
    have hc1 : 1 - E + t * E ≤ 1 := by nlinarith
    have hp : (1 - E) * (2 - E) ≤ 2 := by nlinarith
    have hp0 : 0 ≤ (1 - E) * (2 - E) := by positivity
    constructor
    · have : 0 ≤ 6 * (1 - E) * (2 - E) * (1 - E + t * E) := by positivity
      linarith
    · have := mul_le_mul hp hc1 hc0 (by norm_num : (0:ℝ) ≤ 2)
      linarith
  have h4 : |(1 - E) ^ 2 * (3 - E) + t * E * (5 - 5 * E + E ^ 2)| ≤ 4 := by
    rw [abs_le]
    have hb0 : 0 ≤ 3 - E := by linarith
    have hb1 : 3 - E ≤ 3 := by linarith
    have hc0 : 0 ≤ 5 - 5 * E + E ^ 2 := by nlinarith
    have hc1 : 5 - 5 * E + E ^ 2 ≤ 5 := by nlinarith
    have hA0 : 0 ≤ (1 - E) ^ 2 * (3 - E) := by positivity
    have hA1 : (1 - E) ^ 2 * (3 - E) ≤ 3 := by
      have := mul_le_mul hu2 hb1 hb0 (by norm_num : (0:ℝ) ≤ 1)
      linarith
    have hB0 : 0 ≤ t * E * (5 - 5 * E + E ^ 2) := by positivity
    have hB1 : t * E * (5 - 5 * E + E ^ 2) ≤ 1 := by
      have := mul_le_mul htE1 hc1 hc0 (by norm_num : (0:ℝ) ≤ 7 / 1000)
      linarith
    constructor <;> linarith
  have s3 := abs_add_mul_le h3 h4 hk
  have s2 := abs_add_mul_le h2 s3 hk
  have s1 := abs_add_mul_le h1 s2 hk
  have s0 := abs_add_mul_le h0 s1 hk
  refine le_trans s0 ?_
  norm_num

/-- The squared Newton residual is of second order in `k` and in `E`. -/
theorem newton_residual_sq (k t E : ℝ) (hk : |k| ≤ 2 / 125) (ht0 : 0 ≤ t) (ht1 : t ≤ 1)
    (hE0 : 0 ≤ E) (hE1 : E ≤ 7 / 1000) :
    |(1 - E * t) * ((1 - E + k) ^ 3 * t + (1 - E) ^ 2 * (1 + k) ^ 3 * (1 - t)) ^ 2
      - (1 - E) * ((1 - E) * (1 + k) ^ 2 * (1 - t) + (1 - E + k) ^ 2 * t) ^ 3|
      ≤ 4 * (E ^ 2 * k ^ 2 * (t * (1 - t))) := by
  have hid : (1 - E * t) * ((1 - E + k) ^ 3 * t + (1 - E) ^ 2 * (1 + k) ^ 3 * (1 - t)) ^ 2
      - (1 - E) * ((1 - E) * (1 + k) ^ 2 * (1 - t) + (1 - E + k) ^ 2 * t) ^ 3
      = (E ^ 2 * k ^ 2 * (t * (1 - t))) *
        (3 * (1 - E) ^ 3 * (1 - E * t)
          + k * (2 * (1 - E) ^ 2 * ((6 - 5 * E) - t * E * (2 - E))
          + k * (6 * (1 - E) ^ 2 * (3 - 2 * E + t * E)
          + k * (6 * (1 - E) * (2 - E) * (1 - E + t * E)
          + k * ((1 - E) ^ 2 * (3 - E) + t * E * (5 - 5 * E + E ^ 2)))))) := by
    ring
  rw [hid, abs_mul, mul_comm 4]
  have hnn : 0 ≤ E ^ 2 * k ^ 2 * (t * (1 - t)) := by
    have : 0 ≤ 1 - t := by linarith
    positivity
  rw [abs_of_nonneg hnn]
  exact mul_le_mul_of_nonneg_left (newton_cofactor_bound k t E hk ht0 ht1 hE0 hE1) hnn

/-- Final assembly of the one-step error: from bounds on the Newton factors `F`, `Dd`,
the Halley term `B` and the Newton residual `G` to the bound on the tangent of the
latitude error. -/
theorem halley_error_assembly (s c ep E k F Dd B G C S : ℝ)
    (hs0 : 0 ≤ s) (hc0 : 0 < c) (hsc : s ^ 2 + c ^ 2 = 1)
    (hep0 : 97 / 100 ≤ ep) (hE0 : 0 ≤ E) (hE1 : E ≤ 7 / 1000)
    (hk : |k| ≤ 2 / 125)
    (hF0 : 17 / 20 * c ≤ F) (hF1 : F ≤ 11 / 10 * c) (hD0 : 17 / 20 * s ≤ Dd)
    (hB : |B| ≤ 1 / 500000 * c ^ 3) (hG : |G| ≤ 7 / 100000000)
    (hC0 : 0 ≤ C) (hC1 : C ≤ 21 / 20 * c) (hS0 : 0 ≤ S) (hS1 : S ≤ 21 / 20 * s)
    (hid1 : Dd * c - ep * F * s = s * c * E * G)
    (hid2 : S * c - ep * C * s = s * c * E * k) :
    18 / 25 * c ^ 2 ≤ F ^ 2 - B * C ∧ 18 / 25 * (s * c) ≤ Dd * F - B * S
    ∧ |(Dd * F - B * S) * c - ep * (F ^ 2 - B * C) * s|
        ≤ 1 / 100000000 * (ep * (F ^ 2 - B * C) * c + (Dd * F - B * S) * s) := by
  have hc2 : c ^ 2 ≤ 1 := by linarith only [sq_nonneg s, hsc]
  have hs2 : s ^ 2 ≤ 1 := by linarith only [sq_nonneg c, hsc]
  have hc1 : c ≤ 1 := by
    by_contra h
    push_neg at h
    nlinarith
  have hs1 : s ≤ 1 := by
    by_contra h
    push_neg at h
    nlinarith
  have hc3 : c ^ 3 ≤ c ^ 2 := by
    have : c ^ 3 = c ^ 2 * c := by ring
    rw [this]
    exact mul_le_of_le_one_right (by positivity) hc1
  have hc3' : c ^ 3 ≤ c := by
    have : c ^ 3 = c * c ^ 2 := by ring
    rw [this]
    exact mul_le_of_le_one_right hc0.le hc2
  have hc3'' : 0 ≤ c ^ 3 := by positivity
  obtain ⟨hBl, hBu⟩ := abs_le.mp hB
  obtain ⟨hGl, hGu⟩ := abs_le.mp hG
  obtain ⟨hkl, hku⟩ := abs_le.mp hk
  have hF00 : 0 ≤ F := le_trans (by positivity) hF0
  have hD00 : 0 ≤ Dd := le_trans (by positivity) hD0
  -- the Halley term times the coordinates
  have hBC : |B * C| ≤ 1 / 400000 * c ^ 2 := by
    rw [abs_mul, abs_of_nonneg hC0]
    calc |B| * C ≤ (1 / 500000 * c ^ 3) * (21 / 20 * c) :=
          mul_le_mul hB hC1 hC0 (by positivity)
      _ = 21 / 10000000 * (c ^ 3 * c) := by ring
      _ ≤ 21 / 10000000 * (c ^ 2 * 1) := by
          have : c ^ 3 * c ≤ c ^ 2 * 1 := mul_le_mul hc3 hc1 hc0.le (by positivity)
          linarith only [this]
      _ ≤ 1 / 400000 * c ^ 2 := by linarith only [sq_nonneg c]
  have hBS : |B * S| ≤ 1 / 400000 * (s * c) := by
    rw [abs_mul, abs_of_nonneg hS0]
    calc |B| * S ≤ (1 / 500000 * c ^ 3) * (21 / 20 * s) :=
          mul_le_mul hB hS1 hS0 (by positivity)
      _ = 21 / 10000000 * (s * c ^ 3) := by ring
      _ ≤ 21 / 10000000 * (s * c) := by
          have : s * c ^ 3 ≤ s * c := mul_le_mul_of_nonneg_left hc3' hs0
          linarith only [this]
      _ ≤ 1 / 400000 * (s * c) := by linarith only [mul_nonneg hs0 hc0.le]
  obtain ⟨hBCl, hBCu⟩ := abs_le.mp hBC
  obtain ⟨hBSl, hBSu⟩ := abs_le.mp hBS
  have hFF : (17 / 20 * c) ^ 2 ≤ F ^ 2 := pow_le_pow_left₀ (by positivity) hF0 2
  have hDF : (17 / 20 * s) * (17 / 20 * c) ≤ Dd * F :=
    mul_le_mul hD0 hF0 (by positivity) hD00
  have hC1pos : 18 / 25 * c ^ 2 ≤ F ^ 2 - B * C := by
    have : (17 / 20 * c) ^ 2 = 289 / 400 * c ^ 2 := by ring
    linarith only [sq_nonneg c, this, hFF, hBCl, hBCu]
  have hS1pos : 18 / 25 * (s * c) ≤ Dd * F - B * S := by
    have : (17 / 20 * s) * (17 / 20 * c) = 289 / 400 * (s * c) := by ring
    linarith only [mul_nonneg hs0 hc0.le, this, hDF, hBSl, hBSu]
  refine ⟨hC1pos, hS1pos, ?_⟩
  -- lower bound of the denominator
  have hQ : 69 / 100 * c ≤ ep * (F ^ 2 - B * C) * c + (Dd * F - B * S) * s := by
    have h1 : 97 / 100 * (18 / 25 * c ^ 2) ≤ ep * (F ^ 2 - B * C) :=
      mul_le_mul hep0 hC1pos (by positivity) (le_trans (by norm_num) hep0)
    have h2 : 97 / 100 * (18 / 25 * c ^ 2) * c ≤ ep * (F ^ 2 - B * C) * c :=
      mul_le_mul_of_nonneg_right h1 hc0.le
    have h3 : 18 / 25 * (s * c) * s ≤ (Dd * F - B * S) * s :=
      mul_le_mul_of_nonneg_right hS1pos hs0
    have h4 : 69 / 100 * c = 69 / 100 * (s ^ 2 * c) + 69 / 100 * c ^ 3 := by
      have : 69 / 100 * c = 69 / 100 * c * (s ^ 2 + c ^ 2) := by rw [hsc, mul_one]
      linear_combination this
    have h5 : 97 / 100 * (18 / 25 * c ^ 2) * c = 873 / 1250 * c ^ 3 := by ring
    have h6 : 18 / 25 * (s * c) * s = 18 / 25 * (s ^ 2 * c) := by ring
    have h7 : 0 ≤ s ^ 2 * c := by positivity
    have h8 : 0 ≤ c ^ 3 := by positivity
    linarith only [h2, h3, h4, h5, h6, h7, h8]
  -- the numerator
  have hnum : (Dd * F - B * S) * c - ep * (F ^ 2 - B * C) * s
      = s * c * E * (F * G - B * k) := by
    linear_combination F * hid1 - B * hid2
  have hX : |F * G - B * k| ≤ 11 / 100000000 := by
    have h1 : |F * G| ≤ 11 / 10 * (7 / 100000000) := by
      rw [abs_mul, abs_of_nonneg hF00]
      exact mul_le_mul (by linarith only [hF1, hc1]) hG (abs_nonneg _) (by norm_num)
    have h2 : |B * k| ≤ 1 / 500000 * (2 / 125) := by
      rw [abs_mul]
      exact mul_le_mul (by linarith only [(pow_le_one₀ hc0.le hc1 : c ^ 3 ≤ 1), hB]) hk (abs_nonneg _)
        (by norm_num)
    calc |F * G - B * k| ≤ |F * G| + |B * k| := abs_sub _ _
      _ ≤ 11 / 10 * (7 / 100000000) + 1 / 500000 * (2 / 125) := add_le_add h1 h2
      _ ≤ 11 / 100000000 := by norm_num
  rw [hnum, abs_mul, abs_of_nonneg (by positivity : 0 ≤ s * c * E)]
  have h5 : s * c * E ≤ c * (7 / 1000) := by
    have : s * c ≤ 1 * c := mul_le_mul_of_nonneg_right hs1 hc0.le
    calc s * c * E ≤ (1 * c) * (7 / 1000) := mul_le_mul this hE1 hE0 (by positivity)
      _ = c * (7 / 1000) := by ring
  calc s * c * E * |F * G - B * k| ≤ c * (7 / 1000) * (11 / 100000000) :=
        mul_le_mul h5 hX (abs_nonneg _) (by positivity)
    _ ≤ 1 / 100000000 * (69 / 100 * c) := by linarith only [hc0]
    _ ≤ _ := mul_le_mul_of_nonneg_left hQ (by norm_num)

/-- Comparison of two reals through their squares. -/
theorem le_of_sq_le_sq_nonneg {x y : ℝ} (hy : 0 ≤ y) (h : x ^ 2 ≤ y ^ 2) : x ≤ y := by
  by_contra hlt
  push_neg at hlt
  nlinarith

/-- Bounds on the Newton denominator `F = P*Y^3 - E*W*C^3`. -/
theorem newton_F_bounds (c κ Y E W ep : ℝ) (hc0 : 0 ≤ c) (hc1 : c ≤ 1)
    (hκ0 : 49 / 50 ≤ κ) (hκ1 : κ ≤ 51 / 50) (hY0 : 97 / 100 ≤ Y) (hY1 : Y ≤ 51 / 50)
    (hE0 : 0 ≤ E) (hE1 : E ≤ 7 / 1000) (hW0 : 0 ≤ W) (hW1 : W ≤ 1)
    (hep0 : 0 ≤ ep) (hep1 : ep ≤ 1) :
    17 / 20 * c ≤ κ * c * Y ^ 3 - E * W * (ep * (κ * c)) ^ 3
    ∧ κ * c * Y ^ 3 - E * W * (ep * (κ * c)) ^ 3 ≤ 11 / 10 * c := by
  have hκ00 : 0 ≤ κ := le_trans (by norm_num) hκ0
  have hY00 : 0 ≤ Y := le_trans (by norm_num) hY0
  have hY3l : (97 / 100 : ℝ) ^ 3 ≤ Y ^ 3 := pow_le_pow_left₀ (by norm_num) hY0 3
  have hY3u : Y ^ 3 ≤ (51 / 50 : ℝ) ^ 3 := pow_le_pow_left₀ hY00 hY1 3
  have hκc0 : 49 / 50 * c ≤ κ * c := mul_le_mul_of_nonneg_right hκ0 hc0
  have hκc1 : κ * c ≤ 51 / 50 * c := mul_le_mul_of_nonneg_right hκ1 hc0
  have hκc00 : 0 ≤ κ * c := mul_nonneg hκ00 hc0
  have h1l : (49 / 50 * c) * (97 / 100 : ℝ) ^ 3 ≤ κ * c * Y ^ 3 :=
    mul_le_mul hκc0 hY3l (by norm_num) hκc00
  have h1u : κ * c * Y ^ 3 ≤ (51 / 50 * c) * (51 / 50 : ℝ) ^ 3 :=
    mul_le_mul hκc1 hY3u (by positivity) (by positivity)
  have hC : ep * (κ * c) ≤ 1 * (51 / 50 * c) := mul_le_mul hep1 hκc1 hκc00 (by norm_num)
  have hC0 : 0 ≤ ep * (κ * c) := mul_nonneg hep0 hκc00
  have hC3 : (ep * (κ * c)) ^ 3 ≤ (1 * (51 / 50 * c)) ^ 3 := pow_le_pow_left₀ hC0 hC 3
  have hc3 : c ^ 3 ≤ c := by
    have h : c ^ 3 = c * c ^ 2 := by ring
    rw [h]
    exact mul_le_of_le_one_right hc0 (pow_le_one₀ hc0 hc1)
  have hC3' : (ep * (κ * c)) ^ 3 ≤ 11 / 10 * c := by
    have h : (1 * (51 / 50 * c)) ^ 3 = (51 / 50 : ℝ) ^ 3 * c ^ 3 := by ring
    have h2 : (51 / 50 : ℝ) ^ 3 ≤ 11 / 10 := by norm_num
    have h3 : (51 / 50 : ℝ) ^ 3 * c ^ 3 ≤ 11 / 10 * c :=
      mul_le_mul h2 hc3 (by positivity) (by norm_num)
    linarith only [hC3, h, h3]
  have hEW : E * W ≤ 7 / 1000 * 1 := mul_le_mul hE1 hW1 hW0 (by norm_num)
  have hEW0 : 0 ≤ E * W := mul_nonneg hE0 hW0
  have hT : E * W * (ep * (κ * c)) ^ 3 ≤ 7 / 1000 * 1 * (11 / 10 * c) :=
    mul_le_mul hEW hC3' (by positivity) (by norm_num)
  have hT0 : 0 ≤ E * W * (ep * (κ * c)) ^ 3 := mul_nonneg hEW0 (by positivity)
  constructor
  · have : (49 / 50 * c) * (97 / 100 : ℝ) ^ 3 - 7 / 1000 * 1 * (11 / 10 * c) ≥ 17 / 20 * c := by
      have h : (49 / 50 * c) * (97 / 100 : ℝ) ^ 3 - 7 / 1000 * 1 * (11 / 10 * c)
          = (49 / 50 * (97 / 100 : ℝ) ^ 3 - 77 / 10000) * c := by ring
      rw [h]
      exact mul_le_mul_of_nonneg_right (by norm_num) hc0
    linarith only [this, h1l, hT]
  · have : (51 / 50 * c) * (51 / 50 : ℝ) ^ 3 ≤ 11 / 10 * c := by
      have h : (51 / 50 * c) * (51 / 50 : ℝ) ^ 3 = (51 / 50 : ℝ) ^ 4 * c := by ring
      rw [h]
      exact mul_le_mul_of_nonneg_right (by norm_num) hc0
    linarith only [this, h1u, hT0]

/-- Lower bound on the Newton numerator `Dd = ep*S*Y^3 + E*W*S^3`. -/
theorem newton_D_lower (s ν Y E W ep : ℝ) (hs0 : 0 ≤ s)
    (hν0 : 97 / 100 ≤ ν) (hY0 : 97 / 100 ≤ Y)
    (hE0 : 0 ≤ E) (hW0 : 0 ≤ W) (hep0 : 97 / 100 ≤ ep) :
    17 / 20 * s ≤ ep * (ν * s) * Y ^ 3 + E * W * (ν * s) ^ 3 := by
  have hY3l : (97 / 100 : ℝ) ^ 3 ≤ Y ^ 3 := pow_le_pow_left₀ (by norm_num) hY0 3
  have hν00 : 0 ≤ ν := le_trans (by norm_num) hν0
  have hep00 : 0 ≤ ep := le_trans (by norm_num) hep0
  have hνs : 97 / 100 * s ≤ ν * s := mul_le_mul_of_nonneg_right hν0 hs0
  have hνs0 : 0 ≤ ν * s := mul_nonneg hν00 hs0
  have h1 : 97 / 100 * (97 / 100 * s) ≤ ep * (ν * s) :=
    mul_le_mul hep0 hνs (by positivity) hep00
  have h2 : 97 / 100 * (97 / 100 * s) * (97 / 100 : ℝ) ^ 3 ≤ ep * (ν * s) * Y ^ 3 :=
    mul_le_mul h1 hY3l (by norm_num) (mul_nonneg hep00 hνs0)
  have h3 : 0 ≤ E * W * (ν * s) ^ 3 := by positivity
  have h4 : 17 / 20 * s ≤ 97 / 100 * (97 / 100 * s) * (97 / 100 : ℝ) ^ 3 := by
    have h : 97 / 100 * (97 / 100 * s) * (97 / 100 : ℝ) ^ 3 = (97 / 100 : ℝ) ^ 5 * s := by ring
    rw [h]
    exact mul_le_mul_of_nonneg_right (by norm_num) hs0
  linarith only [h2, h3, h4]

/-- The radius `Y` differs from `ep * W` by a multiple of `k`. -/
theorem Y_sub_bound (s c ep E k W Y : ℝ) (hsc : s ^ 2 + c ^ 2 = 1)
    (hep2 : ep ^ 2 = 1 - E) (hE0 : 0 ≤ E) (hE1 : E ≤ 7 / 1000) (hk : |k| ≤ 2 / 125)
    (hW2 : W ^ 2 = 1 - E * s ^ 2) (hW0 : 97 / 100 ≤ W) (hep0 : 97 / 100 ≤ ep)
    (hY0 : 97 / 100 ≤ Y) (hY2 : Y ^ 2 = (ep * ((1 + k) * c)) ^ 2 + ((ep ^ 2 + k) * s) ^ 2) :
    |Y - ep * W| ≤ 11 / 625 := by
  have hc2 : 0 ≤ c ^ 2 := sq_nonneg c
  have hc2' : c ^ 2 ≤ 1 := by linarith only [sq_nonneg s, hsc]
  have hprod : (Y - ep * W) * (Y + ep * W) = k * (2 * (1 - E) + k * (1 - E * c ^ 2)) := by
    have h1 : (Y - ep * W) * (Y + ep * W) = Y ^ 2 - ep ^ 2 * W ^ 2 := by ring
    rw [h1, hY2, hW2]
    have h2 : (ep * ((1 + k) * c)) ^ 2 = ep ^ 2 * ((1 + k) ^ 2 * c ^ 2) := by ring
    have h3 : ((ep ^ 2 + k) * s) ^ 2 = (ep ^ 2 + k) ^ 2 * s ^ 2 := by ring
    have hs2 : s ^ 2 = 1 - c ^ 2 := by linarith only [hsc]
    rw [h2, h3, hep2, hs2]
    ring
  have hsum : 19 / 10 ≤ Y + ep * W := by
    have : 97 / 100 * (97 / 100) ≤ ep * W :=
      mul_le_mul hep0 hW0 (by norm_num) (le_trans (by norm_num) hep0)
    linarith only [this, hY0]
  have hm : |2 * (1 - E) + k * (1 - E * c ^ 2)| ≤ 2 + 2 / 125 * 1 := by
    have h1 : |2 * (1 - E)| ≤ 2 := by
      rw [abs_le]
      constructor <;> linarith only [hE0, hE1]
    have h2 : |1 - E * c ^ 2| ≤ 1 := by
      have : E * c ^ 2 ≤ 7 / 1000 * 1 := mul_le_mul hE1 hc2' hc2 (by norm_num)
      have h0 : 0 ≤ E * c ^ 2 := mul_nonneg hE0 hc2
      rw [abs_le]
      constructor <;> linarith only [this, h0]
    calc |2 * (1 - E) + k * (1 - E * c ^ 2)|
        ≤ |2 * (1 - E)| + |k * (1 - E * c ^ 2)| := abs_add _ _
      _ = |2 * (1 - E)| + |k| * |1 - E * c ^ 2| := by rw [abs_mul k]
      _ ≤ 2 + 2 / 125 * 1 := by
          have := mul_le_mul hk h2 (abs_nonneg _) (by norm_num : (0:ℝ) ≤ 2 / 125)
          linarith only [this, h1]
  have habs : |Y - ep * W| * (Y + ep * W) ≤ 2 / 125 * (2 + 2 / 125 * 1) := by
    have hpos : 0 ≤ Y + ep * W := le_trans (by norm_num) hsum
    rw [← abs_of_nonneg hpos, ← abs_mul, hprod, abs_mul]
    exact mul_le_mul hk hm (abs_nonneg _) (by norm_num)
  have h3 : |Y - ep * W| * (19 / 10) ≤ |Y - ep * W| * (Y + ep * W) :=
    mul_le_mul_of_nonneg_left hsum (abs_nonneg _)
  linarith only [habs, h3]

/-- Bound on the Halley term `B = 3/2*E^2*W*S^2*C^2*P*(Y - ep*W)`. -/
theorem halley_B_bound (s c κ ν ep E W Y : ℝ) (hs0 : 0 ≤ s) (hs1 : s ≤ 1) (hc0 : 0 ≤ c)
    (hκ0 : 0 ≤ κ) (hκ1 : κ ≤ 51 / 50) (hν0 : 0 ≤ ν) (hν1 : ν ≤ 51 / 50)
    (hep0 : 0 ≤ ep) (hep1 : ep ≤ 1) (hW0 : 0 ≤ W) (hW1 : W ≤ 1)
    (hE0 : 0 ≤ E) (hE1 : E ≤ 7 / 1000) (hY : |Y - ep * W| ≤ 11 / 625) :
    |3 / 2 * E ^ 2 * W * (ν * s) ^ 2 * (ep * (κ * c)) ^ 2 * (κ * c) * (Y - ep * W)|
      ≤ 1 / 500000 * c ^ 3 := by
  have hM0 : 0 ≤ 3 / 2 * E ^ 2 * W * (ν * s) ^ 2 * (ep * (κ * c)) ^ 2 * (κ * c) := by
    positivity
  rw [abs_mul, abs_of_nonneg hM0]
  have hM : 3 / 2 * E ^ 2 * W * (ν * s) ^ 2 * (ep * (κ * c)) ^ 2 * (κ * c)
      ≤ 3 / 2 * (7 / 1000) ^ 2 * 1 * (51 / 50 * 1) ^ 2 * (1 * (51 / 50 * c)) ^ 2
        * (51 / 50 * c) := by
    gcongr
  calc 3 / 2 * E ^ 2 * W * (ν * s) ^ 2 * (ep * (κ * c)) ^ 2 * (κ * c) * |Y - ep * W|
      ≤ (3 / 2 * (7 / 1000) ^ 2 * 1 * (51 / 50 * 1) ^ 2 * (1 * (51 / 50 * c)) ^ 2
        * (51 / 50 * c)) * (11 / 625) := mul_le_mul hM hY (abs_nonneg _) (by positivity)
    _ = (3 / 2 * (7 / 1000) ^ 2 * (51 / 50) ^ 5 * (11 / 625)) * c ^ 3 := by ring
    _ ≤ 1 / 500000 * c ^ 3 := mul_le_mul_of_nonneg_right (by norm_num) (by positivity)

/-- Bound on the Newton residual `G = W*R3 - ep*Y^3`. -/
theorem newton_G_bound (s c ep E k W Y : ℝ) (hsc : s ^ 2 + c ^ 2 = 1)
    (hep2 : ep ^ 2 = 1 - E) (hE0 : 0 ≤ E) (hE1 : E ≤ 7 / 1000) (hk : |k| ≤ 2 / 125)
    (hW2 : W ^ 2 = 1 - E * s ^ 2) (hW0 : 97 / 100 ≤ W) (hep0 : 97 / 100 ≤ ep)
    (hY0 : 97 / 100 ≤ Y) (hY2 : Y ^ 2 = (ep * ((1 + k) * c)) ^ 2 + ((ep ^ 2 + k) * s) ^ 2) :
    |W * ((ep ^ 2 + k) ^ 3 * s ^ 2 + ep ^ 4 * (1 + k) ^ 3 * c ^ 2) - ep * Y ^ 3|
      ≤ 7 / 100000000 := by
  obtain ⟨hkl, hku⟩ := abs_le.mp hk
  have hs2 : 0 ≤ s ^ 2 := sq_nonneg s
  have hc2 : 0 ≤ c ^ 2 := sq_nonneg c
  have hs2' : s ^ 2 ≤ 1 := by linarith only [hc2, hsc]
  have hc2e : c ^ 2 = 1 - s ^ 2 := by linarith only [hsc]
  have hν0 : 0 ≤ ep ^ 2 + k := by
    rw [hep2]
    linarith only [hkl, hE1]
  have hκ0 : 0 ≤ 1 + k := by linarith only [hkl]
  have hW00 : 0 ≤ W := le_trans (by norm_num) hW0
  have hep00 : 0 ≤ ep := le_trans (by norm_num) hep0
  have hY00 : 0 ≤ Y := le_trans (by norm_num) hY0
  have hR0 : 0 ≤ (ep ^ 2 + k) ^ 3 * s ^ 2 + ep ^ 4 * (1 + k) ^ 3 * c ^ 2 := by positivity
  have hY3 : (97 / 100 : ℝ) ^ 3 ≤ Y ^ 3 := pow_le_pow_left₀ (by norm_num) hY0 3
  have hsum : 4 / 5 ≤ W * ((ep ^ 2 + k) ^ 3 * s ^ 2 + ep ^ 4 * (1 + k) ^ 3 * c ^ 2)
      + ep * Y ^ 3 := by
    have h1 : 97 / 100 * (97 / 100 : ℝ) ^ 3 ≤ ep * Y ^ 3 :=
      mul_le_mul hep0 hY3 (by norm_num) hep00
    have h2 : 0 ≤ W * ((ep ^ 2 + k) ^ 3 * s ^ 2 + ep ^ 4 * (1 + k) ^ 3 * c ^ 2) :=
      mul_nonneg hW00 hR0
    have h3 : (4 / 5 : ℝ) ≤ 97 / 100 * (97 / 100 : ℝ) ^ 3 := by norm_num
    linarith only [h1, h2, h3]
  have hprod : (W * ((ep ^ 2 + k) ^ 3 * s ^ 2 + ep ^ 4 * (1 + k) ^ 3 * c ^ 2) - ep * Y ^ 3)
      * (W * ((ep ^ 2 + k) ^ 3 * s ^ 2 + ep ^ 4 * (1 + k) ^ 3 * c ^ 2) + ep * Y ^ 3)
      = (1 - E * s ^ 2) * ((1 - E + k) ^ 3 * s ^ 2
          + (1 - E) ^ 2 * (1 + k) ^ 3 * (1 - s ^ 2)) ^ 2
        - (1 - E) * ((1 - E) * (1 + k) ^ 2 * (1 - s ^ 2) + (1 - E + k) ^ 2 * s ^ 2) ^ 3 := by
    have h1 : (W * ((ep ^ 2 + k) ^ 3 * s ^ 2 + ep ^ 4 * (1 + k) ^ 3 * c ^ 2) - ep * Y ^ 3)
      * (W * ((ep ^ 2 + k) ^ 3 * s ^ 2 + ep ^ 4 * (1 + k) ^ 3 * c ^ 2) + ep * Y ^ 3)
      = W ^ 2 * ((ep ^ 2 + k) ^ 3 * s ^ 2 + (ep ^ 2) ^ 2 * (1 + k) ^ 3 * c ^ 2) ^ 2
        - ep ^ 2 * (Y ^ 2) ^ 3 := by ring
    have h2 : (ep * ((1 + k) * c)) ^ 2 + ((ep ^ 2 + k) * s) ^ 2
        = ep ^ 2 * (1 + k) ^ 2 * c ^ 2 + (ep ^ 2 + k) ^ 2 * s ^ 2 := by ring
    rw [h1, hY2, h2, hW2, hep2, hc2e]
  have hres := newton_residual_sq k (s ^ 2) E hk hs2 hs2' hE0 hE1
  rw [← hprod, abs_mul] at hres
  have hpos : 0 ≤ W * ((ep ^ 2 + k) ^ 3 * s ^ 2 + ep ^ 4 * (1 + k) ^ 3 * c ^ 2)
      + ep * Y ^ 3 := le_trans (by norm_num) hsum
  rw [abs_of_nonneg hpos] at hres
  have hrhs : 4 * (E ^ 2 * k ^ 2 * (s ^ 2 * (1 - s ^ 2)))
      ≤ 4 * ((7 / 1000) ^ 2 * (2 / 125) ^ 2 * (1 * 1)) := by
    have hk2 : k ^ 2 ≤ (2 / 125) ^ 2 := by
      rw [← sq_abs]
      exact pow_le_pow_left₀ (abs_nonneg _) hk 2
    have hc2' : 1 - s ^ 2 ≤ 1 := by linarith only [hs2]
    have hc20 : 0 ≤ 1 - s ^ 2 := by linarith only [hs2']
    gcongr
  have h3 : |W * ((ep ^ 2 + k) ^ 3 * s ^ 2 + ep ^ 4 * (1 + k) ^ 3 * c ^ 2) - ep * Y ^ 3|
      * (4 / 5) ≤ |W * ((ep ^ 2 + k) ^ 3 * s ^ 2 + ep ^ 4 * (1 + k) ^ 3 * c ^ 2) - ep * Y ^ 3|
      * (W * ((ep ^ 2 + k) ^ 3 * s ^ 2 + ep ^ 4 * (1 + k) ^ 3 * c ^ 2) + ep * Y ^ 3) :=
    mul_le_mul_of_nonneg_left hsum (abs_nonneg _)
  have h4 : (4 : ℝ) * ((7 / 1000) ^ 2 * (2 / 125) ^ 2 * (1 * 1)) ≤ 7 / 100000000 * (4 / 5) := by
    norm_num
  linarith only [hres, hrhs, h3, h4]

/-- Ranges of the scaled quantities entering the Halley step. -/
theorem halley_ranges (s c ep E k W Y : ℝ) (hsc : s ^ 2 + c ^ 2 = 1)
    (hep : 0 ≤ ep) (hep2 : ep ^ 2 = 1 - E) (hE0 : 0 ≤ E) (hE1 : E ≤ 7 / 1000)
    (hk : |k| ≤ 2 / 125) (hW : 0 ≤ W) (hW2 : W ^ 2 = 1 - E * s ^ 2) (hY : 0 ≤ Y)
    (hY2 : Y ^ 2 = (ep * ((1 + k) * c)) ^ 2 + ((ep ^ 2 + k) * s) ^ 2) :
    (99 / 100 ≤ ep ∧ ep ≤ 1) ∧ (99 / 100 ≤ W ∧ W ≤ 1)
    ∧ (49 / 50 ≤ 1 + k ∧ 1 + k ≤ 51 / 50) ∧ (97 / 100 ≤ ep ^ 2 + k ∧ ep ^ 2 + k ≤ 51 / 50)
    ∧ (97 / 100 ≤ Y ∧ Y ≤ 51 / 50) := by
  obtain ⟨hkl, hku⟩ := abs_le.mp hk
  have hs2 : 0 ≤ s ^ 2 := sq_nonneg s
  have hc2 : 0 ≤ c ^ 2 := sq_nonneg c
  have hs2' : s ^ 2 ≤ 1 := by linarith only [hc2, hsc]
  have hEs : E * s ^ 2 ≤ 7 / 1000 * 1 := mul_le_mul hE1 hs2' hs2 (by norm_num)
  have hEs0 : 0 ≤ E * s ^ 2 := mul_nonneg hE0 hs2
  have hepl : 99 / 100 ≤ ep :=
    le_of_sq_le_sq_nonneg hep (by rw [hep2]; norm_num; linarith only [hE1])
  have hepu : ep ≤ 1 :=
    le_of_sq_le_sq_nonneg (by norm_num) (by rw [hep2]; norm_num; linarith only [hE0])
  have hWl : 99 / 100 ≤ W :=
    le_of_sq_le_sq_nonneg hW (by rw [hW2]; norm_num; linarith only [hEs])
  have hWu : W ≤ 1 :=
    le_of_sq_le_sq_nonneg (by norm_num) (by rw [hW2]; norm_num; linarith only [hEs0])
  have hκl : 49 / 50 ≤ 1 + k := by linarith only [hkl]
  have hκu : 1 + k ≤ 51 / 50 := by linarith only [hku]
  have hνl : 97 / 100 ≤ ep ^ 2 + k := by rw [hep2]; linarith only [hkl, hE1]
  have hνu : ep ^ 2 + k ≤ 51 / 50 := by rw [hep2]; linarith only [hku, hE0]
  have hY2' : Y ^ 2 = (ep * (1 + k)) ^ 2 * c ^ 2 + (ep ^ 2 + k) ^ 2 * s ^ 2 := by
    rw [hY2]; ring
  have ha0 : 0 ≤ ep * (1 + k) := mul_nonneg hep (le_trans (by norm_num) hκl)
  have hal : 99 / 100 * (49 / 50) ≤ ep * (1 + k) :=
    mul_le_mul hepl hκl (by norm_num) hep
  have hau : ep * (1 + k) ≤ 1 * (51 / 50) :=
    mul_le_mul hepu hκu (le_trans (by norm_num) hκl) (by norm_num)
  have ha2l : (99 / 100 * (49 / 50) : ℝ) ^ 2 ≤ (ep * (1 + k)) ^ 2 :=
    pow_le_pow_left₀ (by norm_num) hal 2
  have ha2u : (ep * (1 + k)) ^ 2 ≤ (1 * (51 / 50) : ℝ) ^ 2 := pow_le_pow_left₀ ha0 hau 2
  have hν2l : (97 / 100 : ℝ) ^ 2 ≤ (ep ^ 2 + k) ^ 2 := pow_le_pow_left₀ (by norm_num) hνl 2
  have hν2u : (ep ^ 2 + k) ^ 2 ≤ (51 / 50 : ℝ) ^ 2 :=
    pow_le_pow_left₀ (le_trans (by norm_num) hνl) hνu 2
  have h1l : (99 / 100 * (49 / 50) : ℝ) ^ 2 * c ^ 2 ≤ (ep * (1 + k)) ^ 2 * c ^ 2 :=
    mul_le_mul_of_nonneg_right ha2l hc2
  have h1u : (ep * (1 + k)) ^ 2 * c ^ 2 ≤ (1 * (51 / 50) : ℝ) ^ 2 * c ^ 2 :=
    mul_le_mul_of_nonneg_right ha2u hc2
  have h2l : (97 / 100 : ℝ) ^ 2 * s ^ 2 ≤ (ep ^ 2 + k) ^ 2 * s ^ 2 :=
    mul_le_mul_of_nonneg_right hν2l hs2
  have h2u : (ep ^ 2 + k) ^ 2 * s ^ 2 ≤ (51 / 50 : ℝ) ^ 2 * s ^ 2 :=
    mul_le_mul_of_nonneg_right hν2u hs2
  have hYl : 97 / 100 ≤ Y := by
    apply le_of_sq_le_sq_nonneg hY
    rw [hY2']
    have e1 : (99 / 100 * (49 / 50) : ℝ) ^ 2 * c ^ 2 = 23532201 / 25000000 * c ^ 2 := by
      ring
    have e2 : (97 / 100 : ℝ) ^ 2 * s ^ 2 = 9409 / 10000 * s ^ 2 := by ring
    have e3 : (97 / 100 : ℝ) ^ 2 = 9409 / 10000 * (s ^ 2 + c ^ 2) := by rw [hsc]; norm_num
    linarith only [h1l, h2l, e1, e2, e3, hc2]
  have hYu : Y ≤ 51 / 50 := by
    apply le_of_sq_le_sq_nonneg (by norm_num)
    rw [hY2']
    have e1 : (1 * (51 / 50) : ℝ) ^ 2 * c ^ 2 = 2601 / 2500 * c ^ 2 := by ring
    have e2 : (51 / 50 : ℝ) ^ 2 * s ^ 2 = 2601 / 2500 * s ^ 2 := by ring
    have e3 : (51 / 50 : ℝ) ^ 2 = 2601 / 2500 * (s ^ 2 + c ^ 2) := by rw [hsc]; norm_num
    linarith only [h1u, h2u, e1, e2, e3]
  exact ⟨⟨hepl, hepu⟩, ⟨hWl, hWu⟩, ⟨hκl, hκu⟩, ⟨hνl, hνu⟩, ⟨hYl, hYu⟩⟩

/-- One Halley step from the scaled starting point: the corrected pair has positive
cosine part, nonnegative sine part, and its direction is within `1e-8` (in tangent) of
the direction `(c, s)` of the geodetic latitude. -/
theorem halley_step_core (s c ep E k W Y F Dd B : ℝ)
    (hs0 : 0 ≤ s) (hc0 : 0 < c) (hsc : s ^ 2 + c ^ 2 = 1)
    (hep : 0 ≤ ep) (hep2 : ep ^ 2 = 1 - E) (hE0 : 0 ≤ E) (hE1 : E ≤ 7 / 1000)
    (hk : |k| ≤ 2 / 125) (hW : 0 ≤ W) (hW2 : W ^ 2 = 1 - E * s ^ 2) (hY : 0 ≤ Y)
    (hY2 : Y ^ 2 = (ep * ((1 + k) * c)) ^ 2 + ((ep ^ 2 + k) * s) ^ 2)
    (hF : F = (1 + k) * c * Y ^ 3 - E * W * (ep * ((1 + k) * c)) ^ 3)
    (hD : Dd = ep * ((ep ^ 2 + k) * s) * Y ^ 3 + E * W * ((ep ^ 2 + k) * s) ^ 3)
    (hB : B = 3 / 2 * E ^ 2 * W * ((ep ^ 2 + k) * s) ^ 2 * (ep * ((1 + k) * c)) ^ 2
      * ((1 + k) * c) * (Y - ep * W)) :
    18 / 25 * c ^ 2 ≤ F ^ 2 - B * (ep * ((1 + k) * c))
    ∧ 18 / 25 * (s * c) ≤ Dd * F - B * ((ep ^ 2 + k) * s)
    ∧ |(Dd * F - B * ((ep ^ 2 + k) * s)) * c - ep * (F ^ 2 - B * (ep * ((1 + k) * c))) * s|
        ≤ 1 / 100000000 * (ep * (F ^ 2 - B * (ep * ((1 + k) * c))) * c
          + (Dd * F - B * ((ep ^ 2 + k) * s)) * s) := by
  obtain ⟨⟨hepl, hepu⟩, ⟨hWl, hWu⟩, ⟨hκl, hκu⟩, ⟨hνl, hνu⟩, ⟨hYl, hYu⟩⟩ :=
    halley_ranges s c ep E k W Y hsc hep hep2 hE0 hE1 hk hW hW2 hY hY2
  have hs2 : s ^ 2 ≤ 1 := by linarith only [sq_nonneg c, hsc]
  have hc2 : c ^ 2 ≤ 1 := by linarith only [sq_nonneg s, hsc]
  have hs1 : s ≤ 1 := le_of_sq_le_sq_nonneg (by norm_num) (by linarith only [hs2])
  have hc1 : c ≤ 1 := le_of_sq_le_sq_nonneg (by norm_num) (by linarith only [hc2])
  have hκ0 : 0 ≤ 1 + k := le_trans (by norm_num) hκl
  have hν0 : 0 ≤ ep ^ 2 + k := le_trans (by norm_num) hνl
  have hFb := newton_F_bounds c (1 + k) Y E W ep hc0.le hc1 hκl hκu hYl hYu hE0 hE1 hW hWu
    hep hepu
  rw [← hF] at hFb
  have hDb := newton_D_lower s (ep ^ 2 + k) Y E W ep hs0 hνl hYl hE0 hW
    (le_trans (by norm_num) hepl)
  rw [← hD] at hDb
  have hYs := Y_sub_bound s c ep E k W Y hsc hep2 hE0 hE1 hk hW2
    (le_trans (by norm_num) hWl) (le_trans (by norm_num) hepl) hYl hY2
  have hBb := halley_B_bound s c (1 + k) (ep ^ 2 + k) ep E W Y hs0 hs1 hc0.le hκ0 hκu hν0 hνu
    hep hepu hW hWu hE0 hE1 hYs
  rw [← hB] at hBb
  have hGb := newton_G_bound s c ep E k W Y hsc hep2 hE0 hE1 hk hW2
    (le_trans (by norm_num) hWl) (le_trans (by norm_num) hepl) hYl hY2
  have hC0 : 0 ≤ ep * ((1 + k) * c) := mul_nonneg hep (mul_nonneg hκ0 hc0.le)
  have hC1 : ep * ((1 + k) * c) ≤ 21 / 20 * c := by
    have h1 : (1 + k) * c ≤ 51 / 50 * c := mul_le_mul_of_nonneg_right hκu hc0.le
    have h2 : ep * ((1 + k) * c) ≤ 1 * (51 / 50 * c) :=
      mul_le_mul hepu h1 (mul_nonneg hκ0 hc0.le) (by norm_num)
    linarith only [h2, hc0]
  have hS0 : 0 ≤ (ep ^ 2 + k) * s := mul_nonneg hν0 hs0
  have hS1 : (ep ^ 2 + k) * s ≤ 21 / 20 * s := by
    have h1 : (ep ^ 2 + k) * s ≤ 51 / 50 * s := mul_le_mul_of_nonneg_right hνu hs0
    linarith only [h1, hs0]
  have hνκ : ep ^ 2 + k - (1 + k) = -E := by rw [hep2]; ring
  have hid1 : Dd * c - ep * F * s = s * c * E
      * (W * ((ep ^ 2 + k) ^ 3 * s ^ 2 + ep ^ 4 * (1 + k) ^ 3 * c ^ 2) - ep * Y ^ 3) := by
    rw [hD, hF]
    linear_combination (ep * s * c * Y ^ 3) * hνκ
  have hid2 : (ep ^ 2 + k) * s * c - ep * (ep * ((1 + k) * c)) * s = s * c * E * k := by
    linear_combination (-(s * c * k)) * hep2
  exact halley_error_assembly s c ep E k F Dd B _ _ _ hs0 hc0 hsc
    (le_trans (by norm_num) hepl) hE0 hE1 hk hFb.1 hFb.2 hDb hBb hGb hC0 hC1 hS0 hS1
    hid1 hid2

/-- The pair computed by `halley`, with the normalised inputs `pn`, `s0`, the radius `a0`
and the Newton and Halley factors `d0`, `f0`, `b0` named. -/
theorem halley_eq (E : ellipsoid) (p2 absz pn s0 a0 d0 f0 b0 : ℝ)
    (hpn : Real.sqrt p2 / ellipsoid_traits.a E = pn) (hs0 : absz / ellipsoid_traits.a E = s0)
    (ha0 : Real.sqrt (Real.sqrt (1 - eccentricity_squared E) * pn
        * (Real.sqrt (1 - eccentricity_squared E) * pn) + s0 * s0) = a0)
    (hd0 : Real.sqrt (1 - eccentricity_squared E) * s0 * (a0 ^ 2 * a0)
        + eccentricity_squared E * (s0 * s0 * s0) = d0)
    (hf0 : pn * (a0 ^ 2 * a0) - eccentricity_squared E
        * (Real.sqrt (1 - eccentricity_squared E) * pn
          * (Real.sqrt (1 - eccentricity_squared E) * pn)
          * (Real.sqrt (1 - eccentricity_squared E) * pn)) = f0)
    (hb0 : eccentricity_squared E * eccentricity_squared E * (3 / 2) * (s0 * s0)
        * (Real.sqrt (1 - eccentricity_squared E) * pn
          * (Real.sqrt (1 - eccentricity_squared E) * pn)) * pn
        * (a0 - Real.sqrt (1 - eccentricity_squared E)) = b0) :
    halley E p2 absz =
      (d0 * f0 - b0 * s0,
        Real.sqrt (1 - eccentricity_squared E)
          * (f0 * f0 - b0 * (Real.sqrt (1 - eccentricity_squared E) * pn))) := by
  have h1 : (1.0e0 : ℝ) = 1 := by norm_num
  have h2 : (1.5e0 : ℝ) = 3 / 2 := by norm_num
  have ha02 : Real.sqrt (1 - eccentricity_squared E) * pn
        * (Real.sqrt (1 - eccentricity_squared E) * pn) + s0 * s0 = a0 ^ 2 := by
    rw [← ha0]
    rw [Real.sq_sqrt]
    exact add_nonneg (mul_self_nonneg _) (mul_self_nonneg _)
  have ha00 : 0 ≤ a0 := by
    rw [← ha0]
    exact Real.sqrt_nonneg _
  have hsq : Real.sqrt (a0 ^ 2) = a0 := Real.sqrt_sq ha00
  simp only [halley, h1, h2, hpn, hs0, ha02, hsq, hd0, hf0, hb0]

/-- The squared eccentricity of a catalogued ellipsoid is at most `0.007`. -/
theorem e2_le (E : ellipsoid) : eccentricity_squared E ≤ 7 / 1000 := by
  cases E <;>
    norm_num [eccentricity_squared, core.eccentricity_squared, ellipsoid_traits.f]

/-- The catalogued semi-major axes are at least `6378136` m. -/
theorem traits_a_ge (E : ellipsoid) : 6378136 ≤ ellipsoid_traits.a E := by
  cases E <;> norm_num [ellipsoid_traits.a]

/-- The square of `sqrt(1 - e2)` for a catalogued ellipsoid. -/
theorem sqrt_ep2_sq (E : ellipsoid) :
    Real.sqrt (1 - eccentricity_squared E) ^ 2 = 1 - eccentricity_squared E :=
  Real.sq_sqrt (by have := e2_le E; linarith)

/-- The radius of the starting point in scaled form. -/
theorem scaled_radius (ep s c k W Y : ℝ) (hW : 0 < W) (hY : 0 ≤ Y)
    (hY2 : Y ^ 2 = (ep * ((1 + k) * c)) ^ 2 + ((ep ^ 2 + k) * s) ^ 2) :
    Real.sqrt (ep * ((1 + k) * c / W) * (ep * ((1 + k) * c / W))
        + (ep ^ 2 + k) * s / W * ((ep ^ 2 + k) * s / W)) = Y / W := by
  have hW0 : W ≠ 0 := hW.ne'
  have : ep * ((1 + k) * c / W) * (ep * ((1 + k) * c / W))
      + (ep ^ 2 + k) * s / W * ((ep ^ 2 + k) * s / W) = (Y / W) ^ 2 := by
    rw [div_pow, hY2]; field_simp; ring
  rw [this]
  exact Real.sqrt_sq (div_nonneg hY hW.le)

/-- The Newton and Halley factors in scaled form. -/
theorem scaled_factors (ep e2 s c k W Y : ℝ) (hW : W ≠ 0) :
    (ep * ((ep ^ 2 + k) * s / W) * ((Y / W) ^ 2 * (Y / W))
      + e2 * ((ep ^ 2 + k) * s / W * ((ep ^ 2 + k) * s / W) * ((ep ^ 2 + k) * s / W))
      = (ep * ((ep ^ 2 + k) * s) * Y ^ 3 + e2 * W * ((ep ^ 2 + k) * s) ^ 3) / W ^ 4)
    ∧ ((1 + k) * c / W * ((Y / W) ^ 2 * (Y / W)) - e2
        * (ep * ((1 + k) * c / W) * (ep * ((1 + k) * c / W)) * (ep * ((1 + k) * c / W)))
      = ((1 + k) * c * Y ^ 3 - e2 * W * (ep * ((1 + k) * c)) ^ 3) / W ^ 4)
    ∧ (e2 * e2 * (3 / 2) * ((ep ^ 2 + k) * s / W * ((ep ^ 2 + k) * s / W))
        * (ep * ((1 + k) * c / W) * (ep * ((1 + k) * c / W)))
        * ((1 + k) * c / W) * (Y / W - ep)
      = (3 / 2 * e2 ^ 2 * W * ((ep ^ 2 + k) * s) ^ 2 * (ep * ((1 + k) * c)) ^ 2
          * ((1 + k) * c) * (Y - ep * W)) / W ^ 7) := by
  refine ⟨?_, ?_, ?_⟩
  · field_simp; ring
  · field_simp; ring
  · field_simp; ring

/-- Recombination of the scaled factors. -/
theorem scaled_pair (ep F Dd B S C W : ℝ) (hW : W ≠ 0) :
    Dd / W ^ 4 * (F / W ^ 4) - B / W ^ 7 * (S / W) = (Dd * F - B * S) / W ^ 8
    ∧ ep * (F / W ^ 4 * (F / W ^ 4) - B / W ^ 7 * (ep * (C / W)))
      = ep * (F ^ 2 - B * (ep * C)) / W ^ 8 := by
  constructor
  · field_simp; ring
  · field_simp; ring

/-- A direction bound survives division of the pair by a positive factor. -/
theorem scaled_error (S1 C1 c s w ε : ℝ) (hw : 0 < w)
    (h : |S1 * c - C1 * s| ≤ ε * (C1 * c + S1 * s)) :
    |S1 / w * c - C1 / w * s| ≤ ε * (C1 / w * c + S1 / w * s) := by
  have e1 : S1 / w * c - C1 / w * s = (S1 * c - C1 * s) / w := by ring
  have e2 : ε * (C1 / w * c + S1 / w * s) = ε * (C1 * c + S1 * s) / w := by ring
  rw [e1, e2, abs_div, abs_of_pos hw]
  exact div_le_div_of_nonneg_right h hw.le

/-- The pair computed by `halley` when the normalised inputs are `(1+k)*c/W` and
`(ep^2+k)*s/W`: up to the factor `W^8` it is the pair of the scaled Halley step. -/
theorem halley_scaled (E : ellipsoid) (p2 absz s c k W Y F Dd B : ℝ) (hW : 0 < W)
    (hY : 0 ≤ Y)
    (hY2 : Y ^ 2 = (Real.sqrt (1 - eccentricity_squared E) * ((1 + k) * c)) ^ 2
      + ((Real.sqrt (1 - eccentricity_squared E) ^ 2 + k) * s) ^ 2)
    (hpn : Real.sqrt p2 / ellipsoid_traits.a E = (1 + k) * c / W)
    (hs0 : absz / ellipsoid_traits.a E
      = (Real.sqrt (1 - eccentricity_squared E) ^ 2 + k) * s / W)
    (hF : F = (1 + k) * c * Y ^ 3 - eccentricity_squared E * W
      * (Real.sqrt (1 - eccentricity_squared E) * ((1 + k) * c)) ^ 3)
    (hD : Dd = Real.sqrt (1 - eccentricity_squared E)
        * ((Real.sqrt (1 - eccentricity_squared E) ^ 2 + k) * s) * Y ^ 3
      + eccentricity_squared E * W
        * ((Real.sqrt (1 - eccentricity_squared E) ^ 2 + k) * s) ^ 3)
    (hB : B = 3 / 2 * eccentricity_squared E ^ 2 * W
      * ((Real.sqrt (1 - eccentricity_squared E) ^ 2 + k) * s) ^ 2
      * (Real.sqrt (1 - eccentricity_squared E) * ((1 + k) * c)) ^ 2 * ((1 + k) * c)
      * (Y - Real.sqrt (1 - eccentricity_squared E) * W)) :
    halley E p2 absz =
      ((Dd * F - B * ((Real.sqrt (1 - eccentricity_squared E) ^ 2 + k) * s)) / W ^ 8,
        Real.sqrt (1 - eccentricity_squared E)
          * (F ^ 2 - B * (Real.sqrt (1 - eccentricity_squared E) * ((1 + k) * c))) / W ^ 8) := by
  have hW0 : W ≠ 0 := hW.ne'
  have ha0 := scaled_radius (Real.sqrt (1 - eccentricity_squared E)) s c k W Y hW hY hY2
  obtain ⟨hd0, hf0, hb0⟩ := scaled_factors (Real.sqrt (1 - eccentricity_squared E))
    (eccentricity_squared E) s c k W Y hW0
  rw [← hD] at hd0
  rw [← hF] at hf0
  rw [← hB] at hb0
  rw [halley_eq E p2 absz _ _ _ _ _ _ hpn hs0 ha0 hd0 hf0 hb0]
  obtain ⟨h1, h2⟩ := scaled_pair (Real.sqrt (1 - eccentricity_squared E)) F Dd B
    ((Real.sqrt (1 - eccentricity_squared E) ^ 2 + k) * s) ((1 + k) * c) W hW0
  rw [h1, h2]

/-- The Halley pair at the forward image of a point with latitude direction `(c, s)`,
`s >= 0`, `c > 0`, and height `-1000 <= h <= 100000`. -/
theorem halley_forward (E : ellipsoid) (s c h p2 absz : ℝ) (hs0 : 0 ≤ s) (hc0 : 0 < c)
    (hsc : s ^ 2 + c ^ 2 = 1) (hh0 : -1000 ≤ h) (hh1 : h ≤ 100000)
    (hp2 : Real.sqrt p2 = (ellipsoid_traits.a E
      / Real.sqrt (1 - eccentricity_squared E * s ^ 2) + h) * c)
    (hz : absz = ((1 - eccentricity_squared E) * (ellipsoid_traits.a E
        / Real.sqrt (1 - eccentricity_squared E * s ^ 2)) + h) * s) :
    0 < (halley E p2 absz).2 ∧ 0 ≤ (halley E p2 absz).1
    ∧ |(halley E p2 absz).1 * c - (halley E p2 absz).2 * s|
      ≤ 1 / 100000000 * ((halley E p2 absz).2 * c + (halley E p2 absz).1 * s) := by
  have ha := traits_a_pos E
  have hage := traits_a_ge E
  have hE0 := (e2_pos E).le
  have hE1 := e2_le E
  have hs2 : s ^ 2 ≤ 1 := by linarith only [sq_nonneg c, hsc]
  have hrad : 0 < 1 - eccentricity_squared E * s ^ 2 := by
    have : eccentricity_squared E * s ^ 2 ≤ 7 / 1000 * 1 :=
      mul_le_mul hE1 hs2 (sq_nonneg s) (by norm_num)
    linarith only [this]
  generalize hWdef : Real.sqrt (1 - eccentricity_squared E * s ^ 2) = W at hp2 hz
  have hW : 0 < W := by rw [← hWdef]; exact Real.sqrt_pos.mpr hrad
  have hW2 : W ^ 2 = 1 - eccentricity_squared E * s ^ 2 := by
    rw [← hWdef]; exact Real.sq_sqrt hrad.le
  have hep : 0 ≤ Real.sqrt (1 - eccentricity_squared E) := Real.sqrt_nonneg _
  have hep2 := sqrt_ep2_sq E
  have hW1 : W ≤ 1 := by
    apply le_of_sq_le_sq_nonneg (by norm_num)
    rw [hW2]
    have := mul_nonneg hE0 (sq_nonneg s)
    linarith only [this]
  -- the scaled height
  have hk : |h * W / ellipsoid_traits.a E| ≤ 2 / 125 := by
    rw [abs_le]
    constructor
    · rw [le_div_iff₀ ha]
      have h1 : -1000 * 1 ≤ h * W := by
        by_cases hneg : h ≤ 0
        · have : h * W ≥ h * 1 := mul_le_mul_of_nonpos_left hW1 hneg
          linarith only [this, hh0]
        · push_neg at hneg
          have : 0 ≤ h * W := mul_nonneg hneg.le hW.le
          linarith only [this]
      linarith only [h1, hage]
    · rw [div_le_iff₀ ha]
      have h1 : h * W ≤ 100000 * 1 := by
        by_cases hneg : h ≤ 0
        · have : h * W ≤ 0 := mul_nonpos_of_nonpos_of_nonneg hneg hW.le
          linarith only [this]
        · push_neg at hneg
          exact mul_le_mul hh1 hW1 hW.le (by norm_num)
      linarith only [h1, hage]
  generalize hkdef : h * W / ellipsoid_traits.a E = k at hk
  have hh : h = k * ellipsoid_traits.a E / W := by
    rw [← hkdef]; field_simp
  -- the radius of the starting point
  generalize hYdef : Real.sqrt ((Real.sqrt (1 - eccentricity_squared E) * ((1 + k) * c)) ^ 2
    + ((Real.sqrt (1 - eccentricity_squared E) ^ 2 + k) * s) ^ 2) = Y
  have hY : 0 ≤ Y := by rw [← hYdef]; exact Real.sqrt_nonneg _
  have hY2 : Y ^ 2 = (Real.sqrt (1 - eccentricity_squared E) * ((1 + k) * c)) ^ 2
      + ((Real.sqrt (1 - eccentricity_squared E) ^ 2 + k) * s) ^ 2 := by
    rw [← hYdef]; exact Real.sq_sqrt (by positivity)
  have hpn : Real.sqrt p2 / ellipsoid_traits.a E = (1 + k) * c / W := by
    rw [hp2, hh]; field_simp; ring
  have hs0' : absz / ellipsoid_traits.a E
      = (Real.sqrt (1 - eccentricity_squared E) ^ 2 + k) * s / W := by
    rw [hz, hh, hep2]; field_simp; ring
  obtain ⟨hC1, hS1, hErr⟩ := halley_step_core s c (Real.sqrt (1 - eccentricity_squared E))
    (eccentricity_squared E) k W Y _ _ _ hs0 hc0 hsc hep hep2 hE0 hE1 hk hW.le hW2 hY hY2
    rfl rfl rfl
  rw [halley_scaled E p2 absz s c k W Y _ _ _ hW hY hY2 hpn hs0' rfl rfl rfl]
  have hW8 : 0 < W ^ 8 := by positivity
  have hep0 : 0 < Real.sqrt (1 - eccentricity_squared E) :=
    Real.sqrt_pos.mpr (by linarith only [hE1])
  simp only
  refine ⟨?_, ?_, ?_⟩
  · apply div_pos _ hW8
    apply mul_pos hep0
    have : 0 < 18 / 25 * c ^ 2 := by positivity
    linarith only [this, hC1]
  · apply div_nonneg _ hW8.le
    have : 0 ≤ 18 / 25 * (s * c) := by positivity
    linarith only [this, hS1]
  · exact scaled_error _ _ c s (W ^ 8) _ hW8 hErr

/-- The arc tangent is bounded by its argument in absolute value. -/
theorem abs_arctan_le_abs (u : ℝ) : |Real.arctan u| ≤ |u| := by
  have key : ∀ v : ℝ, 0 ≤ v → Real.arctan v ≤ v := by
    intro v hv
    rcases hv.eq_or_lt with h0 | hpos
    · rw [← h0, Real.arctan_zero]
    · have h1 : 0 < Real.arctan v := by
        rw [← Real.arctan_zero]
        exact Real.arctan_strictMono hpos
      have h2 := Real.lt_tan h1 (Real.arctan_lt_pi_div_two v)
      rw [Real.tan_arctan] at h2
      exact h2.le
  rcases le_total 0 u with hu | hu
  · have h1 : 0 ≤ Real.arctan u := by
      rw [← Real.arctan_zero]
      exact Real.arctan_strictMono.monotone hu
    rw [abs_of_nonneg h1, abs_of_nonneg hu]
    exact key u hu
  · have h1 : Real.arctan u ≤ 0 := by
      rw [← Real.arctan_zero]
      exact Real.arctan_strictMono.monotone hu
    rw [abs_of_nonpos h1, abs_of_nonpos hu, ← Real.arctan_neg]
    exact key (-u) (by linarith)

/-- Two directions in the open right half plane whose cross product is small relative to
their dot product have close polar angles. -/
theorem arctan_direction_close (s1 cp s c ε : ℝ) (hs1 : 0 ≤ s1) (hcp : 0 < cp)
    (hs : 0 ≤ s) (hc : 0 < c) (h : |s1 * c - cp * s| ≤ ε * (cp * c + s1 * s)) :
    |Real.arctan (s1 / cp) - Real.arctan (s / c)| ≤ ε := by
  have hT : 0 ≤ s1 / cp := div_nonneg hs1 hcp.le
  have hτ : 0 ≤ s / c := div_nonneg hs hc.le
  have hlt : s1 / cp * -(s / c) < 1 := by
    have : 0 ≤ s1 / cp * (s / c) := mul_nonneg hT hτ
    linarith
  have hsub : Real.arctan (s1 / cp) - Real.arctan (s / c)
      = Real.arctan ((s1 / cp + -(s / c)) / (1 - s1 / cp * -(s / c))) := by
    rw [← Real.arctan_add hlt, Real.arctan_neg]
    ring
  have hQ : 0 < cp * c + s1 * s := by positivity
  have hu : (s1 / cp + -(s / c)) / (1 - s1 / cp * -(s / c))
      = (s1 * c - cp * s) / (cp * c + s1 * s) := by
    field_simp
    ring
  rw [hsub, hu]
  refine le_trans (abs_arctan_le_abs _) ?_
  rw [abs_div, abs_of_pos hQ, div_le_iff₀ hQ]
  exact h

/-- The height formula of the general branch evaluated at a direction `(cp, s1)` close to
the true direction `(c, s)`: the height error is of second order in the direction error. -/
theorem height_formula_error (a h E s c W s1 cp R V ε : ℝ) (ha : 0 < a)
    (hE0 : 0 ≤ E) (hE1 : E ≤ 7 / 1000) (hs : 0 ≤ s) (hc : 0 < c)
    (hsc : s ^ 2 + c ^ 2 = 1) (hW : 0 < W) (hW2 : W ^ 2 = 1 - E * s ^ 2)
    (hs1 : 0 ≤ s1) (hcp : 0 < cp) (hR : 0 < R) (hR2 : R ^ 2 = s1 ^ 2 + cp ^ 2)
    (hV : 0 ≤ V) (hV2 : V ^ 2 = (1 - E) * s1 ^ 2 + cp ^ 2)
    (hδ : |s1 * c - cp * s| ≤ ε * (cp * c + s1 * s)) :
    |((a / W + h) * c * cp + ((1 - E) * (a / W) + h) * s * s1 - a * V) / R - h|
      ≤ (|h| + 11 / 10 * a) * ε ^ 2 := by
  have hQd : 0 < cp * c + s1 * s := by positivity
  -- the squared cross product
  have hδ2 : (s1 * c - cp * s) ^ 2 ≤ ε ^ 2 * (cp * c + s1 * s) ^ 2 := by
    rw [← sq_abs, ← mul_pow]
    exact pow_le_pow_left₀ (abs_nonneg _) hδ 2
  -- Cauchy-Schwarz for the plain dot product
  have hid1 : (R - (cp * c + s1 * s)) * (R + (cp * c + s1 * s)) = (s1 * c - cp * s) ^ 2 := by
    have : (R - (cp * c + s1 * s)) * (R + (cp * c + s1 * s))
        = R ^ 2 - (cp * c + s1 * s) ^ 2 := by ring
    rw [this, hR2]
    linear_combination (-(s1 ^ 2 + cp ^ 2)) * hsc
  have hRQ : 0 < R + (cp * c + s1 * s) := by linarith only [hR, hQd]
  have hi0 : 0 ≤ R - (cp * c + s1 * s) := by
    have h1 : 0 ≤ (R - (cp * c + s1 * s)) * (R + (cp * c + s1 * s)) := by
      rw [hid1]; exact sq_nonneg _
    exact nonneg_of_mul_nonneg_left h1 hRQ
  have hQR : cp * c + s1 * s ≤ R := by linarith only [hi0]
  have hQ2 : (cp * c + s1 * s) ^ 2 ≤ R ^ 2 := pow_le_pow_left₀ hQd.le hQR 2
  have hδR : (s1 * c - cp * s) ^ 2 ≤ ε ^ 2 * R ^ 2 :=
    le_trans hδ2 (mul_le_mul_of_nonneg_left hQ2 (sq_nonneg ε))
  have hi1 : R - (cp * c + s1 * s) ≤ ε ^ 2 * R := by
    have h1 : (R - (cp * c + s1 * s)) * R ≤ (R - (cp * c + s1 * s)) * (R + (cp * c + s1 * s)) :=
      mul_le_mul_of_nonneg_left (by linarith only [hQd]) hi0
    have h2 : (R - (cp * c + s1 * s)) * R ≤ (ε ^ 2 * R) * R := by
      rw [hid1] at h1
      calc (R - (cp * c + s1 * s)) * R ≤ (s1 * c - cp * s) ^ 2 := h1
        _ ≤ ε ^ 2 * R ^ 2 := hδR
        _ = (ε ^ 2 * R) * R := by ring
    exact le_of_mul_le_mul_right h2 hR
  -- Cauchy-Schwarz for the weighted dot product
  have hu0 : 0 ≤ 1 - E := by linarith only [hE1]
  have hu1 : 1 - E ≤ 1 := by linarith only [hE0]
  have hQe : 0 ≤ c * cp + (1 - E) * s * s1 := by positivity
  have hW2' : W ^ 2 = c ^ 2 + (1 - E) * s ^ 2 := by
    rw [hW2]; linear_combination (-1 : ℝ) * hsc
  have hid2 : (W * V - (c * cp + (1 - E) * s * s1)) * (W * V + (c * cp + (1 - E) * s * s1))
      = (1 - E) * (s1 * c - cp * s) ^ 2 := by
    have : (W * V - (c * cp + (1 - E) * s * s1)) * (W * V + (c * cp + (1 - E) * s * s1))
        = W ^ 2 * V ^ 2 - (c * cp + (1 - E) * s * s1) ^ 2 := by ring
    rw [this, hW2', hV2]
    ring
  have hWl : 99 / 100 ≤ W := by
    apply le_of_sq_le_sq_nonneg hW.le
    rw [hW2]
    have hs2 : s ^ 2 ≤ 1 := by linarith only [sq_nonneg c, hsc]
    have : E * s ^ 2 ≤ 7 / 1000 * 1 := mul_le_mul hE1 hs2 (sq_nonneg s) (by norm_num)
    norm_num
    linarith only [this]
  have hVl : 99 / 100 * R ≤ V := by
    apply le_of_sq_le_sq_nonneg hV
    rw [hV2, mul_pow, hR2]
    have h1 : (99 / 100 : ℝ) ^ 2 * s1 ^ 2 ≤ (1 - E) * s1 ^ 2 :=
      mul_le_mul_of_nonneg_right (by norm_num; linarith only [hE1]) (sq_nonneg s1)
    have h2 : (99 / 100 : ℝ) ^ 2 * cp ^ 2 ≤ 1 * cp ^ 2 :=
      mul_le_mul_of_nonneg_right (by norm_num) (sq_nonneg cp)
    linarith only [h1, h2]
  have hWV : 49 / 50 * R ≤ W * V := by
    have : 99 / 100 * (99 / 100 * R) ≤ W * V :=
      mul_le_mul hWl hVl (by positivity) hW.le
    linarith only [this, hR]
  have hWVQ : 0 < W * V + (c * cp + (1 - E) * s * s1) := by
    have : 0 < 49 / 50 * R := by positivity
    linarith only [this, hWV, hQe]
  have hj0 : 0 ≤ W * V - (c * cp + (1 - E) * s * s1) := by
    have h1 : 0 ≤ (W * V - (c * cp + (1 - E) * s * s1))
        * (W * V + (c * cp + (1 - E) * s * s1)) := by
      rw [hid2]; exact mul_nonneg hu0 (sq_nonneg _)
    exact nonneg_of_mul_nonneg_left h1 hWVQ
  have hj1 : W * V - (c * cp + (1 - E) * s * s1) ≤ 26 / 25 * ε ^ 2 * R := by
    have h1 : (W * V - (c * cp + (1 - E) * s * s1)) * (49 / 50 * R)
        ≤ (W * V - (c * cp + (1 - E) * s * s1))
          * (W * V + (c * cp + (1 - E) * s * s1)) :=
      mul_le_mul_of_nonneg_left (by linarith only [hWV, hQe]) hj0
    have h2 : (1 - E) * (s1 * c - cp * s) ^ 2 ≤ 1 * (ε ^ 2 * R ^ 2) :=
      mul_le_mul hu1 hδR (sq_nonneg _) (by norm_num)
    have h3 : (W * V - (c * cp + (1 - E) * s * s1)) * (49 / 50 * R)
        ≤ (26 / 25 * ε ^ 2 * R) * (49 / 50 * R) := by
      rw [hid2] at h1
      have h4 : (0 : ℝ) ≤ ε ^ 2 * R ^ 2 := by positivity
      have h5 : (26 / 25 * ε ^ 2 * R) * (49 / 50 * R) = 1274 / 1250 * (ε ^ 2 * R ^ 2) := by ring
      linarith only [h1, h2, h4, h5]
    exact le_of_mul_le_mul_right h3 (by positivity)
  -- the height error
  have hnum : ((a / W + h) * c * cp + ((1 - E) * (a / W) + h) * s * s1 - a * V) / R - h
      = (-(a / W * (W * V - (c * cp + (1 - E) * s * s1)))
          - h * (R - (cp * c + s1 * s))) / R := by
    field_simp
    ring
  rw [hnum, abs_div, abs_of_pos hR, div_le_iff₀ hR]
  have haW : a / W ≤ a * (100 / 99) := by
    rw [div_le_iff₀ hW]
    have : a * (100 / 99) * (99 / 100) ≤ a * (100 / 99) * W :=
      mul_le_mul_of_nonneg_left hWl (by positivity)
    linarith only [this]
  have haW0 : 0 ≤ a / W := by positivity
  have t1 : |a / W * (W * V - (c * cp + (1 - E) * s * s1))|
      ≤ a * (100 / 99) * (26 / 25 * ε ^ 2 * R) := by
    rw [abs_mul, abs_of_nonneg haW0, abs_of_nonneg hj0]
    exact mul_le_mul haW hj1 hj0 (by positivity)
  have t2 : |h * (R - (cp * c + s1 * s))| ≤ |h| * (ε ^ 2 * R) := by
    rw [abs_mul, abs_of_nonneg hi0]
    exact mul_le_mul_of_nonneg_left hi1 (abs_nonneg _)
  have t3 : a * (100 / 99) * (26 / 25 * ε ^ 2 * R) ≤ 11 / 10 * a * (ε ^ 2 * R) := by
    have : 0 ≤ a * (ε ^ 2 * R) := by positivity
    have e : a * (100 / 99) * (26 / 25 * ε ^ 2 * R) = 104 / 99 * (a * (ε ^ 2 * R)) := by ring
    have e2 : 11 / 10 * a * (ε ^ 2 * R) = 11 / 10 * (a * (ε ^ 2 * R)) := by ring
    rw [e, e2]
    exact mul_le_mul_of_nonneg_right (by norm_num) this
  calc |-(a / W * (W * V - (c * cp + (1 - E) * s * s1))) - h * (R - (cp * c + s1 * s))|
      ≤ |-(a / W * (W * V - (c * cp + (1 - E) * s * s1)))|
        + |h * (R - (cp * c + s1 * s))| := abs_sub _ _
    _ = |a / W * (W * V - (c * cp + (1 - E) * s * s1))|
        + |h * (R - (cp * c + s1 * s))| := by rw [abs_neg]
    _ ≤ 11 / 10 * a * (ε ^ 2 * R) + |h| * (ε ^ 2 * R) := by linarith only [t1, t2, t3]
    _ = (|h| + 11 / 10 * a) * ε ^ 2 * R := by ring

/-- `atan2` recovers the polar angle of a point given in polar form. -/
theorem atan2_polar (r lon : ℝ) (hr : 0 < r) (hl : -Real.pi < lon) (hu : lon ≤ Real.pi) :
    atan2 (r * Real.sin lon) (r * Real.cos lon) = lon := by
  unfold atan2
  have h : Complex.arg ((r : ℂ) * (Complex.cos lon + Complex.sin lon * Complex.I)) = lon :=
    Complex.arg_mul_cos_add_sin_mul_I hr ⟨hl, hu⟩
  have e : (⟨r * Real.cos lon, r * Real.sin lon⟩ : ℂ)
      = (r : ℂ) * (Complex.cos lon + Complex.sin lon * Complex.I) := by
    apply Complex.ext
    · simp [← Complex.ofReal_cos, ← Complex.ofReal_sin]
    · simp [← Complex.ofReal_cos, ← Complex.ofReal_sin]
  rw [e]
  exact h

/-- A latitude in `[0, pi/2)` whose cosine is tiny is within `1e-8` of `pi/2`. -/
theorem angle_near_pole (φ : ℝ) (h0 : 0 ≤ φ) (h1 : φ < Real.pi / 2)
    (hc : Real.cos φ ≤ 1 / 1000000000) : Real.pi / 2 - φ ≤ 1 / 100000000 := by
  have hpi := Real.pi_pos
  have hpi4 : Real.pi ≤ 4 := Real.pi_le_four
  have hθ0 : 0 ≤ Real.pi / 2 - φ := by linarith only [h1]
  have hθ1 : Real.pi / 2 - φ ≤ Real.pi / 2 := by linarith only [h0]
  have h := Real.mul_le_sin hθ0 hθ1
  rw [Real.sin_pi_div_two_sub] at h
  have h2 : 2 / Real.pi * (Real.pi / 2 - φ) ≤ 1 / 1000000000 := le_trans h hc
  have h3 : 2 / 4 * (Real.pi / 2 - φ) ≤ 2 / Real.pi * (Real.pi / 2 - φ) := by
    apply mul_le_mul_of_nonneg_right _ hθ0
    exact div_le_div_of_nonneg_left (by norm_num) hpi hpi4
  linarith only [h2, h3]

/-- In the pole branch the forward image has a tiny cosine of latitude and the height
`|z| - a*ep` is within `1e-4` of the true height. -/
theorem pole_branch_error (a h E ep s c W : ℝ) (ha0 : 6378136 ≤ a) (ha1 : a ≤ 6378137)
    (hE0 : 0 ≤ E) (hE1 : E ≤ 7 / 1000) (hep : 0 ≤ ep) (hep2 : ep ^ 2 = 1 - E)
    (hs : 0 ≤ s) (hc : 0 ≤ c) (hsc : s ^ 2 + c ^ 2 = 1) (hW : 0 < W)
    (hW2 : W ^ 2 = 1 - E * s ^ 2) (hh0 : -1000 ≤ h) (hh1 : h ≤ 100000)
    (hp : ((a / W + h) * c) ^ 2 ≤ a * a * (1 / 100000000000000000000000000000000)) :
    c ≤ 1 / 1000000000
    ∧ |((1 - E) * (a / W) + h) * s - a * ep - h| ≤ 1 / 10000 := by
  have hapos : 0 < a := by linarith only [ha0]
  have hs2 : s ^ 2 ≤ 1 := by linarith only [sq_nonneg c, hsc]
  have hs1 : s ≤ 1 := le_of_sq_le_sq_nonneg (by norm_num) (by linarith only [hs2])
  have hEs0 : 0 ≤ E * s ^ 2 := mul_nonneg hE0 (sq_nonneg s)
  have hEs1 : E * s ^ 2 ≤ 7 / 1000 * 1 := mul_le_mul hE1 hs2 (sq_nonneg s) (by norm_num)
  have hW1 : W ≤ 1 :=
    le_of_sq_le_sq_nonneg (by norm_num) (by rw [hW2]; linarith only [hEs0])
  have hWl : 99 / 100 ≤ W :=
    le_of_sq_le_sq_nonneg hW.le (by rw [hW2]; norm_num; linarith only [hEs1])
  have hep1 : ep ≤ 1 :=
    le_of_sq_le_sq_nonneg (by norm_num) (by rw [hep2]; linarith only [hE0])
  have haW : a ≤ a / W := by
    rw [le_div_iff₀ hW]
    have : a * W ≤ a * 1 := mul_le_mul_of_nonneg_left hW1 hapos.le
    linarith only [this]
  have hr : a / 2 ≤ a / W + h := by linarith only [haW, hh0, ha0]
  -- the cosine is tiny
  have hp' : (a / 2 * c) ^ 2 ≤ (a * (1 / 10000000000000000)) ^ 2 := by
    have h1 : a / 2 * c ≤ (a / W + h) * c := mul_le_mul_of_nonneg_right hr hc
    have h2 : (a / 2 * c) ^ 2 ≤ ((a / W + h) * c) ^ 2 :=
      pow_le_pow_left₀ (by positivity) h1 2
    have h3 : a * a * (1 / 100000000000000000000000000000000)
        = (a * (1 / 10000000000000000)) ^ 2 := by ring
    linarith only [h2, hp, h3]
  have hc' : a / 2 * c ≤ a * (1 / 10000000000000000) :=
    le_of_sq_le_sq_nonneg (by positivity) hp'
  have hc1 : c ≤ 1 / 5000000000000000 := by
    have h1 : a * (c / 2) ≤ a * (1 / 10000000000000000) := by
      have : a / 2 * c = a * (c / 2) := by ring
      rw [← this]; exact hc'
    have h2 := le_of_mul_le_mul_left h1 hapos
    linarith only [h2]
  refine ⟨by linarith only [hc1], ?_⟩
  have hc2 : c ^ 2 ≤ (1 / 5000000000000000) ^ 2 := pow_le_pow_left₀ hc hc1 2
  -- the two parts of the height error
  have hid : (W - ep * s) * (W + ep * s) = c ^ 2 := by
    have : (W - ep * s) * (W + ep * s) = W ^ 2 - ep ^ 2 * s ^ 2 := by ring
    rw [this, hW2, hep2]
    linear_combination (-1 : ℝ) * hsc
  have heps0 : 0 ≤ ep * s := mul_nonneg hep hs
  have hsum : 99 / 100 ≤ W + ep * s := by linarith only [hWl, heps0]
  have hd0 : 0 ≤ W - ep * s := by
    have h1 : 0 ≤ (W - ep * s) * (W + ep * s) := by rw [hid]; exact sq_nonneg c
    exact nonneg_of_mul_nonneg_left h1 (by linarith only [hsum])
  have hd1 : W - ep * s ≤ 100 / 99 * c ^ 2 := by
    have h1 : (W - ep * s) * (99 / 100) ≤ (W - ep * s) * (W + ep * s) :=
      mul_le_mul_of_nonneg_left hsum hd0
    rw [hid] at h1
    linarith only [h1]
  have hone : 0 ≤ 1 - s := by linarith only [hs1]
  have hone1 : 1 - s ≤ c ^ 2 := by
    have : s * s ≤ 1 * s := mul_le_mul_of_nonneg_right hs1 hs
    nlinarith only [this, hsc]
  have hnum : ((1 - E) * (a / W) + h) * s - a * ep - h
      = -(a * ep / W * (W - ep * s)) - h * (1 - s) := by
    rw [← hep2]
    field_simp
    ring
  rw [hnum]
  have hcoef0 : 0 ≤ a * ep / W := by positivity
  have hcoef : a * ep / W ≤ 6378137 * 1 * (100 / 99) := by
    rw [div_le_iff₀ hW]
    have h1 : a * ep ≤ 6378137 * 1 := mul_le_mul ha1 hep1 hep (by norm_num)
    have h2 : 6378137 * 1 * (100 / 99) * (99 / 100) ≤ 6378137 * 1 * (100 / 99) * W :=
      mul_le_mul_of_nonneg_left hWl (by norm_num)
    linarith only [h1, h2]
  have t1 : |a * ep / W * (W - ep * s)| ≤ 6378137 * 1 * (100 / 99) * (100 / 99 * c ^ 2) := by
    rw [abs_mul, abs_of_nonneg hcoef0, abs_of_nonneg hd0]
    exact mul_le_mul hcoef hd1 hd0 (by norm_num)
  have t2 : |h * (1 - s)| ≤ 100000 * c ^ 2 := by
    rw [abs_mul, abs_of_nonneg hone]
    have : |h| ≤ 100000 := by
      rw [abs_le]; constructor <;> linarith only [hh0, hh1]
    exact mul_le_mul this hone1 hone (by norm_num)
  calc |-(a * ep / W * (W - ep * s)) - h * (1 - s)|
      ≤ |-(a * ep / W * (W - ep * s))| + |h * (1 - s)| := abs_sub _ _
    _ = |a * ep / W * (W - ep * s)| + |h * (1 - s)| := by rw [abs_neg]
    _ ≤ 6378137 * 1 * (100 / 99) * (100 / 99 * c ^ 2) + 100000 * c ^ 2 := add_le_add t1 t2
    _ ≤ 1 / 10000 := by
        have : 6378137 * 1 * (100 / 99) * (100 / 99 * c ^ 2) + 100000 * c ^ 2
            = (6378137 * (100 / 99) * (100 / 99) + 100000) * c ^ 2 := by ring
        rw [this]
        have h5 : (6378137 * (100 / 99) * (100 / 99) + 100000 : ℝ) * c ^ 2
            ≤ (6378137 * (100 / 99) * (100 / 99) + 100000) * (1 / 5000000000000000) ^ 2 :=
          mul_le_mul_of_nonneg_left hc2 (by norm_num)
        refine le_trans h5 ?_
        norm_num

/-- The inverse transform at a point whose distance from the axis and whose `|z|` are those
of the forward image of a latitude `0 <= φ < pi/2` and a height in `[-1000, 100000]`:
both outputs are defined, the unsigned latitude is within `1e-8` of `φ` and the height
within `1e-4` of `h`. -/
theorem cartesian2geodetic_unsigned (E : ellipsoid) (x y z φ h : ℝ) (hφ0 : 0 ≤ φ)
    (hφ1 : φ < Real.pi / 2) (hh0 : -1000 ≤ h) (hh1 : h ≤ 100000)
    (hp : Real.sqrt (x * x + y * y) = (ellipsoid_traits.a E
      / Real.sqrt (1 - eccentricity_squared E * Real.sin φ ^ 2) + h) * Real.cos φ)
    (hz : |z| = ((1 - eccentricity_squared E) * (ellipsoid_traits.a E
      / Real.sqrt (1 - eccentricity_squared E * Real.sin φ ^ 2)) + h) * Real.sin φ) :
    ∃ m h' : ℝ, (cartesian2geodetic E x y z).lat = some (if z < 0 then -m else m)
      ∧ (cartesian2geodetic E x y z).hgt = some h'
      ∧ |m - φ| ≤ 1 / 100000000 ∧ |h' - h| ≤ 1 / 10000 := by
  have hpi := Real.pi_pos
  have hs0 : 0 ≤ Real.sin φ := Real.sin_nonneg_of_nonneg_of_le_pi hφ0 (by linarith only [hφ1, hpi])
  have hc0 : 0 < Real.cos φ := Real.cos_pos_of_mem_Ioo ⟨by linarith only [hφ0, hpi], hφ1⟩
  have hsc : Real.sin φ ^ 2 + Real.cos φ ^ 2 = 1 := Real.sin_sq_add_cos_sq φ
  have ha := traits_a_pos E
  have hage := traits_a_ge E
  have hale : ellipsoid_traits.a E ≤ 6378137 := by
    cases E <;> norm_num [ellipsoid_traits.a]
  have hE0 := (e2_pos E).le
  have hE1 := e2_le E
  have hs2 : Real.sin φ ^ 2 ≤ 1 := Real.sin_sq_le_one φ
  have hrad : 0 < 1 - eccentricity_squared E * Real.sin φ ^ 2 := by
    have : eccentricity_squared E * Real.sin φ ^ 2 ≤ 7 / 1000 * 1 :=
      mul_le_mul hE1 hs2 (sq_nonneg _) (by norm_num)
    linarith only [this]
  have hW : 0 < Real.sqrt (1 - eccentricity_squared E * Real.sin φ ^ 2) :=
    Real.sqrt_pos.mpr hrad
  have hW2 : Real.sqrt (1 - eccentricity_squared E * Real.sin φ ^ 2) ^ 2
      = 1 - eccentricity_squared E * Real.sin φ ^ 2 := Real.sq_sqrt hrad.le
  have h0 : (0e0 : ℝ) = 0 := by norm_num
  have h1 : (1.0e0 : ℝ) = 1 := by norm_num
  have h2 : (2e0 : ℝ) = 2 := by norm_num
  have hhabs : |h| ≤ 100000 := by
    rw [abs_le]; constructor <;> linarith only [hh0, hh1]
  by_cases hb : x * x + y * y > ellipsoid_traits.a E * ellipsoid_traits.a E * 1e-32
  · -- general branch
    obtain ⟨hcp, hs1, herr⟩ := halley_forward E (Real.sin φ) (Real.cos φ) h (x * x + y * y) |z|
      hs0 hc0 hsc hh0 hh1 hp hz
    rcases hr : halley E (x * x + y * y) |z| with ⟨s1, cp⟩
    rw [hr] at hcp hs1 herr
    simp only at hcp hs1 herr
    have hR2pos : 0 < s1 * s1 + cp * cp := by positivity
    have hR : 0 < Real.sqrt (s1 * s1 + cp * cp) := Real.sqrt_pos.mpr hR2pos
    refine ⟨Real.arctan (s1 / cp),
      (Real.sqrt (x * x + y * y) * cp + |z| * s1
        - ellipsoid_traits.a E * Real.sqrt ((1 - eccentricity_squared E) * (s1 * s1) + cp * cp))
        / Real.sqrt (s1 * s1 + cp * cp), ?_, ?_, ?_, ?_⟩
    · simp only [cartesian2geodetic, if_pos hb, hr, quot, if_neg hcp.ne', h0, Option.map_some']
      by_cases hzn : z < 0
      · simp only [if_pos hzn, Option.map_some']
      · simp only [if_neg hzn]
    · simp only [cartesian2geodetic, if_pos hb, hr, quot, if_neg hR.ne', h1]
    · have hφ : Real.arctan (Real.sin φ / Real.cos φ) = φ := by
        rw [← Real.tan_eq_sin_div_cos]
        exact Real.arctan_tan (by linarith only [hφ0, hpi]) hφ1
      have := arctan_direction_close s1 cp (Real.sin φ) (Real.cos φ) (1 / 100000000)
        hs1 hcp hs0 hc0 herr
      rw [hφ] at this
      exact this
    · have hV2 : Real.sqrt ((1 - eccentricity_squared E) * (s1 * s1) + cp * cp) ^ 2
          = (1 - eccentricity_squared E) * s1 ^ 2 + cp ^ 2 := by
        rw [Real.sq_sqrt]
        · ring
        · have : 0 ≤ 1 - eccentricity_squared E := by linarith only [hE1]
          positivity
      have hR2 : Real.sqrt (s1 * s1 + cp * cp) ^ 2 = s1 ^ 2 + cp ^ 2 := by
        rw [Real.sq_sqrt hR2pos.le]; ring
      have hgt := height_formula_error (ellipsoid_traits.a E) h (eccentricity_squared E)
        (Real.sin φ) (Real.cos φ) _ s1 cp _ _ (1 / 100000000) ha hE0 hE1 hs0 hc0 hsc hW hW2
        hs1 hcp hR hR2 (Real.sqrt_nonneg _) hV2 herr
      rw [hp, hz]
      refine le_trans hgt ?_
      have : (|h| + 11 / 10 * ellipsoid_traits.a E) * (1 / 100000000) ^ 2
          ≤ (100000 + 11 / 10 * 6378137) * (1 / 100000000) ^ 2 :=
        mul_le_mul_of_nonneg_right (by linarith only [hhabs, hale]) (by norm_num)
      refine le_trans this ?_
      norm_num
  · -- pole branch
    have hp2 : 0 ≤ x * x + y * y := add_nonneg (mul_self_nonneg x) (mul_self_nonneg y)
    have hsq : ((ellipsoid_traits.a E
        / Real.sqrt (1 - eccentricity_squared E * Real.sin φ ^ 2) + h) * Real.cos φ) ^ 2
        ≤ ellipsoid_traits.a E * ellipsoid_traits.a E
          * (1 / 100000000000000000000000000000000) := by
      rw [← hp, Real.sq_sqrt hp2]
      push_neg at hb
      have e : (1e-32 : ℝ) = 1 / 100000000000000000000000000000000 := by norm_num
      rw [e] at hb
      exact hb
    obtain ⟨hcs, hhg⟩ := pole_branch_error (ellipsoid_traits.a E) h (eccentricity_squared E)
      (Real.sqrt (1 - eccentricity_squared E)) (Real.sin φ) (Real.cos φ) _ hage hale hE0 hE1
      (Real.sqrt_nonneg _) (sqrt_ep2_sq E) hs0 hc0.le hsc hW hW2 hh0 hh1 hsq
    refine ⟨Real.pi / 2, |z| - ellipsoid_traits.a E * Real.sqrt (1 - eccentricity_squared E),
      ?_, ?_, ?_, ?_⟩
    · simp only [cartesian2geodetic, if_neg hb, h0, h2, DPI_eq_pi]
      by_cases hzn : z < 0
      · simp only [if_pos hzn, Option.map_some']
      · simp only [if_neg hzn]
    · simp only [cartesian2geodetic, if_neg hb, h1]
    · rw [abs_of_nonneg (by linarith only [hφ1])]
      exact angle_near_pole φ hφ0 hφ1 hcs
    · rw [hz]
      exact hhg

/-- The radius of curvature of a named ellipsoid, written with the unsigned latitude. -/
theorem N_abs (E : ellipsoid) (lat : ℝ) :
    N E lat = ellipsoid_traits.a E
      / Real.sqrt (1 - eccentricity_squared E * Real.sin |lat| ^ 2) := by
  have h1 : (1e0 : ℝ) = 1 := by norm_num
  have hs : Real.sin |lat| ^ 2 = Real.sin lat * Real.sin lat := by
    rcases abs_cases lat with ⟨h, _⟩ | ⟨h, _⟩
    · rw [h]; ring
    · rw [h, Real.sin_neg]; ring
  simp only [N, core.N, eccentricity_squared, h1, hs, mul_assoc]

/-! ## Round trip -/

/-- C1: for each named ellipsoid, every latitude in `(-pi/2, pi/2)`, longitude in
`(-pi, pi]` and height in `[-1000, 100000]`, `cartesian2geodetic` applied to the output of
`geodetic2cartesian` returns a latitude and a longitude within `1e-8` rad and a height
within `1e-4` m of the input (functions read over the real numbers). -/
theorem roundtrip_within_tolerance (E : ellipsoid) (lat lon h : ℝ)
    (hlat0 : -(Real.pi / 2) < lat) (hlat1 : lat < Real.pi / 2)
    (hlon0 : -Real.pi < lon) (hlon1 : lon ≤ Real.pi)
    (hh0 : -1000 ≤ h) (hh1 : h ≤ 100000) :
    ∃ lat2 h2 : ℝ,
      (cartesian2geodetic E (geodetic2cartesian E lat lon h).x
        (geodetic2cartesian E lat lon h).y (geodetic2cartesian E lat lon h).z).lat = some lat2
      ∧ (cartesian2geodetic E (geodetic2cartesian E lat lon h).x
        (geodetic2cartesian E lat lon h).y (geodetic2cartesian E lat lon h).z).hgt = some h2
      ∧ |lat2 - lat| ≤ 1e-8
      ∧ |(cartesian2geodetic E (geodetic2cartesian E lat lon h).x
        (geodetic2cartesian E lat lon h).y (geodetic2cartesian E lat lon h).z).lon - lon| ≤ 1e-8
      ∧ |h2 - h| ≤ 1e-4 := by
  have hpi := Real.pi_pos
  have ha := traits_a_pos E
  have hage := traits_a_ge E
  have hE0 := (e2_pos E).le
  have hE1 := e2_le E
  have h1 : (1e0 : ℝ) = 1 := by norm_num
  have hc0 : 0 < Real.cos lat := Real.cos_pos_of_mem_Ioo ⟨hlat0, hlat1⟩
  have hφ0 : 0 ≤ |lat| := abs_nonneg lat
  have hφ1 : |lat| < Real.pi / 2 := abs_lt.mpr ⟨hlat0, hlat1⟩
  have hcosabs : Real.cos |lat| = Real.cos lat := Real.cos_abs lat
  -- the radius of curvature and the two coefficients
  have hs2 : Real.sin |lat| ^ 2 ≤ 1 := Real.sin_sq_le_one _
  have hrad : 0 < 1 - eccentricity_squared E * Real.sin |lat| ^ 2 := by
    have : eccentricity_squared E * Real.sin |lat| ^ 2 ≤ 7 / 1000 * 1 :=
      mul_le_mul hE1 hs2 (sq_nonneg _) (by norm_num)
    linarith only [this]
  have hW : 0 < Real.sqrt (1 - eccentricity_squared E * Real.sin |lat| ^ 2) :=
    Real.sqrt_pos.mpr hrad
  have hW1 : Real.sqrt (1 - eccentricity_squared E * Real.sin |lat| ^ 2) ≤ 1 := by
    apply le_of_sq_le_sq_nonneg (by norm_num)
    rw [Real.sq_sqrt hrad.le]
    have := mul_nonneg hE0 (sq_nonneg (Real.sin |lat|))
    linarith only [this]
  have hN := N_abs E lat
  have hNge : ellipsoid_traits.a E ≤ N E lat := by
    rw [hN, le_div_iff₀ hW]
    have := mul_le_mul_of_nonneg_left hW1 ha.le
    linarith only [this]
  have hr1 : 0 < N E lat + h := by linarith only [hNge, hage, hh0]
  have hr : 0 < (N E lat + h) * Real.cos lat := mul_pos hr1 hc0
  have hq : 0 < (1 - eccentricity_squared E) * N E lat + h := by
    have h3 : (1 - 7 / 1000) * ellipsoid_traits.a E ≤ (1 - eccentricity_squared E) * N E lat :=
      mul_le_mul (by linarith only [hE1]) hNge ha.le (by linarith only [hE1])
    linarith only [h3, hage, hh0]
  -- the forward image
  have hx : (geodetic2cartesian E lat lon h).x
      = (N E lat + h) * Real.cos lat * Real.cos lon := rfl
  have hy : (geodetic2cartesian E lat lon h).y
      = (N E lat + h) * Real.cos lat * Real.sin lon := rfl
  have hz : (geodetic2cartesian E lat lon h).z
      = ((1 - eccentricity_squared E) * N E lat + h) * Real.sin lat := by
    simp only [geodetic2cartesian, h1]
  generalize (geodetic2cartesian E lat lon h).x = x at hx ⊢
  generalize (geodetic2cartesian E lat lon h).y = y at hy ⊢
  generalize (geodetic2cartesian E lat lon h).z = z at hz ⊢
  have hp2 : x * x + y * y = ((N E lat + h) * Real.cos lat) ^ 2 := by
    rw [hx, hy]
    have := Real.sin_sq_add_cos_sq lon
    linear_combination ((N E lat + h) * Real.cos lat) ^ 2 * this
  have hp : Real.sqrt (x * x + y * y) = (ellipsoid_traits.a E
      / Real.sqrt (1 - eccentricity_squared E * Real.sin |lat| ^ 2) + h) * Real.cos |lat| := by
    rw [hp2, Real.sqrt_sq hr.le, hN, hcosabs]
  have hsinabs : |Real.sin lat| = Real.sin |lat| := by
    rcases abs_cases lat with ⟨h, hl⟩ | ⟨h, hl⟩
    · rw [h]
      exact abs_of_nonneg (Real.sin_nonneg_of_nonneg_of_le_pi hl (by linarith only [hlat1, hpi]))
    · rw [h, Real.sin_neg]
      exact abs_of_nonpos (Real.sin_nonpos_of_nonnpos_of_neg_pi_le hl.le
        (by linarith only [hlat0, hpi]))
  have hzabs : |z| = ((1 - eccentricity_squared E) * (ellipsoid_traits.a E
      / Real.sqrt (1 - eccentricity_squared E * Real.sin |lat| ^ 2)) + h) * Real.sin |lat| := by
    rw [hz, abs_mul, abs_of_pos hq, hsinabs, hN]
  obtain ⟨m, h', hlat', hhgt', hm, hh'⟩ := cartesian2geodetic_unsigned E x y z |lat| h hφ0 hφ1
    hh0 hh1 hp hzabs
  refine ⟨if z < 0 then -m else m, h', hlat', hhgt', ?_, ?_, ?_⟩
  · have e : (1e-8 : ℝ) = 1 / 100000000 := by norm_num
    rw [e]
    by_cases hzn : z < 0
    · rw [if_pos hzn]
      have hneg : lat < 0 := by
        by_contra hge
        push_neg at hge
        have : 0 ≤ Real.sin lat :=
          Real.sin_nonneg_of_nonneg_of_le_pi hge (by linarith only [hlat1, hpi])
        have : 0 ≤ z := by rw [hz]; exact mul_nonneg hq.le this
        linarith only [this, hzn]
      rw [abs_of_neg hneg] at hm
      have : -m - lat = -(m - -lat) := by ring
      rw [this, abs_neg]
      exact hm
    · rw [if_neg hzn]
      have hge : 0 ≤ lat := by
        by_contra hneg
        push_neg at hneg
        have : Real.sin lat < 0 :=
          Real.sin_neg_of_neg_of_neg_pi_lt hneg (by linarith only [hlat0, hpi])
        have : z < 0 := by rw [hz]; exact mul_neg_of_pos_of_neg hq this
        exact hzn this
      rw [abs_of_nonneg hge] at hm
      exact hm
  · have hne : x * x + y * y ≠ 0 := by
      rw [hp2]; exact (pow_pos hr 2).ne'
    have hlon : (cartesian2geodetic E x y z).lon = lon := by
      simp only [cartesian2geodetic, if_pos hne]
      rw [hx, hy]
      exact atan2_polar _ lon hr hlon0 hlon1
    rw [hlon, sub_self, abs_zero]
    norm_num
  · have e : (1e-4 : ℝ) = 1 / 10000 := by norm_num
    rw [e]
    exact hh'

/-- Witness for C1: WGS84 at latitude `1/2`, longitude `1` and height `1000`. -/
theorem roundtrip_within_tolerance_witness :
    ∃ lat2 h2 : ℝ,
      (cartesian2geodetic ellipsoid.wgs84
        (geodetic2cartesian ellipsoid.wgs84 (1 / 2) 1 1000).x
        (geodetic2cartesian ellipsoid.wgs84 (1 / 2) 1 1000).y
        (geodetic2cartesian ellipsoid.wgs84 (1 / 2) 1 1000).z).lat = some lat2
      ∧ (cartesian2geodetic ellipsoid.wgs84
        (geodetic2cartesian ellipsoid.wgs84 (1 / 2) 1 1000).x
        (geodetic2cartesian ellipsoid.wgs84 (1 / 2) 1 1000).y
        (geodetic2cartesian ellipsoid.wgs84 (1 / 2) 1 1000).z).hgt = some h2
      ∧ |lat2 - 1 / 2| ≤ 1e-8
      ∧ |(cartesian2geodetic ellipsoid.wgs84
        (geodetic2cartesian ellipsoid.wgs84 (1 / 2) 1 1000).x
        (geodetic2cartesian ellipsoid.wgs84 (1 / 2) 1 1000).y
        (geodetic2cartesian ellipsoid.wgs84 (1 / 2) 1 1000).z).lon - 1| ≤ 1e-8
      ∧ |h2 - 1000| ≤ 1e-4 :=
  roundtrip_within_tolerance ellipsoid.wgs84 (1 / 2) 1 1000
    (by have := Real.pi_pos; linarith) (by have := Real.pi_gt_three; linarith)
    (by have := Real.pi_pos; linarith) (by have := Real.pi_gt_three; linarith)
    (by norm_num) (by norm_num)

/-! ## Longitude and the polar axis -/

/-- C2: the longitude returned by `cartesian2geodetic` is `atan2(y, x)` when
`x^2 + y^2` is nonzero and `0` otherwise; on the polar axis it is `0` for every
`z`; and it is the same for every `z`, whichever latitude branch runs. -/
theorem cartesian2geodetic_lon_rule (E : ellipsoid) (x y z : ℝ) :
    (cartesian2geodetic E x y z).lon = (if x * x + y * y ≠ 0 then atan2 y x else 0)
    ∧ (cartesian2geodetic E 0 0 z).lon = 0
    ∧ ∀ z2 : ℝ, (cartesian2geodetic E x y z2).lon = (cartesian2geodetic E x y z).lon := by
  refine ⟨?_, ?_, ?_⟩
  · simp only [cartesian2geodetic]
    norm_num
  · simp only [cartesian2geodetic]
    norm_num
  · intro z2
    simp [cartesian2geodetic]

/-- C3 (as stated, refuted): for GRS80 and the height `h = -12756274` the point
`(0, 0, a*(1-f) + h)` lies below the centre, and the latitude returned there
is not `pi/2`. -/
theorem cartesian2geodetic_pole_lat_fails :
    (cartesian2geodetic ellipsoid.grs80 0 0
      (ellipsoid_traits.a ellipsoid.grs80 * (1 - ellipsoid_traits.f ellipsoid.grs80)
        + (-12756274))).lat ≠ some (Real.pi / 2) := by
  have hnot : ¬ (0 * 0 + 0 * 0 : ℝ) >
      ellipsoid_traits.a ellipsoid.grs80 * ellipsoid_traits.a ellipsoid.grs80 * 1e-32 := by
    norm_num [ellipsoid_traits.a]
  simp only [cartesian2geodetic, if_neg hnot]
  rw [if_pos (by norm_num [ellipsoid_traits.a, ellipsoid_traits.f]), DPI_eq_pi]
  simp only [Option.map_some']
  intro h
  have h2 := Option.some.inj h
  have := Real.pi_pos
  norm_num at h2
  linarith

/-- C3 (amended): for each named ellipsoid and every height `h` with
`a*(1-f) + h >= 0`, `cartesian2geodetic(0, 0, a*(1-f) + h)` returns the
latitude `pi/2`. -/
theorem cartesian2geodetic_pole_lat (E : ellipsoid) (h : ℝ)
    (hz : 0 ≤ ellipsoid_traits.a E * (1 - ellipsoid_traits.f E) + h) :
    (cartesian2geodetic E 0 0 (ellipsoid_traits.a E * (1 - ellipsoid_traits.f E) + h)).lat
      = some (Real.pi / 2) := by
  have ha := traits_a_pos E
  have hnot : ¬ (0 * 0 + 0 * 0 : ℝ) > ellipsoid_traits.a E * ellipsoid_traits.a E * 1e-32 := by
    have : 0 < ellipsoid_traits.a E * ellipsoid_traits.a E * 1e-32 := by positivity
    norm_num
    linarith
  simp only [cartesian2geodetic, if_neg hnot]
  rw [if_neg (by norm_num; linarith), DPI_eq_pi]
  norm_num

/-- Witness for C3 (amended): GRS80 at height `0`. -/
theorem cartesian2geodetic_pole_lat_witness :
    0 ≤ ellipsoid_traits.a ellipsoid.grs80 * (1 - ellipsoid_traits.f ellipsoid.grs80) + 0
    ∧ (cartesian2geodetic ellipsoid.grs80 0 0
        (ellipsoid_traits.a ellipsoid.grs80 * (1 - ellipsoid_traits.f ellipsoid.grs80) + 0)).lat
      = some (Real.pi / 2) :=
  ⟨by norm_num [ellipsoid_traits.a, ellipsoid_traits.f],
    cartesian2geodetic_pole_lat ellipsoid.grs80 0
      (by norm_num [ellipsoid_traits.a, ellipsoid_traits.f])⟩

/-- C4: for each named ellipsoid, every longitude and every height,
`geodetic2cartesian(pi/2, lon, h)` gives `x = 0`, `y = 0` and
`z = a*sqrt(1 - e^2) + h`, which equals `semi_minor + h = a*(1-f) + h`. -/
theorem geodetic2cartesian_pole (E : ellipsoid) (lon h : ℝ) :
    geodetic2cartesian E (Real.pi / 2) lon h
        = ⟨0, 0, ellipsoid_traits.a E * Real.sqrt (1 - eccentricity_squared E) + h⟩
    ∧ ellipsoid_traits.a E * Real.sqrt (1 - eccentricity_squared E) + h = semi_minor E + h
    ∧ semi_minor E + h = ellipsoid_traits.a E * (1 - ellipsoid_traits.f E) + h := by
  have hsq := sqrt_ep2 E
  have hpos : 0 < Real.sqrt (1 - eccentricity_squared E) := by
    rw [hsq]; have := traits_f_lt E; linarith
  have hmul : Real.sqrt (1 - eccentricity_squared E) * Real.sqrt (1 - eccentricity_squared E)
      = 1 - eccentricity_squared E := Real.mul_self_sqrt (Real.sqrt_pos.mp hpos).le
  refine ⟨?_, ?_, ?_⟩
  · simp only [geodetic2cartesian, N, core.N, Real.sin_pi_div_two, Real.cos_pi_div_two]
    have e1 : (1e0 : ℝ) - core.eccentricity_squared (ellipsoid_traits.f E) * 1 * 1
        = 1 - eccentricity_squared E := by
      unfold eccentricity_squared; norm_num
    rw [e1]
    congr 1
    · ring
    · ring
    · have : (1e0 : ℝ) = 1 := by norm_num
      rw [this, mul_one]
      congr 1
      rw [← hmul]
      field_simp
      ring
  · rw [hsq]; norm_num [semi_minor, core.semi_minor]
  · norm_num [semi_minor, core.semi_minor]

/-! ## Output range -/

/-- C5 (as stated, refuted): for GRS80 at the point `(a*e^2, 0, 0)` of the
equatorial plane the general branch runs with `s1 = 0` and `cp = 0`, so the
quotient `s1 / cp` has no value: no latitude in `[-pi/2, pi/2]` is returned. -/
theorem cartesian2geodetic_lat_undefined :
    ¬ ∃ lat : ℝ, (cartesian2geodetic ellipsoid.grs80
        (ellipsoid_traits.a ellipsoid.grs80 * eccentricity_squared ellipsoid.grs80) 0 0).lat
        = some lat ∧ -(Real.pi / 2) ≤ lat ∧ lat ≤ Real.pi / 2 := by
  have hgt : (ellipsoid_traits.a ellipsoid.grs80 * eccentricity_squared ellipsoid.grs80)
      * (ellipsoid_traits.a ellipsoid.grs80 * eccentricity_squared ellipsoid.grs80) + 0 * 0
      > ellipsoid_traits.a ellipsoid.grs80 * ellipsoid_traits.a ellipsoid.grs80 * 1e-32 := by
    norm_num [ellipsoid_traits.a, eccentricity_squared, core.eccentricity_squared,
      ellipsoid_traits.f]
  have hx : 0 ≤ ellipsoid_traits.a ellipsoid.grs80 * eccentricity_squared ellipsoid.grs80 :=
    mul_nonneg (traits_a_pos _).le (e2_pos _).le
  have hp : Real.sqrt ((ellipsoid_traits.a ellipsoid.grs80 * eccentricity_squared ellipsoid.grs80)
      * (ellipsoid_traits.a ellipsoid.grs80 * eccentricity_squared ellipsoid.grs80) + 0 * 0)
      = ellipsoid_traits.a ellipsoid.grs80 * eccentricity_squared ellipsoid.grs80 := by
    rw [show (0:ℝ) * 0 = 0 by ring, add_zero]
    exact Real.sqrt_mul_self hx
  have hnone : (cartesian2geodetic ellipsoid.grs80
      (ellipsoid_traits.a ellipsoid.grs80 * eccentricity_squared ellipsoid.grs80) 0 0).lat
      = none := by
    simp only [cartesian2geodetic, if_pos hgt, abs_zero, halley_equator_sing _ _ hp]
    simp [quot]
  rintro ⟨lat, hlat, _⟩
  rw [hnone] at hlat
  exact Option.noConfusion hlat

/-- The output range under a condition on the divisor: where the pole branch runs or the
divisor `cp` of the general branch is not zero, the returned latitude lies in
`[-pi/2, pi/2]` and the returned longitude in `(-pi, pi]`. -/
theorem cartesian2geodetic_range_of_divisor (E : ellipsoid) (x y z : ℝ)
    (h : x * x + y * y ≤ ellipsoid_traits.a E * ellipsoid_traits.a E * 1e-32
      ∨ (halley E (x * x + y * y) |z|).2 ≠ 0) :
    (∃ lat : ℝ, (cartesian2geodetic E x y z).lat = some lat
      ∧ -(Real.pi / 2) ≤ lat ∧ lat ≤ Real.pi / 2)
    ∧ -Real.pi < (cartesian2geodetic E x y z).lon
    ∧ (cartesian2geodetic E x y z).lon ≤ Real.pi := by
  have hpi := Real.pi_pos
  constructor
  · by_cases hb : x * x + y * y > ellipsoid_traits.a E * ellipsoid_traits.a E * 1e-32
    · have hcp : (halley E (x * x + y * y) |z|).2 ≠ 0 := by
        rcases h with h | h
        · exact absurd hb (not_lt.mpr h)
        · exact h
      have h1 := Real.neg_pi_div_two_lt_arctan
        ((halley E (x * x + y * y) |z|).1 / (halley E (x * x + y * y) |z|).2)
      have h2 := Real.arctan_lt_pi_div_two
        ((halley E (x * x + y * y) |z|).1 / (halley E (x * x + y * y) |z|).2)
      simp only [cartesian2geodetic, if_pos hb, quot, if_neg hcp, Option.map_some']
      by_cases hz : z < 0e0
      · rw [if_pos hz]
        exact ⟨_, rfl, by linarith, by linarith⟩
      · rw [if_neg hz]
        exact ⟨_, rfl, by linarith, by linarith⟩
    · simp only [cartesian2geodetic, if_neg hb, DPI_eq_pi]
      by_cases hz : z < 0e0
      · rw [if_pos hz]
        exact ⟨_, rfl, by norm_num, by norm_num; linarith⟩
      · rw [if_neg hz]
        exact ⟨_, rfl, by norm_num; linarith, by norm_num⟩
  · simp only [cartesian2geodetic]
    by_cases hp : x * x + y * y ≠ 0
    · rw [if_pos hp]
      exact atan2_range y x
    · rw [if_neg hp]
      norm_num
      exact ⟨hpi, hpi.le⟩

/-! ## Radii of curvature -/

/-- C6: for every flattening `0 <= f < 1` and every latitude the radicand
`1 - e^2 * sin(lat)^2` is strictly positive, and so is its square root; this radicand is
the argument of the square root in `core::N` and the divisor in `core::M`, its square
root is the divisor in `core::N`, and `N(a, f, lat) > 0` whenever `a > 0`. -/
theorem N_well_defined (f lat : ℝ) (h0 : 0 ≤ f) (h1 : f < 1) :
    0 < 1 - core.eccentricity_squared f * Real.sin lat * Real.sin lat
    ∧ 0 < Real.sqrt (1 - core.eccentricity_squared f * Real.sin lat * Real.sin lat)
    ∧ (∀ a : ℝ, core.N a f lat
        = a / Real.sqrt (1 - core.eccentricity_squared f * Real.sin lat * Real.sin lat))
    ∧ (∀ a : ℝ, core.M a f lat = core.N a f lat * ((1 - core.eccentricity_squared f)
        / (1 - core.eccentricity_squared f * Real.sin lat * Real.sin lat)))
    ∧ ∀ a : ℝ, 0 < a → 0 < core.N a f lat := by
  have hr := core_radicand_pos f lat h0 h1
  have e1 : (1e0 : ℝ) = 1 := by norm_num
  refine ⟨hr, Real.sqrt_pos.mpr hr, ?_, ?_, ?_⟩
  · intro a
    simp only [core.N, e1]
  · intro a
    simp only [core.M, core.detail.N, core.N, e1]
  · intro a ha
    simp only [core.N, e1]
    exact div_pos ha (Real.sqrt_pos.mpr hr)

/-- Witness for C6: the WGS84 flattening at latitude `1`. -/
theorem N_well_defined_witness :
    0 < 1 - core.eccentricity_squared (1 / 298.257223563) * Real.sin 1 * Real.sin 1
    ∧ 0 < Real.sqrt
        (1 - core.eccentricity_squared (1 / 298.257223563) * Real.sin 1 * Real.sin 1)
    ∧ (∀ a : ℝ, core.N a (1 / 298.257223563) 1 = a / Real.sqrt
        (1 - core.eccentricity_squared (1 / 298.257223563) * Real.sin 1 * Real.sin 1))
    ∧ (∀ a : ℝ, core.M a (1 / 298.257223563) 1 = core.N a (1 / 298.257223563) 1
        * ((1 - core.eccentricity_squared (1 / 298.257223563))
          / (1 - core.eccentricity_squared (1 / 298.257223563) * Real.sin 1 * Real.sin 1)))
    ∧ ∀ a : ℝ, 0 < a → 0 < core.N a (1 / 298.257223563) 1 :=
  N_well_defined (1 / 298.257223563) 1 (by norm_num) (by norm_num)

/-- C7: for `a > 0`, `0 < f < 1` and `0 <= lat1 <= lat2 <= pi/2`,
`N(a, f, lat1) <= N(a, f, lat2)`. -/
theorem N_monotone (a f lat1 lat2 : ℝ) (ha : 0 < a) (hf0 : 0 < f) (hf1 : f < 1)
    (h0 : 0 ≤ lat1) (h12 : lat1 ≤ lat2) (h2 : lat2 ≤ Real.pi / 2) :
    core.N a f lat1 ≤ core.N a f lat2 := by
  have hr1 := core_radicand_pos f lat1 hf0.le hf1
  have hr2 := core_radicand_pos f lat2 hf0.le hf1
  have hpi := Real.pi_pos
  have hs1 : 0 ≤ Real.sin lat1 := Real.sin_nonneg_of_nonneg_of_le_pi h0 (by linarith)
  have hs12 : Real.sin lat1 ≤ Real.sin lat2 :=
    Real.sin_le_sin_of_le_of_le_pi_div_two (by linarith) h2 h12
  have he0 : 0 ≤ core.eccentricity_squared f := by
    unfold core.eccentricity_squared
    norm_num
    exact mul_nonneg (by linarith) hf0.le
  have hsq : Real.sin lat1 * Real.sin lat1 ≤ Real.sin lat2 * Real.sin lat2 :=
    mul_le_mul hs12 hs12 hs1 (le_trans hs1 hs12)
  simp only [core.N]
  have e1 : (1e0 : ℝ) = 1 := by norm_num
  rw [e1]
  apply div_le_div_of_nonneg_left ha.le (Real.sqrt_pos.mpr hr2)
  apply Real.sqrt_le_sqrt
  nlinarith

/-- Witness for C7: the unit sphere flattened by one half, from the equator to
the pole. -/
theorem N_monotone_witness :
    core.N 1 (1 / 2) 0 ≤ core.N 1 (1 / 2) (Real.pi / 2) :=
  N_monotone 1 (1 / 2) 0 (Real.pi / 2) (by norm_num) (by norm_num) (by norm_num)
    le_rfl (by positivity) le_rfl

/-- C8: for every `a`, `f` and latitude, `N(a, f, -lat) = N(a, f, lat)` and
`M(a, f, -lat) = M(a, f, lat)`. -/
theorem N_M_even (a f lat : ℝ) :
    core.N a f (-lat) = core.N a f lat ∧ core.M a f (-lat) = core.M a f lat := by
  constructor
  · simp only [core.N, Real.sin_neg]
    ring_nf
  · simp only [core.M, core.detail.N, Real.sin_neg]
    ring_nf

/-! ## Reference values of the catalogued ellipsoids -/

/-- C9: with `a = 6378137` and `f = 1/298.257222101` exact, the GRS80 semi-minor
axis, linear eccentricity and polar radius of curvature are within `1e-4` of
`6356752.3141`, `521854.0097` and `6399593.6259`. -/
theorem grs80_reference_values :
    |semi_minor ellipsoid.grs80 - 6356752.3141| < 1e-4
    ∧ |linear_eccentricity ellipsoid.grs80 - 521854.0097| < 1e-4
    ∧ |polar_radius_of_curvature ellipsoid.grs80 - 6399593.6259| < 1e-4 := by
  refine ⟨?_, ?_, ?_⟩
  · rw [abs_lt]
    constructor <;>
      norm_num [semi_minor, core.semi_minor, ellipsoid_traits.a, ellipsoid_traits.f]
  · rw [abs_lt]
    simp only [linear_eccentricity, core.linear_eccentricity, core.semi_minor,
      ellipsoid_traits.a, ellipsoid_traits.f]
    constructor
    · rw [neg_lt_sub_iff_lt_add]
      rw [← sub_lt_iff_lt_add']
      apply Real.lt_sqrt_of_sq_lt
      norm_num
    · rw [sub_lt_iff_lt_add]
      rw [Real.sqrt_lt' (by norm_num)]
      norm_num
  · rw [abs_lt]
    constructor <;>
      norm_num [polar_radius_of_curvature, core.polar_radius_of_curvature, core.semi_minor,
        ellipsoid_traits.a, ellipsoid_traits.f]

/-- C10: the squared eccentricity is within `1e-15` of `0.00669438002290` for
GRS80, within `1e-12` of `0.00669437999014` for WGS84, and, through the class
`Ellipsoid`, within `1e-9` of `0.0066943662` for PZ90. -/
theorem eccentricity_squared_reference_values :
    |eccentricity_squared ellipsoid.grs80 - 0.00669438002290| < 1e-15
    ∧ |eccentricity_squared ellipsoid.wgs84 - 0.00669437999014| ≤ 1e-12
    ∧ |(Ellipsoid.ofEnum ellipsoid.pz90).eccentricity_squared - 0.0066943662| < 1e-9 := by
  refine ⟨?_, ?_, ?_⟩
  · rw [abs_lt]
    constructor <;>
      norm_num [eccentricity_squared, core.eccentricity_squared, ellipsoid_traits.f]
  · rw [abs_le]
    constructor <;>
      norm_num [eccentricity_squared, core.eccentricity_squared, ellipsoid_traits.f]
  · rw [abs_lt]
    constructor <;>
      norm_num [Ellipsoid.ofEnum, Ellipsoid.eccentricity_squared, core.eccentricity_squared,
        ellipsoid_traits.f]

/-! ## The runtime class and the closed forms -/

/-- C11: for each enum value `e`, `Ellipsoid(e).semi_major()` is `ellipsoid_traits<e>::a`
and `Ellipsoid(e).flattening()` is `ellipsoid_traits<e>::f`, so that
`Ellipsoid(e).eccentricity_squared()` is `eccentricity_squared<e>()` and
`Ellipsoid(e).semi_minor()` is `semi_minor<e>()`; and the instance built from the pair
`(ellipsoid_traits<e>::a, ellipsoid_traits<e>::f)` is the same instance, with the same
squared eccentricity and semi-minor axis. -/
theorem Ellipsoid_agrees_with_traits (e : ellipsoid) :
    (Ellipsoid.ofEnum e).semi_major = ellipsoid_traits.a e
    ∧ (Ellipsoid.ofEnum e).flattening = ellipsoid_traits.f e
    ∧ (Ellipsoid.ofEnum e).eccentricity_squared = eccentricity_squared e
    ∧ (Ellipsoid.ofEnum e).semi_minor = semi_minor e
    ∧ Ellipsoid.ofPair (ellipsoid_traits.a e) (ellipsoid_traits.f e) = Ellipsoid.ofEnum e
    ∧ (Ellipsoid.ofPair (ellipsoid_traits.a e) (ellipsoid_traits.f e)).eccentricity_squared
        = (Ellipsoid.ofEnum e).eccentricity_squared
    ∧ (Ellipsoid.ofPair (ellipsoid_traits.a e) (ellipsoid_traits.f e)).semi_minor
        = (Ellipsoid.ofEnum e).semi_minor := by
  cases e <;> exact ⟨rfl, rfl, rfl, rfl, rfl, rfl, rfl⟩

/-- C12: for every `a` other than zero and every `f`, `eccentricity_squared(f)` equals
`(2 - f)*f` and equals `(a^2 - b^2)/a^2` with `b = semi_minor(a, f)`. -/
theorem eccentricity_squared_geometric (a f : ℝ) (ha : a ≠ 0) :
    core.eccentricity_squared f = (2 - f) * f
    ∧ core.eccentricity_squared f
      = (a ^ 2 - core.semi_minor a f ^ 2) / a ^ 2 := by
  have h2 : (2e0 : ℝ) = 2 := by norm_num
  have h1 : (1e0 : ℝ) = 1 := by norm_num
  constructor
  · simp only [core.eccentricity_squared, h2]
  · simp only [core.eccentricity_squared, core.semi_minor, h2, h1]
    field_simp
    ring

/-- Witness for C12: `a = 2`, `f = 1/2`. -/
theorem eccentricity_squared_geometric_witness :
    core.eccentricity_squared (1 / 2) = (2 - 1 / 2) * (1 / 2)
    ∧ core.eccentricity_squared (1 / 2)
      = ((2 : ℝ) ^ 2 - core.semi_minor 2 (1 / 2) ^ 2) / 2 ^ 2 :=
  eccentricity_squared_geometric 2 (1 / 2) (by norm_num)

/-- C13: for every `a` other than zero and every `f` other than `2`,
`third_flattening(f)` equals `f/(2 - f)` and equals `(a - b)/(a + b)` with
`b = semi_minor(a, f)`. -/
theorem third_flattening_geometric (a f : ℝ) (ha : a ≠ 0) (hf : f ≠ 2) :
    core.third_flattening f = f / (2 - f)
    ∧ core.third_flattening f
      = (a - core.semi_minor a f) / (a + core.semi_minor a f) := by
  have h2 : (2e0 : ℝ) = 2 := by norm_num
  have h1 : (1e0 : ℝ) = 1 := by norm_num
  have hd : (2 : ℝ) - f ≠ 0 := fun h => hf (by linarith)
  constructor
  · simp only [core.third_flattening, h2]
  · simp only [core.third_flattening, core.semi_minor, h2, h1]
    have hd2 : a + a * (1 - f) ≠ 0 := by
      have : a + a * (1 - f) = a * (2 - f) := by ring
      rw [this]
      exact mul_ne_zero ha hd
    field_simp
    ring

/-- Witness for C13: `a = 2`, `f = 1/2`. -/
theorem third_flattening_geometric_witness :
    core.third_flattening (1 / 2) = (1 / 2) / (2 - 1 / 2)
    ∧ core.third_flattening (1 / 2)
      = ((2 : ℝ) - core.semi_minor 2 (1 / 2)) / (2 + core.semi_minor 2 (1 / 2)) :=
  third_flattening_geometric 2 (1 / 2) (by norm_num) (by norm_num)

/-! ## Geocentric latitude, pole branch and hemisphere symmetry -/

/-- The radius of curvature of a catalogued ellipsoid is positive. -/
theorem N_pos (E : ellipsoid) (lat : ℝ) : 0 < N E lat := by
  have hr := core_radicand_pos (ellipsoid_traits.f E) lat (traits_f_pos E).le
    (by have := traits_f_lt E; linarith)
  have h1 : (1e0 : ℝ) = 1 := by norm_num
  simp only [N, core.N, h1]
  exact div_pos (traits_a_pos E) (Real.sqrt_pos.mpr hr)

/-- C14: for each named ellipsoid and every latitude with `cos(lat)` other than zero, the
height-aware `geocentric_latitude<E>(lat, 0)` equals `geocentric_latitude<E>(lat)`, which
is `atan((1-f)^2 * tan(lat))`. -/
theorem geocentric_latitude_overloads_agree (E : ellipsoid) (lat : ℝ)
    (hc : Real.cos lat ≠ 0) :
    geocentric_latitude_h E lat 0 = geocentric_latitude E lat
    ∧ geocentric_latitude E lat
      = Real.arctan ((1 - ellipsoid_traits.f E) ^ 2 * Real.tan lat) := by
  have h1 : (1e0 : ℝ) = 1 := by norm_num
  have hN := (N_pos E lat).ne'
  have he : 1 - eccentricity_squared E = (1 - ellipsoid_traits.f E) ^ 2 :=
    core_ep2_eq (ellipsoid_traits.f E)
  have hsurf : geocentric_latitude E lat
      = Real.arctan ((1 - ellipsoid_traits.f E) ^ 2 * Real.tan lat) := by
    simp only [geocentric_latitude, core.geocentric_latitude, h1]
    rw [sq]
  refine ⟨?_, hsurf⟩
  rw [hsurf]
  simp only [geocentric_latitude_h, h1, add_zero]
  congr 1
  rw [he, Real.tan_eq_sin_div_cos]
  field_simp
  ring

/-- Witness for C14: GRS80 at latitude `0`. -/
theorem geocentric_latitude_overloads_agree_witness :
    geocentric_latitude_h ellipsoid.grs80 0 0 = geocentric_latitude ellipsoid.grs80 0
    ∧ geocentric_latitude ellipsoid.grs80 0
      = Real.arctan ((1 - ellipsoid_traits.f ellipsoid.grs80) ^ 2 * Real.tan 0) :=
  geocentric_latitude_overloads_agree ellipsoid.grs80 0 (by simp)

/-- C18: for each named ellipsoid and every `(x, y, z)` with `x^2 + y^2 <= a^2 * 1e-32`,
the returned latitude is `pi/2` when `z >= 0` and `-pi/2` when `z < 0`, and the returned
height is `|z| - a*sqrt(1 - e^2)`, where `a*sqrt(1 - e^2)` is the semi-minor axis. -/
theorem cartesian2geodetic_pole_branch (E : ellipsoid) (x y z : ℝ)
    (hp : x * x + y * y ≤ ellipsoid_traits.a E * ellipsoid_traits.a E * 1e-32) :
    (cartesian2geodetic E x y z).lat
      = some (if z < 0 then -(Real.pi / 2) else Real.pi / 2)
    ∧ (cartesian2geodetic E x y z).hgt
      = some (|z| - ellipsoid_traits.a E * Real.sqrt (1 - eccentricity_squared E))
    ∧ ellipsoid_traits.a E * Real.sqrt (1 - eccentricity_squared E) = semi_minor E := by
  have h0 : (0e0 : ℝ) = 0 := by norm_num
  have h1 : (1.0e0 : ℝ) = 1 := by norm_num
  have h1' : (1e0 : ℝ) = 1 := by norm_num
  have h2 : (2e0 : ℝ) = 2 := by norm_num
  have hb : ¬ x * x + y * y > ellipsoid_traits.a E * ellipsoid_traits.a E * 1e-32 :=
    not_lt.mpr hp
  refine ⟨?_, ?_, ?_⟩
  · simp only [cartesian2geodetic, if_neg hb, h0, h2, DPI_eq_pi]
    by_cases hz : z < 0
    · simp only [if_pos hz, Option.map_some']
    · simp only [if_neg hz]
  · simp only [cartesian2geodetic, if_neg hb, h1]
  · rw [sqrt_ep2]
    simp only [semi_minor, core.semi_minor, h1']

/-- Witness for C18: PZ90 and the point `(0, 0, -7000000)` on the southern axis. -/
theorem cartesian2geodetic_pole_branch_witness :
    (cartesian2geodetic ellipsoid.pz90 0 0 (-7000000)).lat
      = some (if (-7000000 : ℝ) < 0 then -(Real.pi / 2) else Real.pi / 2)
    ∧ (cartesian2geodetic ellipsoid.pz90 0 0 (-7000000)).hgt
      = some (|(-7000000 : ℝ)| - ellipsoid_traits.a ellipsoid.pz90
          * Real.sqrt (1 - eccentricity_squared ellipsoid.pz90))
    ∧ ellipsoid_traits.a ellipsoid.pz90 * Real.sqrt (1 - eccentricity_squared ellipsoid.pz90)
      = semi_minor ellipsoid.pz90 :=
  cartesian2geodetic_pole_branch ellipsoid.pz90 0 0 (-7000000)
    (by norm_num [ellipsoid_traits.a])

/-- C19: for each named ellipsoid and every `(x, y, z)` with `z` other than zero, the
latitude returned at `(x, y, -z)` is the negated latitude returned at `(x, y, z)`, and
longitude and height are the same; so if `cartesian2geodetic(x, y, z)` is `(lat, lon, h)`
then `cartesian2geodetic(x, y, -z)` is `(-lat, lon, h)`. -/
theorem cartesian2geodetic_hemisphere (E : ellipsoid) (x y z : ℝ) (hz : z ≠ 0) :
    (cartesian2geodetic E x y (-z)).lat
      = (cartesian2geodetic E x y z).lat.map (fun v => -v)
    ∧ (cartesian2geodetic E x y (-z)).lon = (cartesian2geodetic E x y z).lon
    ∧ (cartesian2geodetic E x y (-z)).hgt = (cartesian2geodetic E x y z).hgt
    ∧ ∀ lat lon h : ℝ, (cartesian2geodetic E x y z).lat = some lat
        → (cartesian2geodetic E x y z).lon = lon
        → (cartesian2geodetic E x y z).hgt = some h
        → (cartesian2geodetic E x y (-z)).lat = some (-lat)
          ∧ (cartesian2geodetic E x y (-z)).lon = lon
          ∧ (cartesian2geodetic E x y (-z)).hgt = some h := by
  have h0 : (0e0 : ℝ) = 0 := by norm_num
  have hlat : (cartesian2geodetic E x y (-z)).lat
      = (cartesian2geodetic E x y z).lat.map (fun v => -v) := by
    simp only [cartesian2geodetic, abs_neg, h0]
    rcases lt_or_gt_of_ne hz with hneg | hpos
    · have h1 : ¬ -z < 0 := by linarith
      rw [if_neg h1, if_pos hneg, Option.map_map]
      have : ((fun v : ℝ => -v) ∘ fun v : ℝ => -v) = id := by
        funext v; simp
      rw [this, Option.map_id]
      rfl
    · have h1 : -z < 0 := by linarith
      have h2 : ¬ z < 0 := by linarith
      rw [if_pos h1, if_neg h2]
  have hlon : (cartesian2geodetic E x y (-z)).lon = (cartesian2geodetic E x y z).lon := by
    simp only [cartesian2geodetic]
  have hhgt : (cartesian2geodetic E x y (-z)).hgt = (cartesian2geodetic E x y z).hgt := by
    simp only [cartesian2geodetic, abs_neg]
  refine ⟨hlat, hlon, hhgt, ?_⟩
  intro lat lon h e1 e2 e3
  rw [hlat, hlon, hhgt, e1, e2, e3]
  exact ⟨rfl, rfl, rfl⟩

/-- Witness for C19: WGS84 and the point `(4000000, 3000000, 4000000)`. -/
theorem cartesian2geodetic_hemisphere_witness :
    (cartesian2geodetic ellipsoid.wgs84 4000000 3000000 (-4000000)).lat
      = (cartesian2geodetic ellipsoid.wgs84 4000000 3000000 4000000).lat.map (fun v => -v)
    ∧ (cartesian2geodetic ellipsoid.wgs84 4000000 3000000 (-4000000)).lon
      = (cartesian2geodetic ellipsoid.wgs84 4000000 3000000 4000000).lon
    ∧ (cartesian2geodetic ellipsoid.wgs84 4000000 3000000 (-4000000)).hgt
      = (cartesian2geodetic ellipsoid.wgs84 4000000 3000000 4000000).hgt
    ∧ ∀ lat lon h : ℝ,
        (cartesian2geodetic ellipsoid.wgs84 4000000 3000000 4000000).lat = some lat
        → (cartesian2geodetic ellipsoid.wgs84 4000000 3000000 4000000).lon = lon
        → (cartesian2geodetic ellipsoid.wgs84 4000000 3000000 4000000).hgt = some h
        → (cartesian2geodetic ellipsoid.wgs84 4000000 3000000 (-4000000)).lat = some (-lat)
          ∧ (cartesian2geodetic ellipsoid.wgs84 4000000 3000000 (-4000000)).lon = lon
          ∧ (cartesian2geodetic ellipsoid.wgs84 4000000 3000000 (-4000000)).hgt = some h :=
  cartesian2geodetic_hemisphere ellipsoid.wgs84 4000000 3000000 4000000 (by norm_num)

/-! ## The Jacobians of `top2dae` -/

/-- The derivative of `t ↦ arctan (u / sqrt (t * t + m * m))`, the elevation as a function
of one horizontal component. -/
theorem elevation_horizontal_deriv (t m u : ℝ) (h : 0 < Real.sqrt (t * t + m * m)) :
    HasDerivAt (fun s : ℝ => Real.arctan (u / Real.sqrt (s * s + m * m)))
      (-t * u / Real.sqrt (t * t + m * m) / (t * t + m * m + u * u)) t := by
  have hpos : 0 < t * t + m * m := Real.sqrt_pos.mp h
  have hq : HasDerivAt (fun s : ℝ => s * s + m * m) (1 * t + t * 1) t :=
    ((hasDerivAt_id t).mul (hasDerivAt_id t)).add_const (m * m)
  have hs := hq.sqrt hpos.ne'
  have hd := (hasDerivAt_const t u).div hs h.ne'
  have ha := hd.arctan
  have hR : 0 < t * t + m * m + u * u := by
    have := mul_self_nonneg u
    linarith only [this, hpos]
  have hsq : Real.sqrt (t * t + m * m) ^ 2 = t * t + m * m := Real.sq_sqrt hpos.le
  convert ha using 1
  obtain ⟨r, hr⟩ : ∃ r, r = Real.sqrt (t * t + m * m) := ⟨_, rfl⟩
  rw [← hr] at hsq h ⊢
  have hR2 : 0 < r ^ 2 + u * u := by rw [hsq]; exact hR
  have h1 : (1 : ℝ) + (u / r) ^ 2 ≠ 0 := by positivity
  rw [← hsq]
  field_simp
  ring

/-- The derivative of `t ↦ arctan (t / rho)`, the elevation as a function of the vertical
component. -/
theorem elevation_vertical_deriv (rho2 u : ℝ) (h : 0 < Real.sqrt rho2) :
    HasDerivAt (fun s : ℝ => Real.arctan (s / Real.sqrt rho2))
      (Real.sqrt rho2 / (rho2 + u * u)) u := by
  have hpos : 0 < rho2 := Real.sqrt_pos.mp h
  have hd := (hasDerivAt_id u).div_const (Real.sqrt rho2)
  have ha := hd.arctan
  have hsq : Real.sqrt rho2 ^ 2 = rho2 := Real.sq_sqrt hpos.le
  convert ha using 1
  obtain ⟨r, hr⟩ : ∃ r, r = Real.sqrt rho2 := ⟨_, rfl⟩
  rw [← hr] at hsq h ⊢
  rw [← hsq]
  have hR2 : 0 < r ^ 2 + u * u := by
    have h1 := pow_pos h 2
    have h2 := mul_self_nonneg u
    linarith only [h1, h2]
  simp only [id]
  field_simp
  ring

/-- C15: for every ENU vector `(e, n, u)` with `rho = sqrt(e^2 + n^2) > 0`, the returned
elevation is `atan(u / sqrt(e^2 + n^2))`, the returned `dEdr` is
`(-e*u/(rho*R2), -n*u/(rho*R2), rho/R2)` with `R2 = e^2 + n^2 + u^2`, and its three
components are the partial derivatives of the returned elevation with respect to `e`,
`n` and `u`. -/
theorem top2dae_elevation_jacobian (e n u : ℝ) (hrho : 0 < Real.sqrt (e * e + n * n)) :
    (top2dae_partials ⟨e, n, u⟩).elevation = Real.arctan (u / Real.sqrt (e ^ 2 + n ^ 2))
    ∧ (top2dae_partials ⟨e, n, u⟩).dEdr.c0
        = -e * u / (Real.sqrt (e ^ 2 + n ^ 2) * (e ^ 2 + n ^ 2 + u ^ 2))
    ∧ (top2dae_partials ⟨e, n, u⟩).dEdr.c1
        = -n * u / (Real.sqrt (e ^ 2 + n ^ 2) * (e ^ 2 + n ^ 2 + u ^ 2))
    ∧ (top2dae_partials ⟨e, n, u⟩).dEdr.c2
        = Real.sqrt (e ^ 2 + n ^ 2) / (e ^ 2 + n ^ 2 + u ^ 2)
    ∧ HasDerivAt (fun t : ℝ => (top2dae_partials ⟨t, n, u⟩).elevation)
        (top2dae_partials ⟨e, n, u⟩).dEdr.c0 e
    ∧ HasDerivAt (fun t : ℝ => (top2dae_partials ⟨e, t, u⟩).elevation)
        (top2dae_partials ⟨e, n, u⟩).dEdr.c1 n
    ∧ HasDerivAt (fun t : ℝ => (top2dae_partials ⟨e, n, t⟩).elevation)
        (top2dae_partials ⟨e, n, u⟩).dEdr.c2 u := by
  refine ⟨?_, ?_, ?_, ?_, ?_, ?_, ?_⟩
  · simp only [top2dae_partials, sq]
  · simp only [top2dae_partials, sq, div_div]
  · simp only [top2dae_partials, sq, div_div]
  · simp only [top2dae_partials, sq]
  · exact elevation_horizontal_deriv e n u hrho
  · have hrho2 : 0 < Real.sqrt (n * n + e * e) := by rw [add_comm]; exact hrho
    have := elevation_horizontal_deriv n e u hrho2
    simp only [top2dae_partials]
    have c : ∀ s : ℝ, e * e + s * s = s * s + e * e := fun s => add_comm _ _
    simp only [c]
    exact this
  · exact elevation_vertical_deriv (e * e + n * n) u hrho

/-- Witness for C15: the vector `(3, 4, 1)`. -/
theorem top2dae_elevation_jacobian_witness :
    (top2dae_partials ⟨3, 4, 1⟩).elevation = Real.arctan (1 / Real.sqrt (3 ^ 2 + 4 ^ 2))
    ∧ (top2dae_partials ⟨3, 4, 1⟩).dEdr.c0
        = -3 * 1 / (Real.sqrt (3 ^ 2 + 4 ^ 2) * (3 ^ 2 + 4 ^ 2 + 1 ^ 2))
    ∧ (top2dae_partials ⟨3, 4, 1⟩).dEdr.c1
        = -4 * 1 / (Real.sqrt (3 ^ 2 + 4 ^ 2) * (3 ^ 2 + 4 ^ 2 + 1 ^ 2))
    ∧ (top2dae_partials ⟨3, 4, 1⟩).dEdr.c2
        = Real.sqrt (3 ^ 2 + 4 ^ 2) / (3 ^ 2 + 4 ^ 2 + 1 ^ 2)
    ∧ HasDerivAt (fun t : ℝ => (top2dae_partials ⟨t, 4, 1⟩).elevation)
        (top2dae_partials ⟨3, 4, 1⟩).dEdr.c0 3
    ∧ HasDerivAt (fun t : ℝ => (top2dae_partials ⟨3, t, 1⟩).elevation)
        (top2dae_partials ⟨3, 4, 1⟩).dEdr.c1 4
    ∧ HasDerivAt (fun t : ℝ => (top2dae_partials ⟨3, 4, t⟩).elevation)
        (top2dae_partials ⟨3, 4, 1⟩).dEdr.c2 1 :=
  top2dae_elevation_jacobian 3 4 1 (Real.sqrt_pos.mpr (by norm_num))

/-- The derivative of `atan2` in its first argument, off the branch cut. -/
theorem atan2_deriv_fst (e n : ℝ) (h : 0 < n ∨ e ≠ 0) :
    HasDerivAt (fun t : ℝ => atan2 t n) (n / (e * e + n * n)) e := by
  have hf : HasDerivAt (fun t : ℝ => (⟨n, t⟩ : ℂ)) Complex.I e := by
    have h0 : HasDerivAt (fun t : ℝ => (n : ℂ) + (t : ℂ) * Complex.I) Complex.I e := by
      have := ((hasDerivAt_id e).ofReal_comp.mul_const Complex.I).const_add (n : ℂ)
      simpa using this
    have hE : (fun t : ℝ => (⟨n, t⟩ : ℂ)) = fun t : ℝ => (n : ℂ) + (t : ℂ) * Complex.I := by
      funext t
      apply Complex.ext <;> simp
    rw [hE]; exact h0
  have hmem : (⟨n, e⟩ : ℂ) ∈ Complex.slitPlane := by
    rw [Complex.mem_slitPlane_iff]; exact h
  have hl := hf.clog_real hmem
  have hi := Complex.imCLM.hasFDerivAt.comp_hasDerivAt e hl
  have hpos : 0 < e * e + n * n := by
    rcases h with h | h
    · have := mul_pos h h
      have := mul_self_nonneg e
      linarith
    · have := mul_self_pos.mpr h
      have := mul_self_nonneg n
      linarith
  have hval : Complex.imCLM (Complex.I / (⟨n, e⟩ : ℂ)) = n / (e * e + n * n) := by
    simp only [Complex.imCLM_apply, Complex.div_im, Complex.I_im, Complex.I_re,
      Complex.normSq_mk]
    have hne : n * n + e * e ≠ 0 := by linarith only [hpos]
    have hc : e * e + n * n = n * n + e * e := add_comm _ _
    rw [hc]
    field_simp
  rw [hval] at hi
  have hfun : (fun t : ℝ => atan2 t n)
      = (Complex.imCLM ∘ fun t : ℝ => Complex.log (⟨n, t⟩ : ℂ)) := by
    funext t
    simp only [atan2, Function.comp, Complex.imCLM_apply, Complex.log_im]
  rw [hfun]
  exact hi

/-- The derivative of `atan2` in its second argument, off the branch cut. -/
theorem atan2_deriv_snd (e n : ℝ) (h : 0 < n ∨ e ≠ 0) :
    HasDerivAt (fun t : ℝ => atan2 e t) (-e / (e * e + n * n)) n := by
  have hf : HasDerivAt (fun t : ℝ => (⟨t, e⟩ : ℂ)) 1 n := by
    have h0 : HasDerivAt (fun t : ℝ => (t : ℂ) + (e : ℂ) * Complex.I) 1 n := by
      have := ((hasDerivAt_id n).ofReal_comp).add_const ((e : ℂ) * Complex.I)
      simpa using this
    have hE : (fun t : ℝ => (⟨t, e⟩ : ℂ)) = fun t : ℝ => (t : ℂ) + (e : ℂ) * Complex.I := by
      funext t
      apply Complex.ext <;> simp
    rw [hE]; exact h0
  have hmem : (⟨n, e⟩ : ℂ) ∈ Complex.slitPlane := by
    rw [Complex.mem_slitPlane_iff]; exact h
  have hl := hf.clog_real hmem
  have hi := Complex.imCLM.hasFDerivAt.comp_hasDerivAt n hl
  have hpos : 0 < e * e + n * n := by
    rcases h with h | h
    · have := mul_pos h h
      have := mul_self_nonneg e
      linarith
    · have := mul_self_pos.mpr h
      have := mul_self_nonneg n
      linarith
  have hval : Complex.imCLM ((1 : ℂ) / (⟨n, e⟩ : ℂ)) = -e / (e * e + n * n) := by
    simp only [Complex.imCLM_apply, Complex.div_im, Complex.one_im, Complex.one_re,
      Complex.normSq_mk]
    have hne : n * n + e * e ≠ 0 := by linarith only [hpos]
    have hc : e * e + n * n = n * n + e * e := add_comm _ _
    rw [hc]
    field_simp
  rw [hval] at hi
  have hfun : (fun t : ℝ => atan2 e t)
      = (Complex.imCLM ∘ fun t : ℝ => Complex.log (⟨t, e⟩ : ℂ)) := by
    funext t
    simp only [atan2, Function.comp, Complex.imCLM_apply, Complex.log_im]
  rw [hfun]
  exact hi

/-- C16: for every ENU vector `(e, n, u)` with `e^2 + n^2 > 0` that is not on the branch
cut of `atan2` (not `e = 0` with `n < 0`), the returned azimuth is the normalised
`atan2(e, n)`, the returned `dAdr` is `(n/rho2, -e/rho2, 0)` with `rho2 = e^2 + n^2`, and
its three components are the partial derivatives of `(e, n, u) -> atan2(e, n)` with
respect to `e`, `n` and `u`. -/
theorem top2dae_azimuth_jacobian (e n u : ℝ) (hrho : 0 < e ^ 2 + n ^ 2)
    (hcut : ¬ (e = 0 ∧ n < 0)) :
    (top2dae_partials ⟨e, n, u⟩).azimouth = norm_angle (atan2 e n)
    ∧ (top2dae_partials ⟨e, n, u⟩).dAdr.c0 = n / (e ^ 2 + n ^ 2)
    ∧ (top2dae_partials ⟨e, n, u⟩).dAdr.c1 = -e / (e ^ 2 + n ^ 2)
    ∧ (top2dae_partials ⟨e, n, u⟩).dAdr.c2 = 0
    ∧ HasDerivAt (fun t : ℝ => atan2 t n) (top2dae_partials ⟨e, n, u⟩).dAdr.c0 e
    ∧ HasDerivAt (fun t : ℝ => atan2 e t) (top2dae_partials ⟨e, n, u⟩).dAdr.c1 n
    ∧ HasDerivAt (fun _ : ℝ => atan2 e n) (top2dae_partials ⟨e, n, u⟩).dAdr.c2 u := by
  have e1 : e ^ 2 + n ^ 2 = e * e + n * n := by ring
  have hs : 0 < n ∨ e ≠ 0 := by
    by_cases he : e = 0
    · left
      have hn : ¬ n < 0 := fun hn => hcut ⟨he, hn⟩
      rcases (not_lt.mp hn).lt_or_eq with h | h
      · exact h
      · rw [he, ← h] at hrho
        norm_num at hrho
    · exact Or.inr he
  have h0 : (0e0 : ℝ) = 0 := by norm_num
  refine ⟨rfl, ?_, ?_, ?_, ?_, ?_, ?_⟩
  · simp only [top2dae_partials, e1]
  · simp only [top2dae_partials, e1]
  · simp only [top2dae_partials, h0]
  · exact atan2_deriv_fst e n hs
  · exact atan2_deriv_snd e n hs
  · simp only [top2dae_partials, h0]
    exact hasDerivAt_const u _

/-- Witness for C16: the vector `(3, 4, 1)`. -/
theorem top2dae_azimuth_jacobian_witness :
    (top2dae_partials ⟨3, 4, 1⟩).azimouth = norm_angle (atan2 3 4)
    ∧ (top2dae_partials ⟨3, 4, 1⟩).dAdr.c0 = 4 / (3 ^ 2 + 4 ^ 2)
    ∧ (top2dae_partials ⟨3, 4, 1⟩).dAdr.c1 = -3 / (3 ^ 2 + 4 ^ 2)
    ∧ (top2dae_partials ⟨3, 4, 1⟩).dAdr.c2 = 0
    ∧ HasDerivAt (fun t : ℝ => atan2 t 4) (top2dae_partials ⟨3, 4, 1⟩).dAdr.c0 3
    ∧ HasDerivAt (fun t : ℝ => atan2 3 t) (top2dae_partials ⟨3, 4, 1⟩).dAdr.c1 4
    ∧ HasDerivAt (fun _ : ℝ => atan2 3 4) (top2dae_partials ⟨3, 4, 1⟩).dAdr.c2 1 :=
  top2dae_azimuth_jacobian 3 4 1 (by norm_num) (by norm_num)

/-! ## The divisors of the general branch -/

/-- Positivity of the divisor core `f0^2 - b0*c0` of the general branch when the radius
`a0` of the starting point exceeds `e2 * ep`. -/
theorem halley_divisor_core_pos (ep e2 pn s0 a0 : ℝ) (hep : 0 < ep) (hep2 : ep ^ 2 = 1 - e2)
    (he0 : 0 ≤ e2) (he1 : e2 ≤ 7 / 1000) (hpn : 0 < pn)
    (ha02 : a0 ^ 2 = (ep * pn) ^ 2 + s0 ^ 2) (hout : e2 * ep < a0) :
    0 < (pn * (a0 ^ 2 * a0) - e2 * (ep * pn * (ep * pn) * (ep * pn)))
        * (pn * (a0 ^ 2 * a0) - e2 * (ep * pn * (ep * pn) * (ep * pn)))
      - e2 * e2 * (3 / 2) * (s0 * s0) * (ep * pn * (ep * pn)) * pn * (a0 - ep) * (ep * pn) := by
  have hc0 : 0 < ep * pn := mul_pos hep hpn
  have hA : 0 < a0 := lt_of_le_of_lt (mul_nonneg he0 hep.le) hout
  have hcA : (ep * pn) ^ 2 ≤ a0 ^ 2 := by linarith only [ha02, sq_nonneg s0]
  have hsA : s0 ^ 2 ≤ a0 ^ 2 := by linarith only [ha02, sq_nonneg (ep * pn)]
  obtain ⟨f0, hf0⟩ : ∃ f0 : ℝ, f0 = pn * (a0 ^ 2 * a0)
      - e2 * (ep * pn * (ep * pn) * (ep * pn)) := ⟨_, rfl⟩
  rw [← hf0]
  -- lower bound of the Newton denominator
  have hL : pn * a0 ^ 2 * (a0 - e2 * ep) ≤ f0 := by
    have h1 : 0 ≤ e2 * (ep * pn) * (a0 ^ 2 - (ep * pn) ^ 2) :=
      mul_nonneg (mul_nonneg he0 hc0.le) (by linarith only [hcA])
    have h2 : f0 - pn * a0 ^ 2 * (a0 - e2 * ep)
        = e2 * (ep * pn) * (a0 ^ 2 - (ep * pn) ^ 2) := by rw [hf0]; ring
    linarith only [h1, h2]
  have hLpos : 0 < pn * a0 ^ 2 * (a0 - e2 * ep) :=
    mul_pos (mul_pos hpn (pow_pos hA 2)) (by linarith only [hout])
  have hf2 : (pn * a0 ^ 2 * (a0 - e2 * ep)) * (pn * a0 ^ 2 * (a0 - e2 * ep)) ≤ f0 * f0 :=
    mul_le_mul hL hL hLpos.le (le_trans hLpos.le hL)
  have hM0 : 0 ≤ e2 * e2 * (3 / 2) * (s0 * s0) * (ep * pn * (ep * pn)) * pn * (ep * pn) := by
    have := mul_self_nonneg s0
    have := mul_self_nonneg (ep * pn)
    positivity
  have hre : e2 * e2 * (3 / 2) * (s0 * s0) * (ep * pn * (ep * pn)) * pn * (a0 - ep) * (ep * pn)
      = e2 * e2 * (3 / 2) * (s0 * s0) * (ep * pn * (ep * pn)) * pn * (ep * pn) * (a0 - ep) := by
    ring
  rw [hre]
  rcases le_or_lt a0 ep with hle | hgt
  · have h1 : e2 * e2 * (3 / 2) * (s0 * s0) * (ep * pn * (ep * pn)) * pn * (ep * pn) * (a0 - ep)
        ≤ 0 := mul_nonpos_of_nonneg_of_nonpos hM0 (by linarith only [hle])
    have h2 : 0 < (pn * a0 ^ 2 * (a0 - e2 * ep)) * (pn * a0 ^ 2 * (a0 - e2 * ep)) :=
      mul_pos hLpos hLpos
    linarith only [h1, h2, hf2]
  · have ht : 0 < a0 - ep := by linarith only [hgt]
    have hM1 : e2 * e2 * (3 / 2) * (s0 * s0) * (ep * pn * (ep * pn)) * pn * (ep * pn)
        ≤ e2 * e2 * (3 / 2) * (a0 ^ 2) * (a0 ^ 2) * pn * (ep * pn) := by
      have hs : s0 * s0 ≤ a0 ^ 2 := by rw [← sq]; exact hsA
      have hc : ep * pn * (ep * pn) ≤ a0 ^ 2 := by rw [← sq]; exact hcA
      have hs' : 0 ≤ s0 * s0 := mul_self_nonneg s0
      have hc' : 0 ≤ ep * pn * (ep * pn) := mul_self_nonneg _
      gcongr
    have hU : e2 * e2 * (3 / 2) * (s0 * s0) * (ep * pn * (ep * pn)) * pn * (ep * pn) * (a0 - ep)
        ≤ e2 * e2 * (3 / 2) * (a0 ^ 2) * (a0 ^ 2) * pn * (ep * pn) * (a0 - ep) :=
      mul_le_mul_of_nonneg_right hM1 ht.le
    have hkey : 0 < (a0 - e2 * ep) ^ 2 - 3 / 2 * e2 ^ 2 * ep * (a0 - ep) := by
      have h1 : a0 - e2 * ep = (a0 - ep) + ep ^ 3 := by
        have : ep ^ 3 = ep * ep ^ 2 := by ring
        rw [this, hep2]; ring
      rw [h1]
      have h2 : 0 < ep ^ 6 := pow_pos hep 6
      have h3 : 0 ≤ (a0 - ep) ^ 2 := sq_nonneg _
      have h4 : 3 / 2 * e2 ^ 2 ≤ 2 * ep ^ 2 := by
        rw [hep2]
        have : e2 ^ 2 ≤ (7 / 1000) ^ 2 := pow_le_pow_left₀ he0 he1 2
        linarith only [this, he1]
      have h5 : 3 / 2 * e2 ^ 2 * (ep * (a0 - ep)) ≤ 2 * ep ^ 2 * (ep * (a0 - ep)) :=
        mul_le_mul_of_nonneg_right h4 (mul_nonneg hep.le ht.le)
      have h6 : ((a0 - ep) + ep ^ 3) ^ 2 - 3 / 2 * e2 ^ 2 * ep * (a0 - ep)
          = (a0 - ep) ^ 2 + ep ^ 6
            + (2 * ep ^ 2 * (ep * (a0 - ep)) - 3 / 2 * e2 ^ 2 * (ep * (a0 - ep))) := by ring
      linarith only [h2, h3, h5, h6]
    have hfin : 0 < pn ^ 2 * a0 ^ 4
        * ((a0 - e2 * ep) ^ 2 - 3 / 2 * e2 ^ 2 * ep * (a0 - ep)) :=
      mul_pos (mul_pos (pow_pos hpn 2) (pow_pos hA 4)) hkey
    have hexp : pn ^ 2 * a0 ^ 4 * ((a0 - e2 * ep) ^ 2 - 3 / 2 * e2 ^ 2 * ep * (a0 - ep))
        = (pn * a0 ^ 2 * (a0 - e2 * ep)) * (pn * a0 ^ 2 * (a0 - e2 * ep))
          - e2 * e2 * (3 / 2) * (a0 ^ 2) * (a0 ^ 2) * pn * (ep * pn) * (a0 - ep) := by ring
    linarith only [hfin, hexp, hU, hf2]

/-- C17 (as stated, refuted): for GRS80 the point `(a*e2, 0, 0)` passes the
pole-proximity guard, and yet the divisor `cp` of the general branch is zero there (and
so is `s1`). -/
theorem guard_misses_a_zero_divisor :
    ¬ ((ellipsoid_traits.a ellipsoid.grs80 * eccentricity_squared ellipsoid.grs80)
          * (ellipsoid_traits.a ellipsoid.grs80 * eccentricity_squared ellipsoid.grs80) + 0 * 0
        > ellipsoid_traits.a ellipsoid.grs80 * ellipsoid_traits.a ellipsoid.grs80 * 1e-32
      → (halley ellipsoid.grs80
            ((ellipsoid_traits.a ellipsoid.grs80 * eccentricity_squared ellipsoid.grs80)
              * (ellipsoid_traits.a ellipsoid.grs80 * eccentricity_squared ellipsoid.grs80)
              + 0 * 0) |0|).2 ≠ 0
        ∧ 0 < (halley ellipsoid.grs80
            ((ellipsoid_traits.a ellipsoid.grs80 * eccentricity_squared ellipsoid.grs80)
              * (ellipsoid_traits.a ellipsoid.grs80 * eccentricity_squared ellipsoid.grs80)
              + 0 * 0) |0|).1 ^ 2
          + (halley ellipsoid.grs80
            ((ellipsoid_traits.a ellipsoid.grs80 * eccentricity_squared ellipsoid.grs80)
              * (ellipsoid_traits.a ellipsoid.grs80 * eccentricity_squared ellipsoid.grs80)
              + 0 * 0) |0|).2 ^ 2) := by
  have hgt : (ellipsoid_traits.a ellipsoid.grs80 * eccentricity_squared ellipsoid.grs80)
      * (ellipsoid_traits.a ellipsoid.grs80 * eccentricity_squared ellipsoid.grs80) + 0 * 0
      > ellipsoid_traits.a ellipsoid.grs80 * ellipsoid_traits.a ellipsoid.grs80 * 1e-32 := by
    norm_num [ellipsoid_traits.a, eccentricity_squared, core.eccentricity_squared,
      ellipsoid_traits.f]
  have hx : 0 ≤ ellipsoid_traits.a ellipsoid.grs80 * eccentricity_squared ellipsoid.grs80 :=
    mul_nonneg (traits_a_pos _).le (e2_pos _).le
  have hp : Real.sqrt ((ellipsoid_traits.a ellipsoid.grs80 * eccentricity_squared ellipsoid.grs80)
      * (ellipsoid_traits.a ellipsoid.grs80 * eccentricity_squared ellipsoid.grs80) + 0 * 0)
      = ellipsoid_traits.a ellipsoid.grs80 * eccentricity_squared ellipsoid.grs80 := by
    rw [show (0:ℝ) * 0 = 0 by ring, add_zero]
    exact Real.sqrt_mul_self hx
  intro h
  have h2 := (h hgt).1
  rw [abs_zero, halley_equator_sing _ _ hp] at h2
  exact h2 rfl

/-! ## The exact round trip on the ellipsoid -/

/-- At height zero the scaled Halley step returns exactly the direction `(c, s)`. -/
theorem halley_step_surface (s c ep E W Y F Dd B : ℝ) (hsc : s ^ 2 + c ^ 2 = 1)
    (hep : 0 ≤ ep) (hep2 : ep ^ 2 = 1 - E) (hW : 0 ≤ W) (hW2 : W ^ 2 = 1 - E * s ^ 2)
    (hY : 0 ≤ Y) (hY2 : Y ^ 2 = (ep * ((1 + 0) * c)) ^ 2 + ((ep ^ 2 + 0) * s) ^ 2)
    (hF : F = (1 + 0) * c * Y ^ 3 - E * W * (ep * ((1 + 0) * c)) ^ 3)
    (hD : Dd = ep * ((ep ^ 2 + 0) * s) * Y ^ 3 + E * W * ((ep ^ 2 + 0) * s) ^ 3)
    (hB : B = 3 / 2 * E ^ 2 * W * ((ep ^ 2 + 0) * s) ^ 2 * (ep * ((1 + 0) * c)) ^ 2
      * ((1 + 0) * c) * (Y - ep * W)) :
    (Dd * F - B * ((ep ^ 2 + 0) * s)) * c - ep * (F ^ 2 - B * (ep * ((1 + 0) * c))) * s = 0 := by
  have hYsq : Y ^ 2 = (ep * W) ^ 2 := by
    rw [hY2, mul_pow ep W, hW2]
    have : (ep * ((1 + 0) * c)) ^ 2 + ((ep ^ 2 + 0) * s) ^ 2
        = ep ^ 2 * c ^ 2 + ep ^ 2 * (ep ^ 2 * s ^ 2) := by ring
    rw [this, hep2]
    linear_combination (1 - E) * hsc
  have hYeq : Y = ep * W :=
    le_antisymm (le_of_sq_le_sq_nonneg (mul_nonneg hep hW) hYsq.le)
      (le_of_sq_le_sq_nonneg hY hYsq.ge)
  have hB0 : B = 0 := by rw [hB, hYeq]; ring
  have hD' : Dd = ep ^ 6 * s * W := by
    rw [hD, hYeq]
    linear_combination (ep ^ 6 * s * W) * hW2
  have hF' : F = ep ^ 3 * c * W * (W ^ 2 - E * c ^ 2) := by
    rw [hF, hYeq]; ring
  have hcross : Dd * c - ep * F * s = 0 := by
    rw [hD', hF']
    linear_combination (ep ^ 4 * s * c * W) * hep2 - (ep ^ 4 * s * c * W) * hW2
      + (ep ^ 4 * s * c * W * E) * hsc
  rw [hB0]
  linear_combination F * hcross

/-- The Halley pair at the forward image of a surface point (height zero) has exactly
the direction `(c, s)` of the geodetic latitude. -/
theorem halley_forward_surface (E : ellipsoid) (s c p2 absz : ℝ)
    (hsc : s ^ 2 + c ^ 2 = 1)
    (hp2 : Real.sqrt p2 = (ellipsoid_traits.a E
      / Real.sqrt (1 - eccentricity_squared E * s ^ 2) + 0) * c)
    (hz : absz = ((1 - eccentricity_squared E) * (ellipsoid_traits.a E
        / Real.sqrt (1 - eccentricity_squared E * s ^ 2)) + 0) * s) :
    (halley E p2 absz).1 * c - (halley E p2 absz).2 * s = 0 := by
  have ha := traits_a_pos E
  have hE0 := (e2_pos E).le
  have hE1 := e2_le E
  have hs2 : s ^ 2 ≤ 1 := by linarith only [sq_nonneg c, hsc]
  have hrad : 0 < 1 - eccentricity_squared E * s ^ 2 := by
    have : eccentricity_squared E * s ^ 2 ≤ 7 / 1000 * 1 :=
      mul_le_mul hE1 hs2 (sq_nonneg s) (by norm_num)
    linarith only [this]
  generalize hWdef : Real.sqrt (1 - eccentricity_squared E * s ^ 2) = W at hp2 hz
  have hW : 0 < W := by rw [← hWdef]; exact Real.sqrt_pos.mpr hrad
  have hW2 : W ^ 2 = 1 - eccentricity_squared E * s ^ 2 := by
    rw [← hWdef]; exact Real.sq_sqrt hrad.le
  have hep : 0 ≤ Real.sqrt (1 - eccentricity_squared E) := Real.sqrt_nonneg _
  have hep2 := sqrt_ep2_sq E
  generalize hYdef : Real.sqrt ((Real.sqrt (1 - eccentricity_squared E) * ((1 + 0) * c)) ^ 2
    + ((Real.sqrt (1 - eccentricity_squared E) ^ 2 + 0) * s) ^ 2) = Y
  have hY : 0 ≤ Y := by rw [← hYdef]; exact Real.sqrt_nonneg _
  have hY2 : Y ^ 2 = (Real.sqrt (1 - eccentricity_squared E) * ((1 + 0) * c)) ^ 2
      + ((Real.sqrt (1 - eccentricity_squared E) ^ 2 + 0) * s) ^ 2 := by
    rw [← hYdef]; exact Real.sq_sqrt (by positivity)
  have hpn : Real.sqrt p2 / ellipsoid_traits.a E = (1 + 0) * c / W := by
    rw [hp2]; field_simp; ring
  have hs0' : absz / ellipsoid_traits.a E
      = (Real.sqrt (1 - eccentricity_squared E) ^ 2 + 0) * s / W := by
    rw [hz, hep2]; field_simp; ring
  have hex := halley_step_surface s c (Real.sqrt (1 - eccentricity_squared E))
    (eccentricity_squared E) W Y _ _ _ hsc hep hep2 hW.le hW2 hY hY2 rfl rfl rfl
  rw [halley_scaled E p2 absz s c 0 W Y _ _ _ hW hY hY2 hpn hs0' rfl rfl rfl]
  simp only
  have e : ∀ S1 C1 w : ℝ, S1 / w * c - C1 / w * s = (S1 * c - C1 * s) / w := by
    intro S1 C1 w; ring
  rw [e, hex, zero_div]

/-- The inverse transform in the general branch at a point whose distance from the axis
and whose `|z|` are those of the forward image of a surface point of latitude
`0 <= φ < pi/2`: the unsigned latitude is exactly `φ` and the height exactly `0`. -/
theorem cartesian2geodetic_unsigned_surface (E : ellipsoid) (x y z φ : ℝ) (hφ0 : 0 ≤ φ)
    (hφ1 : φ < Real.pi / 2)
    (hb : x * x + y * y > ellipsoid_traits.a E * ellipsoid_traits.a E * 1e-32)
    (hp : Real.sqrt (x * x + y * y) = (ellipsoid_traits.a E
      / Real.sqrt (1 - eccentricity_squared E * Real.sin φ ^ 2) + 0) * Real.cos φ)
    (hz : |z| = ((1 - eccentricity_squared E) * (ellipsoid_traits.a E
      / Real.sqrt (1 - eccentricity_squared E * Real.sin φ ^ 2)) + 0) * Real.sin φ) :
    (cartesian2geodetic E x y z).lat = some (if z < 0 then -φ else φ)
    ∧ (cartesian2geodetic E x y z).hgt = some 0 := by
  have hpi := Real.pi_pos
  have hs0 : 0 ≤ Real.sin φ :=
    Real.sin_nonneg_of_nonneg_of_le_pi hφ0 (by linarith only [hφ1, hpi])
  have hc0 : 0 < Real.cos φ := Real.cos_pos_of_mem_Ioo ⟨by linarith only [hφ0, hpi], hφ1⟩
  have hsc : Real.sin φ ^ 2 + Real.cos φ ^ 2 = 1 := Real.sin_sq_add_cos_sq φ
  have ha := traits_a_pos E
  have hE0 := (e2_pos E).le
  have hE1 := e2_le E
  have hs2 : Real.sin φ ^ 2 ≤ 1 := Real.sin_sq_le_one φ
  have hrad : 0 < 1 - eccentricity_squared E * Real.sin φ ^ 2 := by
    have : eccentricity_squared E * Real.sin φ ^ 2 ≤ 7 / 1000 * 1 :=
      mul_le_mul hE1 hs2 (sq_nonneg _) (by norm_num)
    linarith only [this]
  have hW : 0 < Real.sqrt (1 - eccentricity_squared E * Real.sin φ ^ 2) :=
    Real.sqrt_pos.mpr hrad
  have hW2 : Real.sqrt (1 - eccentricity_squared E * Real.sin φ ^ 2) ^ 2
      = 1 - eccentricity_squared E * Real.sin φ ^ 2 := Real.sq_sqrt hrad.le
  have h0 : (0e0 : ℝ) = 0 := by norm_num
  have h1 : (1.0e0 : ℝ) = 1 := by norm_num
  obtain ⟨hcp, hs1, _⟩ := halley_forward E (Real.sin φ) (Real.cos φ) 0 (x * x + y * y) |z|
    hs0 hc0 hsc (by norm_num) (by norm_num) hp hz
  have hex := halley_forward_surface E (Real.sin φ) (Real.cos φ) (x * x + y * y) |z|
    hsc hp hz
  rcases hr : halley E (x * x + y * y) |z| with ⟨s1, cp⟩
  rw [hr] at hcp hs1 hex
  simp only at hcp hs1 hex
  have herr : |s1 * Real.cos φ - cp * Real.sin φ|
      ≤ 0 * (cp * Real.cos φ + s1 * Real.sin φ) := by
    rw [hex, abs_zero, zero_mul]
  have hR2pos : 0 < s1 * s1 + cp * cp := by positivity
  have hR : 0 < Real.sqrt (s1 * s1 + cp * cp) := Real.sqrt_pos.mpr hR2pos
  constructor
  · have hφ : Real.arctan (Real.sin φ / Real.cos φ) = φ := by
      rw [← Real.tan_eq_sin_div_cos]
      exact Real.arctan_tan (by linarith only [hφ0, hpi]) hφ1
    have hclose := arctan_direction_close s1 cp (Real.sin φ) (Real.cos φ) 0
      hs1 hcp hs0 hc0 herr
    rw [hφ] at hclose
    have hm : Real.arctan (s1 / cp) = φ := by
      have := abs_nonneg (Real.arctan (s1 / cp) - φ)
      have h3 : |Real.arctan (s1 / cp) - φ| = 0 := le_antisymm hclose this
      linarith only [abs_eq_zero.mp h3]
    simp only [cartesian2geodetic, if_pos hb, hr, quot, if_neg hcp.ne', h0, Option.map_some',
      hm]
    by_cases hzn : z < 0
    · simp only [if_pos hzn, Option.map_some']
    · simp only [if_neg hzn]
  · have hV2 : Real.sqrt ((1 - eccentricity_squared E) * (s1 * s1) + cp * cp) ^ 2
        = (1 - eccentricity_squared E) * s1 ^ 2 + cp ^ 2 := by
      rw [Real.sq_sqrt]
      · ring
      · have : 0 ≤ 1 - eccentricity_squared E := by linarith only [hE1]
        positivity
    have hR2 : Real.sqrt (s1 * s1 + cp * cp) ^ 2 = s1 ^ 2 + cp ^ 2 := by
      rw [Real.sq_sqrt hR2pos.le]; ring
    have hgt := height_formula_error (ellipsoid_traits.a E) 0 (eccentricity_squared E)
      (Real.sin φ) (Real.cos φ) _ s1 cp _ _ 0 ha hE0 hE1 hs0 hc0 hsc hW hW2
      hs1 hcp hR hR2 (Real.sqrt_nonneg _) hV2 herr
    rw [← hp, ← hz] at hgt
    have hzero : (Real.sqrt (x * x + y * y) * cp + |z| * s1 - ellipsoid_traits.a E
        * Real.sqrt ((1 - eccentricity_squared E) * (s1 * s1) + cp * cp))
        / Real.sqrt (s1 * s1 + cp * cp) = 0 := by
      have h3 : |(Real.sqrt (x * x + y * y) * cp + |z| * s1 - ellipsoid_traits.a E
          * Real.sqrt ((1 - eccentricity_squared E) * (s1 * s1) + cp * cp))
          / Real.sqrt (s1 * s1 + cp * cp) - 0| ≤ 0 := by
        refine le_trans hgt ?_
        norm_num
      have h4 := abs_eq_zero.mp (le_antisymm h3 (abs_nonneg _))
      linarith only [h4]
    simp only [cartesian2geodetic, if_pos hb, hr, quot, if_neg hR.ne', h1, hzero]

/-- The forward image of a latitude in `(-pi/2, pi/2)` and a height of at
least `-1000`: its distance from the axis, its `|z|`, the sign of its `z`, and the
longitude that the inverse transform reads off it. -/
theorem forward_image_facts (E : ellipsoid) (lat lon h : ℝ)
    (hlat0 : -(Real.pi / 2) < lat) (hlat1 : lat < Real.pi / 2)
    (hh0 : -1000 ≤ h) :
    Real.sqrt ((geodetic2cartesian E lat lon h).x * (geodetic2cartesian E lat lon h).x
        + (geodetic2cartesian E lat lon h).y * (geodetic2cartesian E lat lon h).y)
      = (ellipsoid_traits.a E
        / Real.sqrt (1 - eccentricity_squared E * Real.sin |lat| ^ 2) + h) * Real.cos |lat|
    ∧ |(geodetic2cartesian E lat lon h).z| = ((1 - eccentricity_squared E)
        * (ellipsoid_traits.a E
          / Real.sqrt (1 - eccentricity_squared E * Real.sin |lat| ^ 2)) + h) * Real.sin |lat|
    ∧ ((geodetic2cartesian E lat lon h).z < 0 ↔ lat < 0)
    ∧ (-Real.pi < lon → lon ≤ Real.pi → ∀ z : ℝ,
        (cartesian2geodetic E (geodetic2cartesian E lat lon h).x
          (geodetic2cartesian E lat lon h).y z).lon = lon) := by
  have hpi := Real.pi_pos
  have ha := traits_a_pos E
  have hage := traits_a_ge E
  have hE0 := (e2_pos E).le
  have hE1 := e2_le E
  have h1 : (1e0 : ℝ) = 1 := by norm_num
  have hc0 : 0 < Real.cos lat := Real.cos_pos_of_mem_Ioo ⟨hlat0, hlat1⟩
  have hcosabs : Real.cos |lat| = Real.cos lat := Real.cos_abs lat
  have hs2 : Real.sin |lat| ^ 2 ≤ 1 := Real.sin_sq_le_one _
  have hrad : 0 < 1 - eccentricity_squared E * Real.sin |lat| ^ 2 := by
    have : eccentricity_squared E * Real.sin |lat| ^ 2 ≤ 7 / 1000 * 1 :=
      mul_le_mul hE1 hs2 (sq_nonneg _) (by norm_num)
    linarith only [this]
  have hW : 0 < Real.sqrt (1 - eccentricity_squared E * Real.sin |lat| ^ 2) :=
    Real.sqrt_pos.mpr hrad
  have hW1 : Real.sqrt (1 - eccentricity_squared E * Real.sin |lat| ^ 2) ≤ 1 := by
    apply le_of_sq_le_sq_nonneg (by norm_num)
    rw [Real.sq_sqrt hrad.le]
    have := mul_nonneg hE0 (sq_nonneg (Real.sin |lat|))
    linarith only [this]
  have hN := N_abs E lat
  have hNge : ellipsoid_traits.a E ≤ N E lat := by
    rw [hN, le_div_iff₀ hW]
    have := mul_le_mul_of_nonneg_left hW1 ha.le
    linarith only [this]
  have hr1 : 0 < N E lat + h := by linarith only [hNge, hage, hh0]
  have hr : 0 < (N E lat + h) * Real.cos lat := mul_pos hr1 hc0
  have hq : 0 < (1 - eccentricity_squared E) * N E lat + h := by
    have h3 : (1 - 7 / 1000) * ellipsoid_traits.a E ≤ (1 - eccentricity_squared E) * N E lat :=
      mul_le_mul (by linarith only [hE1]) hNge ha.le (by linarith only [hE1])
    linarith only [h3, hage, hh0]
  have hx : (geodetic2cartesian E lat lon h).x
      = (N E lat + h) * Real.cos lat * Real.cos lon := rfl
  have hy : (geodetic2cartesian E lat lon h).y
      = (N E lat + h) * Real.cos lat * Real.sin lon := rfl
  have hz : (geodetic2cartesian E lat lon h).z
      = ((1 - eccentricity_squared E) * N E lat + h) * Real.sin lat := by
    simp only [geodetic2cartesian, h1]
  generalize (geodetic2cartesian E lat lon h).x = x at hx ⊢
  generalize (geodetic2cartesian E lat lon h).y = y at hy ⊢
  generalize (geodetic2cartesian E lat lon h).z = z at hz ⊢
  have hp2 : x * x + y * y = ((N E lat + h) * Real.cos lat) ^ 2 := by
    rw [hx, hy]
    have := Real.sin_sq_add_cos_sq lon
    linear_combination ((N E lat + h) * Real.cos lat) ^ 2 * this
  have hsinabs : |Real.sin lat| = Real.sin |lat| := by
    rcases abs_cases lat with ⟨h, hl⟩ | ⟨h, hl⟩
    · rw [h]
      exact abs_of_nonneg (Real.sin_nonneg_of_nonneg_of_le_pi hl (by linarith only [hlat1, hpi]))
    · rw [h, Real.sin_neg]
      exact abs_of_nonpos (Real.sin_nonpos_of_nonnpos_of_neg_pi_le hl.le
        (by linarith only [hlat0, hpi]))
  refine ⟨?_, ?_, ?_, ?_⟩
  · rw [hp2, Real.sqrt_sq hr.le, hN, hcosabs]
  · rw [hz, abs_mul, abs_of_pos hq, hsinabs, hN]
  · constructor
    · intro hzn
      by_contra hge
      push_neg at hge
      have : 0 ≤ Real.sin lat :=
        Real.sin_nonneg_of_nonneg_of_le_pi hge (by linarith only [hlat1, hpi])
      have : 0 ≤ z := by rw [hz]; exact mul_nonneg hq.le this
      linarith only [this, hzn]
    · intro hneg
      have : Real.sin lat < 0 :=
        Real.sin_neg_of_neg_of_neg_pi_lt hneg (by linarith only [hlat0, hpi])
      rw [hz]
      exact mul_neg_of_pos_of_neg hq this
  · intro hlon0 hlon1 z2
    have hne : x * x + y * y ≠ 0 := by
      rw [hp2]; exact (pow_pos hr 2).ne'
    simp only [cartesian2geodetic, if_pos hne]
    rw [hx, hy]
    exact atan2_polar _ lon hr hlon0 hlon1

/-- C20: for each named ellipsoid, every `lon` in `(-pi, pi]` and every `lat` in
`(-pi/2, pi/2)` whose forward image `(x, y, z) = geodetic2cartesian(lat, lon, 0)` has
`x^2 + y^2 > a^2 * 1e-32`, `cartesian2geodetic(x, y, z)` returns exactly `(lat, lon, 0)`. -/
theorem roundtrip_exact_on_surface (E : ellipsoid) (lat lon : ℝ)
    (hlat0 : -(Real.pi / 2) < lat) (hlat1 : lat < Real.pi / 2)
    (hlon0 : -Real.pi < lon) (hlon1 : lon ≤ Real.pi)
    (hb : (geodetic2cartesian E lat lon 0).x * (geodetic2cartesian E lat lon 0).x
        + (geodetic2cartesian E lat lon 0).y * (geodetic2cartesian E lat lon 0).y
      > ellipsoid_traits.a E * ellipsoid_traits.a E * 1e-32) :
    (cartesian2geodetic E (geodetic2cartesian E lat lon 0).x
        (geodetic2cartesian E lat lon 0).y (geodetic2cartesian E lat lon 0).z).lat = some lat
    ∧ (cartesian2geodetic E (geodetic2cartesian E lat lon 0).x
        (geodetic2cartesian E lat lon 0).y (geodetic2cartesian E lat lon 0).z).lon = lon
    ∧ (cartesian2geodetic E (geodetic2cartesian E lat lon 0).x
        (geodetic2cartesian E lat lon 0).y (geodetic2cartesian E lat lon 0).z).hgt = some 0 := by
  obtain ⟨hp, hz, hsign, hlon⟩ := forward_image_facts E lat lon 0 hlat0 hlat1
    (by norm_num)
  have hφ0 : 0 ≤ |lat| := abs_nonneg lat
  have hφ1 : |lat| < Real.pi / 2 := abs_lt.mpr ⟨hlat0, hlat1⟩
  obtain ⟨hl, hh⟩ := cartesian2geodetic_unsigned_surface E _ _ _ |lat| hφ0 hφ1 hb hp hz
  refine ⟨?_, hlon hlon0 hlon1 _, hh⟩
  rw [hl]
  by_cases hzn : (geodetic2cartesian E lat lon 0).z < 0
  · rw [if_pos hzn, abs_of_neg (hsign.mp hzn), neg_neg]
  · rw [if_neg hzn, abs_of_nonneg (not_lt.mp (fun h => hzn (hsign.mpr h)))]

/-- Witness for C20: GRS80 at latitude `0` and longitude `0`. -/
theorem roundtrip_exact_on_surface_witness :
    (cartesian2geodetic ellipsoid.grs80 (geodetic2cartesian ellipsoid.grs80 0 0 0).x
        (geodetic2cartesian ellipsoid.grs80 0 0 0).y
        (geodetic2cartesian ellipsoid.grs80 0 0 0).z).lat = some 0
    ∧ (cartesian2geodetic ellipsoid.grs80 (geodetic2cartesian ellipsoid.grs80 0 0 0).x
        (geodetic2cartesian ellipsoid.grs80 0 0 0).y
        (geodetic2cartesian ellipsoid.grs80 0 0 0).z).lon = 0
    ∧ (cartesian2geodetic ellipsoid.grs80 (geodetic2cartesian ellipsoid.grs80 0 0 0).x
        (geodetic2cartesian ellipsoid.grs80 0 0 0).y
        (geodetic2cartesian ellipsoid.grs80 0 0 0).z).hgt = some 0 :=
  roundtrip_exact_on_surface ellipsoid.grs80 0 0
    (by have := Real.pi_pos; linarith) (by have := Real.pi_pos; linarith)
    (by have := Real.pi_pos; linarith) (by have := Real.pi_pos; linarith)
    (by
      simp only [geodetic2cartesian, N, core.N, Real.sin_zero, Real.cos_zero]
      norm_num [ellipsoid_traits.a])

/-! ## The equator, the longitude and the surface of the ellipsoid -/

/-- On the equatorial plane `s1` is zero and `cp`
is `ep * f0^2` with `f0 = (pn - e2) * c0^3`. -/
theorem halley_equator (E : ellipsoid) (p2 : ℝ) :
    halley E p2 0
      = (0, Real.sqrt (1 - eccentricity_squared E)
          * (((Real.sqrt p2 / ellipsoid_traits.a E - eccentricity_squared E)
              * (Real.sqrt (1 - eccentricity_squared E)
                * (Real.sqrt p2 / ellipsoid_traits.a E)) ^ 3) ^ 2)) := by
  have hc0 : 0 ≤ Real.sqrt (1 - eccentricity_squared E)
      * (Real.sqrt p2 / ellipsoid_traits.a E) :=
    mul_nonneg (Real.sqrt_nonneg _) (div_nonneg (Real.sqrt_nonneg _) (traits_a_pos E).le)
  have ha0 : Real.sqrt (Real.sqrt (1 - eccentricity_squared E)
        * (Real.sqrt p2 / ellipsoid_traits.a E)
        * (Real.sqrt (1 - eccentricity_squared E) * (Real.sqrt p2 / ellipsoid_traits.a E))
        + (0 : ℝ) * 0)
      = Real.sqrt (1 - eccentricity_squared E) * (Real.sqrt p2 / ellipsoid_traits.a E) := by
    rw [mul_zero, add_zero]
    exact Real.sqrt_mul_self hc0
  rw [halley_eq E p2 0 _ 0 _ _ _ _ rfl (zero_div _) ha0 rfl rfl rfl]
  ext
  · simp
  · simp only
    ring

/-- The inverse transform on the equatorial plane: off the circle of radius `a * e2` the
latitude is zero and the height is the distance from the axis minus `a`. -/
theorem cartesian2geodetic_equator (E : ellipsoid) (x y : ℝ)
    (hg : x * x + y * y > ellipsoid_traits.a E * ellipsoid_traits.a E * 1e-32)
    (hne : Real.sqrt (x * x + y * y) ≠ ellipsoid_traits.a E * eccentricity_squared E) :
    (cartesian2geodetic E x y 0).lat = some 0
    ∧ (cartesian2geodetic E x y 0).hgt
      = some (Real.sqrt (x * x + y * y) - ellipsoid_traits.a E) := by
  have ha := traits_a_pos E
  have hE1 := e2_le E
  have hep : 0 < Real.sqrt (1 - eccentricity_squared E) :=
    Real.sqrt_pos.mpr (by linarith only [hE1])
  have hp2 : 0 < x * x + y * y := by
    have : 0 < ellipsoid_traits.a E * ellipsoid_traits.a E * 1e-32 := by positivity
    linarith only [this, hg]
  have hpn : 0 < Real.sqrt (x * x + y * y) / ellipsoid_traits.a E :=
    div_pos (Real.sqrt_pos.mpr hp2) ha
  have hd : Real.sqrt (x * x + y * y) / ellipsoid_traits.a E - eccentricity_squared E ≠ 0 := by
    intro h
    apply hne
    have h2 : Real.sqrt (x * x + y * y) / ellipsoid_traits.a E = eccentricity_squared E := by
      linarith only [h]
    rw [← h2]
    field_simp
  have hh := halley_equator E (x * x + y * y)
  obtain ⟨cp, hcp⟩ : ∃ cp : ℝ, cp = Real.sqrt (1 - eccentricity_squared E)
      * (((Real.sqrt (x * x + y * y) / ellipsoid_traits.a E - eccentricity_squared E)
          * (Real.sqrt (1 - eccentricity_squared E)
            * (Real.sqrt (x * x + y * y) / ellipsoid_traits.a E)) ^ 3) ^ 2) := ⟨_, rfl⟩
  rw [← hcp] at hh
  have hcp0 : 0 < cp := by
    rw [hcp]
    have h3 : (Real.sqrt (x * x + y * y) / ellipsoid_traits.a E - eccentricity_squared E)
        * (Real.sqrt (1 - eccentricity_squared E)
          * (Real.sqrt (x * x + y * y) / ellipsoid_traits.a E)) ^ 3 ≠ 0 :=
      mul_ne_zero hd (pow_pos (mul_pos hep hpn) 3).ne'
    exact mul_pos hep (lt_of_le_of_ne (sq_nonneg _) (Ne.symm (pow_ne_zero 2 h3)))
  have h0 : (0e0 : ℝ) = 0 := by norm_num
  have hR : Real.sqrt ((0 : ℝ) * 0 + cp * cp) = cp := by
    rw [mul_zero, zero_add]
    exact Real.sqrt_mul_self hcp0.le
  have hV : Real.sqrt ((1.0e0 - eccentricity_squared E) * ((0 : ℝ) * 0) + cp * cp) = cp := by
    rw [mul_zero, mul_zero, zero_add]
    exact Real.sqrt_mul_self hcp0.le
  constructor
  · simp only [cartesian2geodetic, if_pos hg, abs_zero, hh, quot, if_neg hcp0.ne', h0,
      lt_irrefl, if_false, Option.map_some', zero_div, Real.arctan_zero]
  · simp only [cartesian2geodetic, if_pos hg, abs_zero, hh, quot, hR, hV, if_neg hcp0.ne']
    congr 1
    field_simp
    ring

/-- C21: for each named ellipsoid, every `lon` in `(-pi, pi]` and every height
`h >= -1000`, `cartesian2geodetic` applied to `geodetic2cartesian(0, lon, h)` returns
exactly `(0, lon, h)`, and `h` is `sqrt(x^2 + y^2) - a`. -/
theorem roundtrip_exact_on_equator (E : ellipsoid) (lon h : ℝ)
    (hlon0 : -Real.pi < lon) (hlon1 : lon ≤ Real.pi) (hh : -1000 ≤ h) :
    (cartesian2geodetic E (geodetic2cartesian E 0 lon h).x
        (geodetic2cartesian E 0 lon h).y (geodetic2cartesian E 0 lon h).z).lat = some 0
    ∧ (cartesian2geodetic E (geodetic2cartesian E 0 lon h).x
        (geodetic2cartesian E 0 lon h).y (geodetic2cartesian E 0 lon h).z).lon = lon
    ∧ (cartesian2geodetic E (geodetic2cartesian E 0 lon h).x
        (geodetic2cartesian E 0 lon h).y (geodetic2cartesian E 0 lon h).z).hgt = some h
    ∧ h = Real.sqrt ((geodetic2cartesian E 0 lon h).x * (geodetic2cartesian E 0 lon h).x
          + (geodetic2cartesian E 0 lon h).y * (geodetic2cartesian E 0 lon h).y)
        - ellipsoid_traits.a E := by
  have hpi := Real.pi_pos
  have ha := traits_a_pos E
  have hage := traits_a_ge E
  have hE1 := e2_le E
  obtain ⟨hp, hz, -, hl⟩ := forward_image_facts E 0 lon h (by linarith only [hpi])
    (by linarith only [hpi]) hh
  rw [abs_zero, Real.sin_zero, Real.cos_zero, mul_one] at hp
  rw [abs_zero, Real.sin_zero, mul_zero, abs_eq_zero] at hz
  have hW : Real.sqrt (1 - eccentricity_squared E * (0 : ℝ) ^ 2) = 1 := by
    norm_num
  rw [hW, div_one] at hp
  have hpos : 0 < ellipsoid_traits.a E + h := by linarith only [hage, hh]
  have hp2 : (geodetic2cartesian E 0 lon h).x * (geodetic2cartesian E 0 lon h).x
      + (geodetic2cartesian E 0 lon h).y * (geodetic2cartesian E 0 lon h).y
      = (ellipsoid_traits.a E + h) ^ 2 := by
    have h1 := Real.sq_sqrt (le_of_lt (Real.sqrt_pos.mp (by rw [hp]; exact hpos)))
    rw [hp] at h1
    exact h1.symm
  have hg : (geodetic2cartesian E 0 lon h).x * (geodetic2cartesian E 0 lon h).x
      + (geodetic2cartesian E 0 lon h).y * (geodetic2cartesian E 0 lon h).y
      > ellipsoid_traits.a E * ellipsoid_traits.a E * 1e-32 := by
    rw [hp2]
    have h1 : ellipsoid_traits.a E - 1000 ≤ ellipsoid_traits.a E + h := by linarith only [hh]
    have h2 : (ellipsoid_traits.a E - 1000) ^ 2 ≤ (ellipsoid_traits.a E + h) ^ 2 :=
      pow_le_pow_left₀ (by linarith only [hage]) h1 2
    have h3 : ellipsoid_traits.a E * ellipsoid_traits.a E * 1e-32
        < (ellipsoid_traits.a E - 1000) ^ 2 := by
      nlinarith only [hage]
    linarith only [h2, h3]
  have hne : Real.sqrt ((geodetic2cartesian E 0 lon h).x * (geodetic2cartesian E 0 lon h).x
      + (geodetic2cartesian E 0 lon h).y * (geodetic2cartesian E 0 lon h).y)
      ≠ ellipsoid_traits.a E * eccentricity_squared E := by
    rw [hp]
    have h1 : ellipsoid_traits.a E * eccentricity_squared E
        ≤ ellipsoid_traits.a E * (7 / 1000) := mul_le_mul_of_nonneg_left hE1 ha.le
    intro h2
    linarith only [h1, h2, hh, hage]
  have hlon := hl hlon0 hlon1 (geodetic2cartesian E 0 lon h).z
  obtain ⟨hlat, hhgt⟩ := cartesian2geodetic_equator E _ _ hg hne
  refine ⟨?_, hlon, ?_, ?_⟩
  · rw [hz]; exact hlat
  · rw [hz, hhgt, hp]; congr 1; ring
  · rw [hp]; ring

/-- Witness for C21: WGS84 at longitude `1` and height `250`. -/
theorem roundtrip_exact_on_equator_witness :
    (cartesian2geodetic ellipsoid.wgs84 (geodetic2cartesian ellipsoid.wgs84 0 1 250).x
        (geodetic2cartesian ellipsoid.wgs84 0 1 250).y
        (geodetic2cartesian ellipsoid.wgs84 0 1 250).z).lat = some 0
    ∧ (cartesian2geodetic ellipsoid.wgs84 (geodetic2cartesian ellipsoid.wgs84 0 1 250).x
        (geodetic2cartesian ellipsoid.wgs84 0 1 250).y
        (geodetic2cartesian ellipsoid.wgs84 0 1 250).z).lon = 1
    ∧ (cartesian2geodetic ellipsoid.wgs84 (geodetic2cartesian ellipsoid.wgs84 0 1 250).x
        (geodetic2cartesian ellipsoid.wgs84 0 1 250).y
        (geodetic2cartesian ellipsoid.wgs84 0 1 250).z).hgt = some 250
    ∧ (250 : ℝ) = Real.sqrt ((geodetic2cartesian ellipsoid.wgs84 0 1 250).x
            * (geodetic2cartesian ellipsoid.wgs84 0 1 250).x
          + (geodetic2cartesian ellipsoid.wgs84 0 1 250).y
            * (geodetic2cartesian ellipsoid.wgs84 0 1 250).y)
        - ellipsoid_traits.a ellipsoid.wgs84 :=
  roundtrip_exact_on_equator ellipsoid.wgs84 1 250
    (by have := Real.pi_pos; linarith) (by have := Real.pi_gt_three; linarith) (by norm_num)

/-- C22: for each named ellipsoid, every `lat` in `(-pi/2, pi/2)`, every `lon` in
`(-pi, pi]` and every `h` with `N(lat) + h > 0`, the longitude returned by
`cartesian2geodetic` applied to `geodetic2cartesian(lat, lon, h)` is exactly `lon`. -/
theorem roundtrip_lon_exact (E : ellipsoid) (lat lon h : ℝ)
    (hlat0 : -(Real.pi / 2) < lat) (hlat1 : lat < Real.pi / 2)
    (hlon0 : -Real.pi < lon) (hlon1 : lon ≤ Real.pi) (hN : 0 < N E lat + h) :
    (cartesian2geodetic E (geodetic2cartesian E lat lon h).x
        (geodetic2cartesian E lat lon h).y (geodetic2cartesian E lat lon h).z).lon = lon := by
  have hc0 : 0 < Real.cos lat := Real.cos_pos_of_mem_Ioo ⟨hlat0, hlat1⟩
  have hr : 0 < (N E lat + h) * Real.cos lat := mul_pos hN hc0
  have hx : (geodetic2cartesian E lat lon h).x
      = (N E lat + h) * Real.cos lat * Real.cos lon := rfl
  have hy : (geodetic2cartesian E lat lon h).y
      = (N E lat + h) * Real.cos lat * Real.sin lon := rfl
  have hp2 : (geodetic2cartesian E lat lon h).x * (geodetic2cartesian E lat lon h).x
      + (geodetic2cartesian E lat lon h).y * (geodetic2cartesian E lat lon h).y
      = ((N E lat + h) * Real.cos lat) ^ 2 := by
    rw [hx, hy]
    have := Real.sin_sq_add_cos_sq lon
    linear_combination ((N E lat + h) * Real.cos lat) ^ 2 * this
  have hne : (geodetic2cartesian E lat lon h).x * (geodetic2cartesian E lat lon h).x
      + (geodetic2cartesian E lat lon h).y * (geodetic2cartesian E lat lon h).y ≠ 0 := by
    rw [hp2]; exact (pow_pos hr 2).ne'
  simp only [cartesian2geodetic, if_pos hne]
  rw [hx, hy]
  exact atan2_polar _ lon hr hlon0 hlon1

/-- Witness for C22: PZ90 at latitude `1`, longitude `-2` and height `500`. -/
theorem roundtrip_lon_exact_witness :
    (cartesian2geodetic ellipsoid.pz90 (geodetic2cartesian ellipsoid.pz90 1 (-2) 500).x
        (geodetic2cartesian ellipsoid.pz90 1 (-2) 500).y
        (geodetic2cartesian ellipsoid.pz90 1 (-2) 500).z).lon = -2 :=
  roundtrip_lon_exact ellipsoid.pz90 1 (-2) 500
    (by have := Real.pi_gt_three; linarith) (by have := Real.pi_gt_three; linarith)
    (by have := Real.pi_gt_three; linarith) (by have := Real.pi_gt_three; linarith)
    (by have := N_pos ellipsoid.pz90 1; linarith)

/-- C23: for each named ellipsoid with semi-major axis `a` and semi-minor axis `b`, and
every real `lat` and `lon`, the point `(x, y, z) = geodetic2cartesian(lat, lon, 0)`
satisfies `(x^2 + y^2)/a^2 + z^2/b^2 = 1`. -/
theorem geodetic2cartesian_on_ellipsoid (E : ellipsoid) (lat lon : ℝ) :
    ((geodetic2cartesian E lat lon 0).x ^ 2 + (geodetic2cartesian E lat lon 0).y ^ 2)
        / ellipsoid_traits.a E ^ 2
      + (geodetic2cartesian E lat lon 0).z ^ 2 / semi_minor E ^ 2 = 1 := by
  have ha := traits_a_pos E
  have hf0 := traits_f_pos E
  have hf1 := traits_f_lt E
  have h1 : (1e0 : ℝ) = 1 := by norm_num
  have hrad := core_radicand_pos (ellipsoid_traits.f E) lat hf0.le (by linarith only [hf1])
  have he : 1 - eccentricity_squared E = (1 - ellipsoid_traits.f E) ^ 2 :=
    core_ep2_eq (ellipsoid_traits.f E)
  have hfne : (1 : ℝ) - ellipsoid_traits.f E ≠ 0 := by
    intro h; linarith only [h, hf1]
  obtain ⟨W, hW⟩ : ∃ W : ℝ, W = Real.sqrt (1 - core.eccentricity_squared (ellipsoid_traits.f E)
      * Real.sin lat * Real.sin lat) := ⟨_, rfl⟩
  have hW0 : 0 < W := by rw [hW]; exact Real.sqrt_pos.mpr hrad
  have hW2 : W ^ 2 = 1 - eccentricity_squared E * Real.sin lat * Real.sin lat := by
    rw [hW, Real.sq_sqrt hrad.le]; rfl
  have hsc := Real.sin_sq_add_cos_sq lat
  have hsl := Real.sin_sq_add_cos_sq lon
  simp only [geodetic2cartesian, N, core.N, semi_minor, core.semi_minor, h1, add_zero, ← hW]
  rw [he]
  have hee : eccentricity_squared E = 1 - (1 - ellipsoid_traits.f E) ^ 2 := by
    linarith only [he]
  rw [hee] at hW2
  have key : ((ellipsoid_traits.a E / W * Real.cos lat * Real.cos lon) ^ 2
        + (ellipsoid_traits.a E / W * Real.cos lat * Real.sin lon) ^ 2)
          / ellipsoid_traits.a E ^ 2
        + ((1 - ellipsoid_traits.f E) ^ 2 * (ellipsoid_traits.a E / W) * Real.sin lat) ^ 2
          / (ellipsoid_traits.a E * (1 - ellipsoid_traits.f E)) ^ 2
      = (Real.cos lat ^ 2 + (1 - ellipsoid_traits.f E) ^ 2 * Real.sin lat ^ 2) / W ^ 2 := by
    have hxy : (ellipsoid_traits.a E / W * Real.cos lat * Real.cos lon) ^ 2
        + (ellipsoid_traits.a E / W * Real.cos lat * Real.sin lon) ^ 2
        = (ellipsoid_traits.a E / W * Real.cos lat) ^ 2 := by
      linear_combination (ellipsoid_traits.a E / W * Real.cos lat) ^ 2 * hsl
    rw [hxy]
    field_simp
    ring
  rw [key, div_eq_one_iff_eq (pow_pos hW0 2).ne']
  linear_combination hsc - hW2

/-- C24: for every `a > 0` and `0 <= f < 1`, `N(a, f, pi/2)`, `M(a, f, pi/2)` and
`polar_radius_of_curvature(a, f)` are the same number, `a^2 / semi_minor(a, f)`. -/
theorem polar_radius_is_pole_curvature (a f : ℝ) (ha : 0 < a) (_hf0 : 0 ≤ f) (hf1 : f < 1) :
    core.N a f (Real.pi / 2) = core.M a f (Real.pi / 2)
    ∧ core.M a f (Real.pi / 2) = core.polar_radius_of_curvature a f
    ∧ core.polar_radius_of_curvature a f = a ^ 2 / core.semi_minor a f := by
  have h1 : (1e0 : ℝ) = 1 := by norm_num
  have he := core_ep2_eq f
  have hfp : 0 < 1 - f := by linarith only [hf1]
  have hsq : Real.sqrt (1 - core.eccentricity_squared f) = 1 - f := by
    rw [he]; exact Real.sqrt_sq hfp.le
  have hne : 1 - core.eccentricity_squared f ≠ 0 := by
    rw [he]; exact (pow_pos hfp 2).ne'
  refine ⟨?_, ?_, ?_⟩
  · simp only [core.N, core.M, core.detail.N, h1, Real.sin_pi_div_two, mul_one]
    rw [div_self hne, mul_one]
  · simp only [core.M, core.detail.N, core.polar_radius_of_curvature, core.semi_minor, h1,
      Real.sin_pi_div_two, mul_one]
    rw [div_self hne, mul_one, hsq]
    field_simp
    ring
  · simp only [core.polar_radius_of_curvature, sq]

/-- Witness for C24: `a = 1`, `f = 1/2`. -/
theorem polar_radius_is_pole_curvature_witness :
    core.N 1 (1 / 2) (Real.pi / 2) = core.M 1 (1 / 2) (Real.pi / 2)
    ∧ core.M 1 (1 / 2) (Real.pi / 2) = core.polar_radius_of_curvature 1 (1 / 2)
    ∧ core.polar_radius_of_curvature 1 (1 / 2) = 1 ^ 2 / core.semi_minor 1 (1 / 2) :=
  polar_radius_is_pole_curvature 1 (1 / 2) (by norm_num) (by norm_num) (by norm_num)

/-- C25 (the documented range `[0, pi]` of the elevation, evaluated on the code): for the
ENU vector `(1, 0, -1)` both overloads of `top2dae` return the elevation `-pi/4`, which
does not lie in `[0, pi]`. -/
theorem top2dae_elevation_below_horizon :
    (top2dae ⟨1, 0, -1⟩).elevation = -(Real.pi / 4)
    ∧ (top2dae_partials ⟨1, 0, -1⟩).elevation = -(Real.pi / 4)
    ∧ ¬ (0 ≤ (top2dae ⟨1, 0, -1⟩).elevation ∧ (top2dae ⟨1, 0, -1⟩).elevation ≤ Real.pi) := by
  have hv : Real.arctan (-1 / Real.sqrt (1 * 1 + 0 * 0)) = -(Real.pi / 4) := by
    have : (-1 : ℝ) / Real.sqrt (1 * 1 + 0 * 0) = -1 := by norm_num
    rw [this, Real.arctan_neg, Real.arctan_one]
  have h1 : (top2dae ⟨1, 0, -1⟩).elevation = -(Real.pi / 4) := hv
  have h2 : (top2dae_partials ⟨1, 0, -1⟩).elevation = -(Real.pi / 4) := hv
  refine ⟨h1, h2, ?_⟩
  rw [h1]
  intro h
  have := Real.pi_pos
  linarith only [h.1, this]

/-! ## The singular circle of the general branch -/

/-- Positivity of the divisor core `f0^2 - b0*c0` of the general branch when the point is
off the equatorial plane and the radius `a0` of the starting point is below `ep`: the
Halley term `b0` is then negative. -/
theorem halley_divisor_core_pos_inner (ep e2 pn s0 a0 : ℝ) (hep : 0 < ep) (he0 : 0 < e2)
    (hpn : 0 < pn) (hs0 : 0 < s0) (hlt : a0 < ep) :
    0 < (pn * (a0 ^ 2 * a0) - e2 * (ep * pn * (ep * pn) * (ep * pn)))
        * (pn * (a0 ^ 2 * a0) - e2 * (ep * pn * (ep * pn) * (ep * pn)))
      - e2 * e2 * (3 / 2) * (s0 * s0) * (ep * pn * (ep * pn)) * pn * (a0 - ep) * (ep * pn) := by
  have hc0 : 0 < ep * pn := mul_pos hep hpn
  have hM : 0 < e2 * e2 * (3 / 2) * (s0 * s0) * (ep * pn * (ep * pn)) * pn * (ep * pn) := by
    positivity
  have hre : e2 * e2 * (3 / 2) * (s0 * s0) * (ep * pn * (ep * pn)) * pn * (a0 - ep) * (ep * pn)
      = e2 * e2 * (3 / 2) * (s0 * s0) * (ep * pn * (ep * pn)) * pn * (ep * pn) * (a0 - ep) := by
    ring
  rw [hre]
  have hneg : e2 * e2 * (3 / 2) * (s0 * s0) * (ep * pn * (ep * pn)) * pn * (ep * pn)
      * (a0 - ep) < 0 := mul_neg_of_pos_of_neg hM (by linarith only [hlt])
  have hsq := mul_self_nonneg
    (pn * (a0 ^ 2 * a0) - e2 * (ep * pn * (ep * pn) * (ep * pn)))
  linarith only [hneg, hsq]

/-- Off the equatorial plane the divisor `cp` of the general branch is positive. -/
theorem halley_cp_pos_off_plane (E : ellipsoid) (x y z : ℝ)
    (hg : x * x + y * y > ellipsoid_traits.a E * ellipsoid_traits.a E * 1e-32)
    (hz : z ≠ 0) :
    0 < (halley E (x * x + y * y) |z|).2 := by
  have ha := traits_a_pos E
  have hE0 := e2_pos E
  have hE1 := e2_le E
  have hep2 := sqrt_ep2_sq E
  have hep : 0 < Real.sqrt (1 - eccentricity_squared E) :=
    Real.sqrt_pos.mpr (by linarith only [hE1])
  have hp2 : 0 < x * x + y * y := by
    have : 0 < ellipsoid_traits.a E * ellipsoid_traits.a E * 1e-32 := by positivity
    linarith only [this, hg]
  have hpn : 0 < Real.sqrt (x * x + y * y) / ellipsoid_traits.a E :=
    div_pos (Real.sqrt_pos.mpr hp2) ha
  have hs0 : 0 < |z| / ellipsoid_traits.a E := div_pos (abs_pos.mpr hz) ha
  obtain ⟨a0, ha0⟩ : ∃ a0 : ℝ, Real.sqrt (Real.sqrt (1 - eccentricity_squared E)
      * (Real.sqrt (x * x + y * y) / ellipsoid_traits.a E)
      * (Real.sqrt (1 - eccentricity_squared E)
        * (Real.sqrt (x * x + y * y) / ellipsoid_traits.a E))
      + |z| / ellipsoid_traits.a E * (|z| / ellipsoid_traits.a E)) = a0 := ⟨_, rfl⟩
  have ha02 : a0 ^ 2 = (Real.sqrt (1 - eccentricity_squared E)
      * (Real.sqrt (x * x + y * y) / ellipsoid_traits.a E)) ^ 2
      + (|z| / ellipsoid_traits.a E) ^ 2 := by
    rw [← ha0, Real.sq_sqrt (add_nonneg (mul_self_nonneg _) (mul_self_nonneg _))]
    ring
  rw [halley_eq E (x * x + y * y) |z| _ _ a0 _ _ _ rfl rfl ha0 rfl rfl rfl]
  apply mul_pos hep
  rcases lt_or_le a0 (Real.sqrt (1 - eccentricity_squared E)) with hlt | hge
  · exact halley_divisor_core_pos_inner _ _ _ _ a0 hep hE0 hpn hs0 hlt
  · have hout : eccentricity_squared E * Real.sqrt (1 - eccentricity_squared E) < a0 := by
      have h1 : eccentricity_squared E * Real.sqrt (1 - eccentricity_squared E)
          ≤ 7 / 1000 * Real.sqrt (1 - eccentricity_squared E) :=
        mul_le_mul_of_nonneg_right hE1 hep.le
      linarith only [h1, hge, hep]
    exact halley_divisor_core_pos _ _ _ _ a0 hep hep2 hE0.le hE1 hpn ha02 hout

/-- On the equatorial plane, off the circle of radius `a * e2`, the divisor `cp` of the
general branch is positive. -/
theorem halley_cp_pos_on_plane (E : ellipsoid) (p2 : ℝ) (hp2 : 0 < p2)
    (hne : Real.sqrt p2 ≠ ellipsoid_traits.a E * eccentricity_squared E) :
    0 < (halley E p2 0).2 := by
  have ha := traits_a_pos E
  have hE1 := e2_le E
  have hep : 0 < Real.sqrt (1 - eccentricity_squared E) :=
    Real.sqrt_pos.mpr (by linarith only [hE1])
  have hpn : 0 < Real.sqrt p2 / ellipsoid_traits.a E :=
    div_pos (Real.sqrt_pos.mpr hp2) ha
  have hd : Real.sqrt p2 / ellipsoid_traits.a E - eccentricity_squared E ≠ 0 := by
    intro h
    apply hne
    have h2 : Real.sqrt p2 / ellipsoid_traits.a E = eccentricity_squared E := by
      linarith only [h]
    rw [← h2]
    field_simp
  rw [halley_equator E p2]
  have h3 : (Real.sqrt p2 / ellipsoid_traits.a E - eccentricity_squared E)
      * (Real.sqrt (1 - eccentricity_squared E)
        * (Real.sqrt p2 / ellipsoid_traits.a E)) ^ 3 ≠ 0 :=
    mul_ne_zero hd (pow_pos (mul_pos hep hpn) 3).ne'
  exact mul_pos hep (lt_of_le_of_ne (sq_nonneg _) (Ne.symm (pow_ne_zero 2 h3)))

/-- In the general branch the divisor `cp` is positive at every point that is not on the
circle `z = 0`, `x^2 + y^2 = (a*e2)^2`. -/
theorem halley_cp_pos_off_circle (E : ellipsoid) (x y z : ℝ)
    (hg : x * x + y * y > ellipsoid_traits.a E * ellipsoid_traits.a E * 1e-32)
    (hoff : ¬ (z = 0
      ∧ x ^ 2 + y ^ 2 = (ellipsoid_traits.a E * eccentricity_squared E) ^ 2)) :
    0 < (halley E (x * x + y * y) |z|).2 := by
  by_cases hz : z = 0
  · have hp2 : 0 < x * x + y * y := by
      have : 0 < ellipsoid_traits.a E * ellipsoid_traits.a E * 1e-32 := by
        have := traits_a_pos E
        positivity
      linarith only [this, hg]
    have hne : Real.sqrt (x * x + y * y)
        ≠ ellipsoid_traits.a E * eccentricity_squared E := by
      intro h
      apply hoff
      refine ⟨hz, ?_⟩
      rw [← h, Real.sq_sqrt hp2.le]
      ring
    rw [hz, abs_zero]
    exact halley_cp_pos_on_plane E _ hp2 hne
  · exact halley_cp_pos_off_plane E x y z hg hz

/-- On the circle `z = 0`, `x^2 + y^2 = (a*e2)^2` of every catalogued ellipsoid the general
branch runs and both `s1` and `cp` are zero. -/
theorem halley_circle_zero (E : ellipsoid) (x y : ℝ)
    (hc : x ^ 2 + y ^ 2 = (ellipsoid_traits.a E * eccentricity_squared E) ^ 2) :
    x * x + y * y > ellipsoid_traits.a E * ellipsoid_traits.a E * 1e-32
    ∧ halley E (x * x + y * y) |0| = (0, 0) := by
  have ha := traits_a_pos E
  have hE0 := e2_pos E
  have hae : 0 < ellipsoid_traits.a E * eccentricity_squared E := mul_pos ha hE0
  have hxy : x * x + y * y = (ellipsoid_traits.a E * eccentricity_squared E) ^ 2 := by
    rw [← hc]; ring
  have hp : Real.sqrt (x * x + y * y) = ellipsoid_traits.a E * eccentricity_squared E := by
    rw [hxy]; exact Real.sqrt_sq hae.le
  refine ⟨?_, ?_⟩
  · rw [hxy]
    have h1 : (1 / 1000 : ℝ) ≤ eccentricity_squared E := by
      cases E <;>
        norm_num [eccentricity_squared, core.eccentricity_squared, ellipsoid_traits.f]
    have h2 : ellipsoid_traits.a E * (1 / 1000) ≤ ellipsoid_traits.a E * eccentricity_squared E :=
      mul_le_mul_of_nonneg_left h1 ha.le
    have h3 : (ellipsoid_traits.a E * (1 / 1000)) ^ 2
        ≤ (ellipsoid_traits.a E * eccentricity_squared E) ^ 2 :=
      pow_le_pow_left₀ (by positivity) h2 2
    have h4 : ellipsoid_traits.a E * ellipsoid_traits.a E * 1e-32
        < (ellipsoid_traits.a E * (1 / 1000)) ^ 2 := by
      have := mul_pos ha ha
      nlinarith only [this]
    linarith only [h3, h4]
  · rw [abs_zero]
    exact halley_equator_sing E _ hp

/-- C17 (amended): for each named ellipsoid and every `(x, y, z)` with
`x^2 + y^2 > a^2 * 1e-32` that is not on the circle `z = 0`, `x^2 + y^2 = (a*e2)^2`, both
divisors of the general branch are nonzero over the reals: `cp` is not zero and
`s1^2 + cp^2 > 0`, so a latitude and a height are returned. -/
theorem guard_keeps_divisors_nonzero_off_circle (E : ellipsoid) (x y z : ℝ)
    (hg : x * x + y * y > ellipsoid_traits.a E * ellipsoid_traits.a E * 1e-32)
    (hoff : ¬ (z = 0
      ∧ x ^ 2 + y ^ 2 = (ellipsoid_traits.a E * eccentricity_squared E) ^ 2)) :
    (halley E (x * x + y * y) |z|).2 ≠ 0
    ∧ 0 < (halley E (x * x + y * y) |z|).1 ^ 2 + (halley E (x * x + y * y) |z|).2 ^ 2
    ∧ ∃ lat h : ℝ, (cartesian2geodetic E x y z).lat = some lat
        ∧ (cartesian2geodetic E x y z).hgt = some h := by
  have hcp := halley_cp_pos_off_circle E x y z hg hoff
  have hsum : 0 < (halley E (x * x + y * y) |z|).1 ^ 2
      + (halley E (x * x + y * y) |z|).2 ^ 2 := by positivity
  have hR : Real.sqrt ((halley E (x * x + y * y) |z|).1 * (halley E (x * x + y * y) |z|).1
      + (halley E (x * x + y * y) |z|).2 * (halley E (x * x + y * y) |z|).2) ≠ 0 := by
    apply (Real.sqrt_pos.mpr _).ne'
    have e : (halley E (x * x + y * y) |z|).1 * (halley E (x * x + y * y) |z|).1
        + (halley E (x * x + y * y) |z|).2 * (halley E (x * x + y * y) |z|).2
        = (halley E (x * x + y * y) |z|).1 ^ 2 + (halley E (x * x + y * y) |z|).2 ^ 2 := by
      ring
    rw [e]
    exact hsum
  have h0 : (0e0 : ℝ) = 0 := by norm_num
  have hlat : ∃ lat : ℝ, (cartesian2geodetic E x y z).lat = some lat := by
    simp only [cartesian2geodetic, if_pos hg, quot, if_neg hcp.ne', h0, Option.map_some']
    by_cases hz : z < 0
    · simp only [if_pos hz, Option.map_some']
      exact ⟨_, rfl⟩
    · simp only [if_neg hz]
      exact ⟨_, rfl⟩
  have hhgt : ∃ h : ℝ, (cartesian2geodetic E x y z).hgt = some h := by
    simp only [cartesian2geodetic, if_pos hg, quot, if_neg hR]
    exact ⟨_, rfl⟩
  obtain ⟨lat, hlat⟩ := hlat
  obtain ⟨h, hhgt⟩ := hhgt
  exact ⟨hcp.ne', hsum, lat, h, hlat, hhgt⟩

/-- Witness for C17 (amended): GRS80 and the point `(1000, 0, 0)`. -/
theorem guard_keeps_divisors_nonzero_off_circle_witness :
    (halley ellipsoid.grs80 (1000 * 1000 + 0 * 0) |0|).2 ≠ 0
    ∧ 0 < (halley ellipsoid.grs80 (1000 * 1000 + 0 * 0) |0|).1 ^ 2
        + (halley ellipsoid.grs80 (1000 * 1000 + 0 * 0) |0|).2 ^ 2
    ∧ ∃ lat h : ℝ, (cartesian2geodetic ellipsoid.grs80 1000 0 0).lat = some lat
        ∧ (cartesian2geodetic ellipsoid.grs80 1000 0 0).hgt = some h :=
  guard_keeps_divisors_nonzero_off_circle ellipsoid.grs80 1000 0 0
    (by norm_num [ellipsoid_traits.a])
    (by norm_num [ellipsoid_traits.a, eccentricity_squared, core.eccentricity_squared,
      ellipsoid_traits.f])

/-- C5 (amended): for each named ellipsoid and every `(x, y, z)` the returned longitude
lies in `(-pi, pi]`; and for every `(x, y, z)` that is not on the circle `z = 0`,
`x^2 + y^2 = (a*e2)^2` a latitude is returned and lies in `[-pi/2, pi/2]`. -/
theorem cartesian2geodetic_range_off_circle (E : ellipsoid) (x y z : ℝ) :
    (-Real.pi < (cartesian2geodetic E x y z).lon
      ∧ (cartesian2geodetic E x y z).lon ≤ Real.pi)
    ∧ (¬ (z = 0 ∧ x ^ 2 + y ^ 2 = (ellipsoid_traits.a E * eccentricity_squared E) ^ 2)
      → ∃ lat : ℝ, (cartesian2geodetic E x y z).lat = some lat
        ∧ -(Real.pi / 2) ≤ lat ∧ lat ≤ Real.pi / 2) := by
  have hpi := Real.pi_pos
  constructor
  · simp only [cartesian2geodetic]
    by_cases hp : x * x + y * y ≠ 0
    · rw [if_pos hp]
      exact atan2_range y x
    · rw [if_neg hp]
      norm_num
      exact ⟨hpi, hpi.le⟩
  · intro hoff
    have hd : x * x + y * y ≤ ellipsoid_traits.a E * ellipsoid_traits.a E * 1e-32
        ∨ (halley E (x * x + y * y) |z|).2 ≠ 0 := by
      by_cases hg : x * x + y * y > ellipsoid_traits.a E * ellipsoid_traits.a E * 1e-32
      · exact Or.inr (halley_cp_pos_off_circle E x y z hg hoff).ne'
      · exact Or.inl (not_lt.mp hg)
    exact (cartesian2geodetic_range_of_divisor E x y z hd).1

/-- Witness for C5 (amended): WGS84 and the point `(4000000, 3000000, -4000000)`, in the
general branch. -/
theorem cartesian2geodetic_range_off_circle_witness :
    (-Real.pi < (cartesian2geodetic ellipsoid.wgs84 4000000 3000000 (-4000000)).lon
      ∧ (cartesian2geodetic ellipsoid.wgs84 4000000 3000000 (-4000000)).lon ≤ Real.pi)
    ∧ ∃ lat : ℝ, (cartesian2geodetic ellipsoid.wgs84 4000000 3000000 (-4000000)).lat = some lat
        ∧ -(Real.pi / 2) ≤ lat ∧ lat ≤ Real.pi / 2 :=
  ⟨(cartesian2geodetic_range_off_circle ellipsoid.wgs84 4000000 3000000 (-4000000)).1,
    (cartesian2geodetic_range_off_circle ellipsoid.wgs84 4000000 3000000 (-4000000)).2
      (by norm_num)⟩

end dso

end
